import Mathlib

/-! # doc-gen: board documentation reconciliation and pin resolution

A shallow embedding of `doc-gen/main.go`: section location (`findSection`), the
regeneration of the "Interfaces" table and the section replacement performed by
`updateBoardDocumentation`, the hardware pin name classifier (`isHardwarePin`), the
pin resolver and renderer (`getPinsSection`), the capability detector
(`detectSupportedFeatures`), the declaration classifier of `writeMachinePackageDoc`, and
`updateBoardDocumentation` over an explicit file system.

Conventions of the embedding.

* A Go `string` is a `List Char`: the text is taken to be valid UTF-8 and is viewed as its
  sequence of code points. Offsets and lengths count code points; slicing `doc[a:b]` is
  `(doc.take b).drop a`.
* A Go function returning `(T, error)` returns an `Outcome T`; a run-time panic (index out
  of range, nil dereference) is the separate constructor `Outcome.crash`.
* Every `fmt.Errorf` call site of the embedded functions is one constructor of `Error`,
  carrying the values that the message formats.
* Go maps are functions into `Option` (lookup with the `ok` flag).
-/

namespace DocGen

/-- A Go string, as its list of code points. -/
abbrev Str := List Char

/-- The errors built by `fmt.Errorf` in the embedded functions. -/
inductive Error where
  /-- Message "could not find '%s' header" of findSection. -/
  | headerNotFound (name : Str)
  /-- Message "could not find end of '%s' header" of findSection. -/
  | endNotFound (name : Str)
  /-- Message "expected 5 parts, got %d" of updateBoardDocumentation. -/
  | expectedFiveParts (got : Nat)
  /-- Message "expected pin %s with value %s to be representable by uint64". -/
  | notUint64 (name : Str)
  /-- Message "could not find NoPin constant". -/
  | noNoPin
  /-- Message "duplicate hardware pin name: %s and %s". -/
  | duplicateHardwarePin (first second : Str)
  /-- Message "could not find hardware pin name for %s". -/
  | noHardwarePinName (otherName : Str)
  /-- Message "unknown receiver for %s" of writeMachinePackageDoc. -/
  | unknownReceiver (funcName : Str)
  /-- Message "could not read Markdown file: %w". -/
  | readFailed
  /-- Message "could not write updated Markdown file: %w". -/
  | writeFailed
  /-- Message "could not rename updated Markdown file: %w". -/
  | renameFailed
  deriving DecidableEq, Repr

/-- Result of a Go function that returns a value or an error, or panics. -/
inductive Outcome (α : Type) where
  | ok (a : α)
  | error (e : Error)
  | crash
  deriving DecidableEq, Repr

/-- The function returned a value (its error result is nil). -/
def Outcome.isOk {α : Type} : Outcome α → Bool
  | .ok _ => true
  | _ => false

/-! ## The Go standard library functions used by the code -/

/-- Go strings.HasPrefix. -/
def HasPrefix (s pre : Str) : Bool := pre.isPrefixOf s

/-- Go strings.Index: offset of the first occurrence of substr in s, none for -1. -/
def Index : Str → Str → Option Nat
  | [], substr => if substr = [] then some 0 else none
  | c :: cs, substr =>
    if HasPrefix (c :: cs) substr then some 0 else (Index cs substr).map (· + 1)

/-- Go strings.Split for a one-character separator. -/
def Split (sep : Char) : Str → List Str
  | [] => [[]]
  | c :: cs =>
    if c = sep then [] :: Split sep cs
    else
      match Split sep cs with
      | [] => [[c]]
      | p :: ps => (c :: p) :: ps

/-- Go unicode.IsSpace: the Latin-1 cases and the White_Space table. -/
def IsSpace (c : Char) : Bool :=
  let r := c.toNat
  if r ≤ 0xFF then
    r = 0x09 || r = 0x0A || r = 0x0B || r = 0x0C || r = 0x0D || r = 0x20 || r = 0x85 || r = 0xA0
  else
    r = 0x1680 || (0x2000 ≤ r && r ≤ 0x200A) || r = 0x2028 || r = 0x2029 || r = 0x202F
      || r = 0x205F || r = 0x3000

/-- Go strings.TrimSpace: remove the leading and trailing white space. -/
def TrimSpace (s : Str) : Str := (s.dropWhile IsSpace).rdropWhile IsSpace

/-- The verb %-Ns of fmt.Sprintf: pad with spaces on the right up to N code points. -/
def padRight (width : Nat) (s : Str) : Str := s ++ List.replicate (width - s.length) ' '

/-- Go slice expression s[a:b]. -/
def slice (s : Str) (a b : Nat) : Str := (s.take b).drop a

/-! ## findSection -/

/-- The header searched by findSection: fmt.Sprintf("## %s\n", name). -/
def sectionHeader (name : Str) : Str := "## ".toList ++ name ++ "\n".toList

/-- The text searched for the end of a section: a newline followed by "## ". -/
def endMarker : Str := "\n## ".toList

/-- Embedding of findSection (main.go, lines 301-312). -/
def findSection (name doc : Str) : Outcome (Nat × Nat) :=
  match Index doc (sectionHeader name) with
  | none => .error (.headerNotFound name)
  | some start =>
    match Index (doc.drop start) endMarker with
    | none => .error (.endNotFound name)
    | some endOffset => .ok (start, start + endOffset)

/-! ## Regeneration of the Interfaces section -/

/-- The capability flag map: features[name] with the ok flag. -/
abbrev FlagMap := Str → Option Bool

/-- Initial value of interfacesText (main.go, line 331). -/
def interfacesHeader : Str :=
  "## Interfaces\n\n| Interface | Hardware Supported | TinyGo Support |\n| --------- | ------------- | ----- |\n".toList

/-- The row format fmt.Sprintf("| %-9s | %-3s | %-3s |\n", ...) (main.go, line 356). -/
def formatRow (feature hardwareSupport softwareSupport : Str) : Str :=
  "| ".toList ++ padRight 9 feature ++ " | ".toList ++ padRight 3 hardwareSupport
    ++ " | ".toList ++ padRight 3 softwareSupport ++ " |\n".toList

/-- The text "| " that begins a table row. -/
def rowPrefix : Str := "| ".toList

/-- The feature cell "Interface" of the table heading. -/
def interfaceCell : Str := "Interface".toList

/-- The cell "NO". -/
def cellNO : Str := "NO".toList

/-- The cell "?". -/
def cellUnknown : Str := "?".toList

/-- The cell "YES". -/
def cellYES : Str := "YES".toList

/-- The cell "Not yet". -/
def cellNotYet : Str := "Not yet".toList

/-- What one iteration of the row loop does with its line. -/
inductive RowStep where
  /-- The statement continue: nothing is appended. -/
  | skip
  /-- A row is appended to interfacesText. -/
  | emit (row : Str)
  /-- The function returns an error. -/
  | fail (e : Error)
  /-- The index expression feature[0] is out of range. -/
  | crash
  deriving DecidableEq, Repr

/-- The software-support cell after lines 347-355. -/
def updateSoftwareSupport (features : FlagMap) (feature hardwareSupport softwareSupport : Str) :
    Str :=
  if hardwareSupport ≠ cellNO ∧ hardwareSupport ≠ cellUnknown then
    match features feature with
    | some supported => if supported then cellYES else cellNotYet
    | none => softwareSupport
  else softwareSupport

/-- Body of the row loop of updateBoardDocumentation (main.go, lines 333-356). -/
def interfacesRow (features : FlagMap) (line : Str) : RowStep :=
  if !HasPrefix line rowPrefix then .skip
  else
    match Split '|' line with
    | [_, p1, p2, p3, _] =>
      let feature := TrimSpace p1
      if feature = interfaceCell then .skip
      else
        match feature with
        | [] => .crash
        | c :: _ =>
          if c = '-' then .skip
          else
            let hardwareSupport := TrimSpace p2
            let softwareSupport := TrimSpace p3
            .emit (formatRow feature hardwareSupport
              (updateSoftwareSupport features feature hardwareSupport softwareSupport))
    | parts => .fail (.expectedFiveParts parts.length)

/-- The row loop of updateBoardDocumentation (main.go, lines 332-357), started with the
text accumulated so far. -/
def interfacesLoop (features : FlagMap) (interfacesText : Str) : List Str → Outcome Str
  | [] => .ok interfacesText
  | line :: rest =>
    match interfacesRow features line with
    | .skip => interfacesLoop features interfacesText rest
    | .emit row => interfacesLoop features (interfacesText ++ row) rest
    | .fail e => .error e
    | .crash => .crash

/-- The new Interfaces section computed from the old one (main.go, lines 331-357). -/
def regenerateInterfaces (features : FlagMap) (oldSection : Str) : Outcome Str :=
  interfacesLoop features interfacesHeader (Split '\n' oldSection)

/-! ## The loaded package -/

/-- The shapes of ast.Expr that isHardwarePin tells apart. -/
inductive Expr where
  /-- Node *ast.BasicLit. -/
  | basicLit
  /-- Node *ast.BinaryExpr. -/
  | binaryExpr
  /-- Node *ast.Ident with its Name. -/
  | ident (name : Str)
  /-- Any other expression node (call, parenthesis, selector, unary, ...). -/
  | other
  deriving DecidableEq, Repr

/-- An *ast.ValueSpec: Names[0] is name (the parser never leaves Names empty), the further
names of the spec are moreNames, and Values is values. -/
structure ValueSpec where
  name : Str
  moreNames : List Str
  values : List Expr
  deriving DecidableEq, Repr

/-- The field Tok of an *ast.GenDecl. -/
inductive Token where
  | CONST
  | VAR
  | TYPE
  | IMPORT
  deriving DecidableEq, Repr

/-- An *ast.TypeSpec: its Name. -/
structure TypeSpec where
  name : Str
  deriving DecidableEq, Repr

/-- The shapes of the receiver type expression that writeMachinePackageDoc tells apart. -/
inductive TypeExpr where
  /-- Node *ast.Ident with its Name. -/
  | ident (name : Str)
  /-- Node *ast.StarExpr with its operand X. -/
  | star (x : TypeExpr)
  /-- Any other expression node (index expression of a generic type, parenthesis, ...). -/
  | other
  deriving DecidableEq, Repr

/-- An *ast.FuncDecl: its Name and, for a method, the type expression Recv.List[0].Type of
the receiver (none when Recv is nil). -/
structure FuncDecl where
  name : Str
  recv : Option TypeExpr
  deriving DecidableEq, Repr

/-- A top-level declaration. The specs of a CONST or VAR declaration are value specs, those
of a TYPE declaration are type specs; the code never looks at the specs of an IMPORT
declaration. -/
inductive Decl where
  /-- Node *ast.GenDecl with its Tok and, for CONST and VAR, its Specs. -/
  | genDecl (tok : Token) (specs : List ValueSpec)
  /-- Node *ast.GenDecl with the Tok TYPE and its Specs. -/
  | typeDecl (specs : List TypeSpec)
  /-- Node *ast.FuncDecl. -/
  | funcDecl (decl : FuncDecl)
  /-- Any other declaration. -/
  | other
  deriving DecidableEq, Repr

/-- What the code reads from the types.Object found for a constant: the text of its type,
obj.Type().String(), and constant.Uint64Val of its value (none when the second result of
Uint64Val is false). -/
structure Object where
  typeString : Str
  uint64Val : Option Nat

/-- The part of *packages.Package read by getPinsSection: pkg.Syntax as the list of the
files, each with its Decls, and pkg.Types.Scope().Lookup. -/
structure Package where
  files : List (List Decl)
  scope : Str → Option Object

/-- Go unicode.IsUpper. In ASCII the upper-case letters are A to Z; beyond ASCII the
answer is read from the Unicode tables of the Go library, the parameter upperTable. -/
def IsUpper (upperTable : Char → Bool) (c : Char) : Bool :=
  if c.toNat < 0x80 then decide ('A'.toNat ≤ c.toNat ∧ c.toNat ≤ 'Z'.toNat) else upperTable c

/-- Go ast.IsExported: the first code point of the name is upper case. -/
def IsExported (upperTable : Char → Bool) (name : Str) : Bool :=
  match name with
  | [] => false
  | c :: _ => IsUpper upperTable c

/-- A range loop whose body may return from the function: the state is threaded through
the elements until the body fails. -/
def forRange {σ α : Type} (body : σ → α → Outcome σ) : σ → List α → Outcome σ
  | st, [] => .ok st
  | st, x :: xs =>
    match body st x with
    | .ok st1 => forRange body st1 xs
    | .error e => .error e
    | .crash => .crash

/-- Go map assignment m[k] = v. -/
def mapSet {κ ν : Type} [DecidableEq κ] (m : κ → Option ν) (k : κ) (v : ν) : κ → Option ν :=
  fun j => if j = k then some v else m j

/-! ## isHardwarePin -/

/-- A character class given by the list of its members. -/
def oneOf (cs : List Char) : RegularExpression Char :=
  cs.foldr (fun c r => RegularExpression.char c + r) 0

/-- The class [0-9]. -/
def reDigit : RegularExpression Char := oneOf "0123456789".toList

/-- The class [A-Z]. -/
def reUpper : RegularExpression Char := oneOf "ABCDEFGHIJKLMNOPQRSTUVWXYZ".toList

/-- A literal string. -/
def reLit (s : Str) : RegularExpression Char :=
  s.foldr (fun c r => RegularExpression.char c * r) 1

/-- The expression pinIsHardwareName (main.go, line 51),
P[A-Z][0-9]+|P[0-1]_[0-9]{2}|GPIO[0-9]+|P[0-9]{2}, matched against the whole name
because of the anchors ^ and $. -/
def pinIsHardwareName : RegularExpression Char :=
  RegularExpression.char 'P' * reUpper * (reDigit * RegularExpression.star reDigit)
  + RegularExpression.char 'P' * oneOf "01".toList * RegularExpression.char '_'
      * (reDigit * reDigit)
  + reLit "GPIO".toList * (reDigit * RegularExpression.star reDigit)
  + RegularExpression.char 'P' * (reDigit * reDigit)

/-- The identifier iota. -/
def iotaName : Str := "iota".toList

/-- Embedding of isHardwarePin (main.go, lines 553-587). -/
def isHardwarePin (name : Str) (values : List Expr) : Bool :=
  if !pinIsHardwareName.rmatch name then false
  else
    match values with
    | [] => true
    | .basicLit :: _ => true
    | .binaryExpr :: _ => true
    | .ident valueName :: _ => if valueName = iotaName then true else false
    | .other :: _ => false

/-! ## getPinsSection -/

/-- The struct Pin (main.go, lines 40-43). -/
structure Pin where
  HardwareName : Str
  OtherNames : List Str
  deriving DecidableEq, Repr

/-- The variables filled by the first loop of getPinsSection. -/
structure PinScan where
  pinNames : Str → Option Nat
  hardwarePins : Str → Bool
  pinNamesSlice : List Str

/-- The text "machine.Pin" of the pin type. -/
def pinTypeString : Str := "machine.Pin".toList

/-- The name NoPin. -/
def noPinName : Str := "NoPin".toList

/-- Body of the loop over the specs of a constant declaration (main.go, lines 482-500). -/
def scanSpec (upperTable : Char → Bool) (pkg : Package) (st : PinScan) (spec : ValueSpec) :
    Outcome PinScan :=
  let name := spec.name
  if !IsExported upperTable name then .ok st
  else
    match pkg.scope name with
    | none => .crash
    | some obj =>
      if obj.typeString ≠ pinTypeString then .ok st
      else
        match obj.uint64Val with
        | none => .error (.notUint64 name)
        | some val =>
          .ok { pinNamesSlice := st.pinNamesSlice ++ [name]
                pinNames := mapSet st.pinNames name val
                hardwarePins :=
                  if isHardwarePin name spec.values then
                    fun j => if j = name then true else st.hardwarePins j
                  else st.hardwarePins }

/-- Body of the loop over the declarations of a file (main.go, lines 476-502). -/
def scanDecl (upperTable : Char → Bool) (pkg : Package) (st : PinScan) (decl : Decl) :
    Outcome PinScan :=
  match decl with
  | .genDecl tok specs =>
    if tok ≠ Token.CONST then .ok st else forRange (scanSpec upperTable pkg) st specs
  | _ => .ok st

/-- The first loop of getPinsSection (main.go, lines 471-504). -/
def scanPins (upperTable : Char → Bool) (pkg : Package) : Outcome PinScan :=
  forRange (fun st file => forRange (scanDecl upperTable pkg) st file)
    { pinNames := fun _ => none, hardwarePins := fun _ => false, pinNamesSlice := [] }
    pkg.files

/-- Go map read m[k] of a map with uint64 values: zero for a missing key. -/
def pinValue (scan : PinScan) (name : Str) : Nat := (scan.pinNames name).getD 0

/-- The variables of the second loop of getPinsSection. The elements of exposedPins are
pointers to the Pin objects stored in the map pins; each object is allocated under one key
of the map and is identified here by that key. -/
structure Resolve where
  exposedPins : List Nat
  pins : Nat → Option Pin

/-- Body of the second loop of getPinsSection (main.go, lines 511-532). -/
def resolveStep (scan : PinScan) (st : Resolve) (name : Str) : Outcome Resolve :=
  if name = noPinName ∨ pinValue scan name = pinValue scan noPinName then .ok st
  else
    let num := pinValue scan name
    let pin : Pin := (st.pins num).getD { HardwareName := [], OtherNames := [] }
    if scan.hardwarePins name then
      if pin.HardwareName ≠ [] then .error (.duplicateHardwarePin pin.HardwareName name)
      else .ok { st with pins := mapSet st.pins num { pin with HardwareName := name } }
    else
      .ok { exposedPins :=
              if pin.OtherNames.length = 0 then st.exposedPins ++ [num] else st.exposedPins
            pins := mapSet st.pins num { pin with OtherNames := pin.OtherNames ++ [name] } }

/-- The Pin objects that exposedPins points to once the second loop is over. -/
def derefPins (st : Resolve) : Outcome (List Pin) :=
  forRange (fun acc num =>
    match st.pins num with
    | some pin => .ok (acc ++ [pin])
    | none => .crash) [] st.exposedPins

/-- The first half of getPinsSection (main.go, lines 471-533): the pin entries in
exposedPins. -/
def resolvePins (upperTable : Char → Bool) (pkg : Package) : Outcome (List Pin) :=
  match scanPins upperTable pkg with
  | .error e => .error e
  | .crash => .crash
  | .ok scan =>
    if scan.pinNames noPinName = none then .error .noNoPin
    else
      match forRange (resolveStep scan) { exposedPins := [], pins := fun _ => none }
          scan.pinNamesSlice with
      | .error e => .error e
      | .crash => .crash
      | .ok st => derefPins st

/-- Initial value of pinsText (main.go, line 535). -/
def pinsHeader : Str :=
  "## Pins\n\n| Pin               | Hardware pin | Alternative names |\n| ----------------- | ------------ | ----------------- |\n".toList

/-- A name between backticks. -/
def quoted (name : Str) : Str := "`".toList ++ name ++ "`".toList

/-- Go strings.Join. -/
def Join (elems : List Str) (sep : Str) : Str := sep.intercalate elems

/-- Body of the rendering loop of getPinsSection (main.go, lines 537-544). With an empty
OtherNames both pin.OtherNames[0] and pin.OtherNames[1:] are out of range. -/
def renderPin (pinsText : Str) (pin : Pin) : Outcome Str :=
  match pin.OtherNames with
  | [] => .crash
  | first :: rest =>
    if pin.HardwareName = [] then .error (.noHardwarePinName first)
    else
      let alternativeNames := rest.map quoted
      .ok (pinsText ++ ("| ".toList ++ padRight 17 (quoted first) ++ " | ".toList
        ++ padRight 12 (quoted pin.HardwareName) ++ " | ".toList
        ++ padRight 17 (Join alternativeNames ", ".toList) ++ " |\n".toList))

/-- Embedding of getPinsSection (main.go, lines 469-548). -/
def getPinsSection (upperTable : Char → Bool) (pkg : Package) : Outcome Str :=
  match resolvePins upperTable pkg with
  | .error e => .error e
  | .crash => .crash
  | .ok exposedPins => forRange renderPin pinsHeader exposedPins

/-! ## updateBoardDocumentation -/

/-- The section name "Interfaces". -/
def interfacesName : Str := "Interfaces".toList

/-- The section name "Pins". -/
def pinsName : Str := "Pins".toList

/-- Embedding of updateBoardDocumentation (main.go, lines 322-372): from the flag map
returned by detectSupportedFeatures and the text read from the board document to the text
that is handed to ioutil.WriteFile. -/
def updateBoardDocumentation (upperTable : Char → Bool) (features : FlagMap) (doc : Str)
    (pkg : Package) : Outcome Str :=
  match findSection interfacesName doc with
  | .error e => .error e
  | .crash => .crash
  | .ok (start, stop) =>
    match regenerateInterfaces features (slice doc start stop) with
    | .error e => .error e
    | .crash => .crash
    | .ok interfacesText =>
      let doc1 := doc.take start ++ interfacesText ++ doc.drop stop
      match findSection pinsName doc1 with
      | .ok (start1, stop1) =>
        match getPinsSection upperTable pkg with
        | .error e => .error e
        | .crash => .crash
        | .ok pinsText => .ok (doc1.take start1 ++ pinsText ++ doc1.drop stop1)
      | _ => .ok doc1

/-! ## detectSupportedFeatures -/

/-- A types.Type, identified by a number: two types are the same value exactly when their
numbers are equal. -/
abbrev GoType := Nat

/-- The package with the type information read by detectSupportedFeatures. -/
structure TypedPackage extends Package where
  /-- The type pkg.Types.Scope().Lookup(name).Type() of a name found in the scope. -/
  typeOf : Str → GoType
  /-- The method types.NewMethodSet(T).Lookup(pkg.Types, name), given by the types of the
  parameters of its signature; none for nil. -/
  methodSet : GoType → Str → Option (List GoType)

/-- The key "GPIO". -/
def gpioName : Str := "GPIO".toList

/-- The key and the name "UART". -/
def uartName : Str := "UART".toList

/-- The key and the name "SPI". -/
def spiName : Str := "SPI".toList

/-- The key and the name "I2C". -/
def i2cName : Str := "I2C".toList

/-- The key and the type name "ADC". -/
def adcName : Str := "ADC".toList

/-- The key "PWM". -/
def pwmName : Str := "PWM".toList

/-- The key "Bluetooth". -/
def bluetoothName : Str := "Bluetooth".toList

/-- The key and the name "USBDevice". -/
def usbDeviceName : Str := "USBDevice".toList

/-- The type name "Pin". -/
def pinTypeName : Str := "Pin".toList

/-- The type name "PWMConfig". -/
def pwmConfigName : Str := "PWMConfig".toList

/-- The method name "Get". -/
def getName : Str := "Get".toList

/-- The method name "Configure". -/
def configureName : Str := "Configure".toList

/-- The keys of the map literal of detectSupportedFeatures (main.go, lines 391-400). -/
def featureNames : List Str :=
  [gpioName, uartName, spiName, i2cName, adcName, pwmName, bluetoothName, usbDeviceName]

/-- The map literal of detectSupportedFeatures: every key with the value false. -/
def initialFeatures : FlagMap := fun k => if k ∈ featureNames then some false else none

/-- The condition of line 422 on a build tag. -/
def isRadioTag (tag : Str) : Bool :=
  tag = "nrf51".toList || tag = "nrf52".toList || tag = "nrf52840".toList
    || tag = "nrf52833".toList

/-- The loop over the build tags (main.go, lines 421-425). -/
def bluetoothLoop (features : FlagMap) : List Str → FlagMap
  | [] => features
  | tag :: rest =>
    bluetoothLoop (if isRadioTag tag then mapSet features bluetoothName true else features) rest

/-- Body of the loop over the specs of a variable declaration (main.go, lines 441-460). -/
def pwmSpec (upperTable : Char → Bool) (pkg : TypedPackage) (features : FlagMap)
    (spec : ValueSpec) : Outcome FlagMap :=
  let name := spec.name
  if !IsExported upperTable name then .ok features
  else
    match pkg.scope name with
    | none => .crash
    | some _ =>
      match pkg.methodSet (pkg.typeOf name) configureName with
      | none => .ok features
      | some params =>
        if params.length ≠ 1 then .ok features
        else
          match pkg.scope pwmConfigName with
          | none => .crash
          | some _ =>
            if params.head? ≠ some (pkg.typeOf pwmConfigName) then .ok features
            else .ok (mapSet features pwmName true)

/-- Body of the loop over the declarations of a file (main.go, lines 435-462). -/
def pwmDecl (upperTable : Char → Bool) (pkg : TypedPackage) (features : FlagMap)
    (decl : Decl) : Outcome FlagMap :=
  match decl with
  | .genDecl tok specs =>
    if tok ≠ Token.VAR then .ok features else forRange (pwmSpec upperTable pkg) features specs
  | _ => .ok features

/-- The assignment features[key] = true under a condition. -/
def setIf (cond : Bool) (features : FlagMap) (key : Str) : FlagMap :=
  if cond then mapSet features key true else features

/-- Embedding of detectSupportedFeatures (main.go, lines 390-467). The method Type is
called on the results of the lookups of "Pin" and of "ADC", which panics on nil. -/
def detectSupportedFeatures (upperTable : Char → Bool) (pkg : TypedPackage)
    (buildTags : List Str) : Outcome FlagMap :=
  match pkg.scope pinTypeName with
  | none => .crash
  | some _ =>
    let features := setIf (pkg.methodSet (pkg.typeOf pinTypeName) getName).isSome
      initialFeatures gpioName
    let features := setIf (pkg.scope uartName).isSome features uartName
    let features := setIf (pkg.scope spiName).isSome features spiName
    let features := setIf (pkg.scope i2cName).isSome features i2cName
    match pkg.scope adcName with
    | none => .crash
    | some _ =>
      let features := setIf (pkg.methodSet (pkg.typeOf adcName) configureName).isSome
        features adcName
      let features := bluetoothLoop features buildTags
      let features := setIf (pkg.scope usbDeviceName).isSome features usbDeviceName
      forRange (fun features file => forRange (pwmDecl upperTable pkg) features file)
        features pkg.files

/-! ## The declaration classifier of writeMachinePackageDoc -/

/-- The struct Type (main.go, lines 34-38), without the comment group Doc. -/
structure TypeDoc where
  spec : TypeSpec
  Funcs : Str → Option FuncDecl

/-- The struct PackageDoc (main.go, lines 25-31). -/
structure PackageDoc where
  Target : Str
  Types : Str → Option TypeDoc
  Funcs : Str → Option FuncDecl
  Constants : List Decl
  Variables : List Decl

/-- The flag hasExportedNames of a constant or variable declaration (main.go, lines
181-188): some name of some spec is exported. -/
def hasExportedNames (upperTable : Char → Bool) (specs : List ValueSpec) : Bool :=
  specs.any (fun spec => (spec.name :: spec.moreNames).any (IsExported upperTable))

/-- Body of the loop over the specs of a type declaration (main.go, lines 199-210). -/
def readTypeSpec (upperTable : Char → Bool) (doc : PackageDoc) (spec : TypeSpec) :
    PackageDoc :=
  if !IsExported upperTable spec.name then doc
  else { doc with Types := mapSet doc.Types spec.name { spec := spec, Funcs := fun _ => none } }

/-- Body of the first loop over the declarations (main.go, lines 177-212). -/
def readDecl (upperTable : Char → Bool) (doc : PackageDoc) (decl : Decl) : PackageDoc :=
  match decl with
  | .genDecl tok specs =>
    if tok = Token.CONST ∨ tok = Token.VAR then
      if hasExportedNames upperTable specs then
        match tok with
        | .CONST => { doc with Constants := doc.Constants ++ [decl] }
        | .VAR => { doc with Variables := doc.Variables ++ [decl] }
        | _ => doc
      else doc
    else doc
  | .typeDecl specs => specs.foldl (readTypeSpec upperTable) doc
  | _ => doc

/-- The assignment doc.Types[receiverName].Funcs[decl.Name.Name] = decl under the guard
ast.IsExported(receiverName) (main.go, lines 246-248); the entry of an unregistered type is
nil and its field Funcs cannot be read. -/
def attachMethod (upperTable : Char → Bool) (doc : PackageDoc) (decl : FuncDecl)
    (receiverName : Str) : Outcome PackageDoc :=
  if IsExported upperTable receiverName then
    match doc.Types receiverName with
    | none => .crash
    | some typeDoc =>
      .ok { doc with
            Types := mapSet doc.Types receiverName
              { typeDoc with Funcs := mapSet typeDoc.Funcs decl.name decl } }
  else .ok doc

/-- Body of the second loop over the declarations (main.go, lines 219-251). The type
assertion receiver.X.(*ast.Ident) panics when the operand of the star is no identifier. -/
def attachFunc (upperTable : Char → Bool) (doc : PackageDoc) (decl : Decl) :
    Outcome PackageDoc :=
  match decl with
  | .funcDecl fd =>
    if !IsExported upperTable fd.name then .ok doc
    else
      match fd.recv with
      | none => .ok { doc with Funcs := mapSet doc.Funcs fd.name fd }
      | some (.ident receiverName) => attachMethod upperTable doc fd receiverName
      | some (.star (.ident receiverName)) => attachMethod upperTable doc fd receiverName
      | some (.star _) => .crash
      | some .other => .error (.unknownReceiver fd.name)
  | _ => .ok doc

/-- The PackageDoc after the first loop of writeMachinePackageDoc (main.go, lines
169-213). -/
def readDeclarations (upperTable : Char → Bool) (target : Str) (pkg : Package) : PackageDoc :=
  pkg.files.foldl (fun doc file => file.foldl (readDecl upperTable) doc)
    { Target := target, Types := fun _ => none, Funcs := fun _ => none,
      Constants := [], Variables := [] }

/-- Embedding of the classification done by writeMachinePackageDoc (main.go, lines
168-253): the PackageDoc that is handed to the template, or the error returned. -/
def writeMachinePackageDoc (upperTable : Char → Bool) (target : Str) (pkg : Package) :
    Outcome PackageDoc :=
  forRange (fun doc file => forRange (attachFunc upperTable) doc file)
    (readDeclarations upperTable target pkg) pkg.files

/-! ## updateBoardDocumentation on the file system -/

/-- The files of the file system: the content stored at a path, none when there is no
file. -/
abbrev FileSystem := Str → Option Str

/-- How the system calls behave: whether ioutil.WriteFile fails, what a failed WriteFile
leaves at its path, and whether os.Rename fails. -/
structure Faults where
  writeFails : Bool
  leftByWrite : Option Str
  renameFails : Bool

/-- The path path+".tmp". -/
def tmpPath (path : Str) : Str := path ++ ".tmp".toList

/-- A successful ioutil.WriteFile. -/
def writeFile (fs : FileSystem) (path data : Str) : FileSystem :=
  fun p => if p = path then some data else fs p

/-- A successful os.Rename: the new path holds the file, the old path is gone. -/
def renameFile (fs : FileSystem) (oldPath newPath : Str) : FileSystem :=
  fun p => if p = newPath then fs oldPath else if p = oldPath then none else fs p

/-- Embedding of updateBoardDocumentation (main.go, lines 314-385) with the file system as
explicit state: the file system left behind and the result returned. -/
def updateBoardDocumentationFile (upperTable : Char → Bool) (faults : Faults)
    (fs : FileSystem) (path : Str) (pkg : TypedPackage) (buildTags : List Str) :
    FileSystem × Outcome Unit :=
  match detectSupportedFeatures upperTable pkg buildTags with
  | .crash => (fs, .crash)
  | .error e => (fs, .error e)
  | .ok features =>
    match fs path with
    | none => (fs, .error .readFailed)
    | some doc =>
      match updateBoardDocumentation upperTable features doc pkg.toPackage with
      | .crash => (fs, .crash)
      | .error e => (fs, .error e)
      | .ok text =>
        if faults.writeFails then
          (fun p => if p = tmpPath path then faults.leftByWrite else fs p, .error .writeFailed)
        else if faults.renameFails then
          (writeFile fs (tmpPath path) text, .error .renameFailed)
        else (renameFile (writeFile fs (tmpPath path) text) (tmpPath path) path, .ok ())


/-! ## The Interfaces step of updateBoardDocumentation -/

/-- The first step of updateBoardDocumentation (main.go, lines 324-360): locate the
Interfaces section, regenerate it from its rows, and replace it in the document. -/
def replaceInterfacesSection (features : FlagMap) (doc : Str) : Outcome Str :=
  match findSection interfacesName doc with
  | .error e => .error e
  | .crash => .crash
  | .ok (start, stop) =>
    match regenerateInterfaces features (slice doc start stop) with
    | .error e => .error e
    | .crash => .crash
    | .ok interfacesText => .ok (doc.take start ++ interfacesText ++ doc.drop stop)
/-! ## Specification-side definitions

The definitions of this section follow the wording of the specification; the theorems
compare them with the embedding of the code above. -/

/-- The cells of a data row, as the specification describes one: a line beginning with
"| " that splits on "|" into exactly 5 parts and whose trimmed first cell is neither
"Interface" nor starts with a dash. The result holds the trimmed feature, hardware-support
and software-support cells. -/
def dataRow (line : Str) : Option (Str × Str × Str) :=
  if HasPrefix line rowPrefix then
    match Split '|' line with
    | [_, p1, p2, p3, _] =>
      if TrimSpace p1 = interfaceCell ∨ (TrimSpace p1).head? = some '-' then none
      else some (TrimSpace p1, TrimSpace p2, TrimSpace p3)
    | _ => none
  else none

/-- The software-support cell the specification asks for: the old cell when the hardware
cell is "NO" or "?" or the feature is no key of the flag map, otherwise "YES" or "Not yet"
according to the flag. -/
def expectedSoftwareSupport (features : FlagMap) (feature hardwareSupport softwareSupport : Str) :
    Str :=
  if hardwareSupport = cellNO ∨ hardwareSupport = cellUnknown then softwareSupport
  else
    match features feature with
    | some true => cellYES
    | some false => cellNotYet
    | none => softwareSupport

/-- The row of the new section that the specification asks for a data row. -/
def expectedRow (features : FlagMap) (cells : Str × Str × Str) : Str :=
  formatRow cells.1 cells.2.1 (expectedSoftwareSupport features cells.1 cells.2.1 cells.2.2)

/-- The new section that the specification asks for: the fixed heading and one row for each
data row of the old section, in the same order. -/
def expectedInterfaces (features : FlagMap) (oldSection : Str) : Str :=
  interfacesHeader
    ++ (((Split '\n' oldSection).filterMap dataRow).map (expectedRow features)).flatten

/-- A line is read without failure by the row loop: it does not begin with "| ", or it
splits into exactly 5 parts of which the trimmed first cell is not empty. -/
def rowParses (line : Str) : Bool :=
  !HasPrefix line rowPrefix ||
    match Split '|' line with
    | [_, p1, _, _, _] => !(TrimSpace p1).isEmpty
    | _ => false

/-- Every line of the old section is read without failure. -/
def rowsParse (oldSection : Str) : Bool := (Split '\n' oldSection).all rowParses

/-- A line is malformed: it begins with "| " and does not split into 5 parts. -/
def malformedRow (line : Str) : Bool :=
  HasPrefix line rowPrefix && (Split '|' line).length != 5

/-- The second loop of getPinsSection skips the name: it is NoPin or has the value of
NoPin. -/
def isNoPin (scan : PinScan) (name : Str) : Bool :=
  decide (name = noPinName ∨ pinValue scan name = pinValue scan noPinName)

/-- The names, in declaration order, that are not skipped and are not classified as
hardware names: the aliases. -/
def aliasNames (scan : PinScan) (names : List Str) : List Str :=
  names.filter (fun n => !isNoPin scan n && !scan.hardwarePins n)

/-- The names, in declaration order, that are not skipped and are classified as hardware
names. -/
def hardwareNames (scan : PinScan) (names : List Str) : List Str :=
  names.filter (fun n => !isNoPin scan n && scan.hardwarePins n)

/-- The distinct values of a list in the order of their first occurrence. -/
def firstSeen : List Nat → List Nat
  | [] => []
  | x :: xs => x :: (firstSeen xs).filter (fun y => y ≠ x)

/-- The pin entry of a numeric value: its hardware name and its aliases in declaration
order. -/
def entryOf (scan : PinScan) (names : List Str) (num : Nat) : Pin where
  HardwareName := ((hardwareNames scan names).filter (fun n => pinValue scan n = num)).headD []
  OtherNames := (aliasNames scan names).filter (fun n => pinValue scan n = num)

/-- The pin entries that the specification asks for: one for each value that has an
alias, in the order in which the values first acquired an alias. -/
def expectedEntries (scan : PinScan) : List Pin :=
  (firstSeen ((aliasNames scan scan.pinNamesSlice).map (pinValue scan))).map
    (entryOf scan scan.pinNamesSlice)

/-- The names that are not skipped and have the value num. -/
def namesOf (scan : PinScan) (names : List Str) (num : Nat) : List Str :=
  names.filter (fun n => !isNoPin scan n && decide (pinValue scan n = num))

/-- The state of the second loop of getPinsSection after the names in done: the map pins
holds the entry of every value met, no value has two hardware names, and exposedPins lists
the values with an alias in the order of their first alias. -/
structure ResolveInv (scan : PinScan) (done : List Str) (st : Resolve) : Prop where
  pins : ∀ num, st.pins num
    = if namesOf scan done num = [] then none else some (entryOf scan done num)
  single : ∀ num,
    ((hardwareNames scan done).filter (fun n => pinValue scan n = num)).length ≤ 1
  exposed : st.exposedPins = firstSeen ((aliasNames scan done).map (pinValue scan))

/-- What the first loop of getPinsSection guarantees of its variables: a name recorded in
hardwarePins matches pinIsHardwareName and is in pinNamesSlice, and the names of
pinNamesSlice are the keys of pinNames. -/
structure ScanInv (scan : PinScan) : Prop where
  hardware : ∀ n, scan.hardwarePins n = true →
    pinIsHardwareName.rmatch n = true ∧ n ∈ scan.pinNamesSlice
  keys : ∀ n, n ∈ scan.pinNamesSlice ↔ scan.pinNames n ≠ none

/-- A row of the regenerated table: it ends with "|" and a newline and has no other
newline. -/
def GuardedRow (r : Str) : Prop := ∃ b, r = b ++ ['|', '\n'] ∧ '\n' ∉ b

/-- The value specs of the constant declarations of a file, in source order. -/
def constSpecsOf (decls : List Decl) : List ValueSpec :=
  decls.flatMap (fun decl =>
    match decl with
    | .genDecl .CONST specs => specs
    | _ => [])

/-- The value specs of the constant declarations of the package, in source order. -/
def constSpecs (pkg : Package) : List ValueSpec :=
  pkg.files.flatMap constSpecsOf

/-- The first name of the spec is exported and declared with the type machine.Pin. -/
def isPinSpec (upperTable : Char → Bool) (pkg : Package) (spec : ValueSpec) : Bool :=
  IsExported upperTable spec.name &&
    match pkg.scope spec.name with
    | some obj => decide (obj.typeString = pinTypeString)
    | none => false

/-- The variables of the first loop of getPinsSection after the specs in done, in terms
of the package: pinNamesSlice lists the first names of the pin specs, pinNames maps each
of them to the value of its object, and hardwarePins holds the names that some pin spec
declares with a hardware name and a chip-level initializer. -/
structure ScanSpec (upperTable : Char → Bool) (pkg : Package) (done : List ValueSpec)
    (st : PinScan) : Prop where
  names : st.pinNamesSlice = (done.filter (isPinSpec upperTable pkg)).map (fun spec => spec.name)
  values : ∀ n, st.pinNames n
    = if n ∈ st.pinNamesSlice then (pkg.scope n).bind (fun obj => obj.uint64Val) else none
  hardware : ∀ n, st.hardwarePins n
    = (done.filter (isPinSpec upperTable pkg)).any
        (fun spec => decide (spec.name = n) && isHardwarePin n spec.values)

/-- The pin specs of the package: the constant specs whose first name is exported and
declared with the type machine.Pin, in source order. -/
def pinSpecs (upperTable : Char → Bool) (pkg : Package) : List ValueSpec :=
  (constSpecs pkg).filter (isPinSpec upperTable pkg)

/-- The exported Pin constants of the package as the first loop of getPinsSection collects
them: the first names of the pin specs in source order, each with the value of its object,
and as hardware names those that some pin spec declares with a name and an initializer
accepted by isHardwarePin. -/
def packageScan (upperTable : Char → Bool) (pkg : Package) : PinScan where
  pinNamesSlice := (pinSpecs upperTable pkg).map (fun spec => spec.name)
  pinNames := fun n =>
    if n ∈ (pinSpecs upperTable pkg).map (fun spec => spec.name) then
      (pkg.scope n).bind (fun obj => obj.uint64Val)
    else none
  hardwarePins := fun n =>
    (pinSpecs upperTable pkg).any
      (fun spec => decide (spec.name = n) && isHardwarePin n spec.values)

/-- The first loop of getPinsSection reads the spec without failure: when its first name
is exported, the name is found in the package scope, and when the type is machine.Pin the
value is representable as uint64. -/
def specReadable (upperTable : Char → Bool) (pkg : Package) (spec : ValueSpec) : Bool :=
  !IsExported upperTable spec.name ||
    match pkg.scope spec.name with
    | some obj => decide (obj.typeString ≠ pinTypeString) || obj.uint64Val.isSome
    | none => false

/-- The hardware forms of a pin name, in the words of the specification: P, one upper-case
letter and one or more digits; P, 0 or 1, an underscore and exactly two digits; GPIO and
one or more digits; P and exactly two digits. The letters are the ASCII letters A to Z and
the digits the ASCII digits 0 to 9. -/
def hardwareForm (name : Str) : Prop :=
  (∃ u ds, name = 'P' :: u :: ds ∧ u.isUpper = true ∧ ds ≠ [] ∧ ∀ d ∈ ds, d.isDigit = true)
  ∨ (∃ b d1 d2, name = ['P', b, '_', d1, d2] ∧ (b = '0' ∨ b = '1')
      ∧ d1.isDigit = true ∧ d2.isDigit = true)
  ∨ (∃ ds, name = 'G' :: 'P' :: 'I' :: 'O' :: ds ∧ ds ≠ [] ∧ ∀ d ∈ ds, d.isDigit = true)
  ∨ (∃ d1 d2, name = ['P', d1, d2] ∧ d1.isDigit = true ∧ d2.isDigit = true)

/-- The initializer shapes of a chip-level constant, in the words of the specification: no
initializer, or a first expression that is a basic literal, a binary expression or the
identifier iota. -/
def chipInitializer (values : List Expr) : Prop :=
  values = [] ∨ ∃ rest, values = Expr.basicLit :: rest ∨ values = Expr.binaryExpr :: rest
    ∨ values = Expr.ident iotaName :: rest

/-! ## Concrete inputs used by the examples -/

/-- A document in which the text "## Pins" and a newline first occurs inside the line
"### Pins". -/
def docSubsection : Str := "### Pins\n\ntext\n## End\n".toList

/-- A board document whose Pins section is the last section. -/
def docPinsLast : Str :=
  "# Board\n\n## Interfaces\n\n| SPI | YES | NO |\n\n## Pins\n\n| Pin |\n".toList

/-- The text returned for docPinsLast: the Interfaces section is regenerated and the Pins
section is as it was. -/
def docPinsLastUpdated : Str :=
  "# Board\n\n".toList ++ interfacesHeader
    ++ "| SPI       | YES | YES |\n\n## Pins\n\n| Pin |\n".toList

/-- A board document without Pins section. -/
def docNoPins : Str :=
  "# Board\n\n## Interfaces\n\n| SPI | YES | NO |\n\n## Notes\n\ntext\n".toList

/-- A board document without Interfaces section. -/
def docNoInterfaces : Str := "# Board\n\n## Pins\n\n| Pin |\n\n## Notes\n".toList

/-- An Interfaces section with the rows of the scenario of the specification. -/
def sectionScenario : Str :=
  "## Interfaces\n\n| Interface | Hardware Supported | TinyGo Support |\n| --------- | ------------- | ----- |\n| SPI | YES | NO |\n| CAN | NO | ? |\n| I2C | YES | YES |\n".toList

/-- A flag map with SPI detected and I2C not detected. -/
def flagsScenario : FlagMap := fun k =>
  if k = "SPI".toList then some true else if k = "I2C".toList then some false else none

/-- A document whose Interfaces section has a row with a blank first cell before a
malformed row. -/
def docBlankThenMalformed : Str :=
  "## Interfaces\n\n|  | YES | NO |\n| SPI | YES |\n\n## Pins\n".toList

/-- A package without declarations. -/
def emptyPackage : Package where
  files := []
  scope := fun _ => none

/-- The constants of the scenario of the specification: NoPin = 0xFF, GPIO3 Pin = 3 and
LED Pin = GPIO3. -/
def pkgScenario : Package where
  files := [[Decl.genDecl Token.CONST [⟨"NoPin".toList, [], [Expr.basicLit]⟩],
    Decl.genDecl Token.CONST [⟨"GPIO3".toList, [], [Expr.basicLit]⟩,
      ⟨"LED".toList, [], [Expr.ident "GPIO3".toList]⟩]]]
  scope := fun n =>
    if n = "NoPin".toList then some ⟨pinTypeString, some 255⟩
    else if n = "GPIO3".toList ∨ n = "LED".toList then some ⟨pinTypeString, some 3⟩
    else none

/-- Constants with two hardware names, PA0 and GPIO0, of the value 0. -/
def pkgDuplicate : Package where
  files := [[Decl.genDecl Token.CONST [⟨"NoPin".toList, [], [Expr.basicLit]⟩,
    ⟨"PA0".toList, [], [Expr.basicLit]⟩, ⟨"GPIO0".toList, [], [Expr.basicLit]⟩,
    ⟨"LED".toList, [], [Expr.ident "PA0".toList]⟩]]]
  scope := fun n =>
    if n = "NoPin".toList then some ⟨pinTypeString, some 255⟩
    else if n = "PA0".toList ∨ n = "GPIO0".toList ∨ n = "LED".toList then
      some ⟨pinTypeString, some 0⟩
    else none

/-- An upper-case table without entries beyond ASCII. -/
def asciiOnly : Char → Bool := fun _ => false

/-- Constants in which the alias LED has a value without hardware name. -/
def pkgAliasOnly : Package where
  files := [[Decl.genDecl Token.CONST [⟨"NoPin".toList, [], [Expr.basicLit]⟩,
    ⟨"LED".toList, [], [Expr.basicLit]⟩]]]
  scope := fun n =>
    if n = "NoPin".toList then some ⟨pinTypeString, some 255⟩
    else if n = "LED".toList then some ⟨pinTypeString, some 13⟩
    else none

/-- The pin table rendered for the constants of the scenario. -/
def pinsTextScenario : Str :=
  pinsHeader ++ "| `LED`             | `GPIO3`      |                   |\n".toList

/-! ## Specification-side definitions for the capability detector -/

/-- The chip-family tags that stand for a radio, as the specification lists them. -/
def radioTags : List Str :=
  ["nrf51".toList, "nrf52".toList, "nrf52840".toList, "nrf52833".toList]

/-- The value specs of the variable declarations of the package, in source order. -/
def varSpecs (pkg : Package) : List ValueSpec :=
  pkg.files.flatMap (fun decls => decls.flatMap (fun decl =>
    match decl with
    | .genDecl .VAR specs => specs
    | _ => []))

/-- The variable name denotes a PWM peripheral, in the words of the specification: it is
exported and the method set of its type has a Configure method with exactly one parameter,
of the type PWMConfig. -/
def isPWMVariable (upperTable : Char → Bool) (pkg : TypedPackage) (name : Str) : Bool :=
  IsExported upperTable name &&
    match pkg.methodSet (pkg.typeOf name) configureName with
    | some [param] => decide (param = pkg.typeOf pwmConfigName)
    | _ => false

/-- The flags that do not depend on the variables of the package: the map of
detectSupportedFeatures before its last loop. -/
def baseFeatures (pkg : TypedPackage) (buildTags : List Str) : FlagMap := fun k =>
  if k = gpioName then some (pkg.methodSet (pkg.typeOf pinTypeName) getName).isSome
  else if k = uartName then some (pkg.scope uartName).isSome
  else if k = spiName then some (pkg.scope spiName).isSome
  else if k = i2cName then some (pkg.scope i2cName).isSome
  else if k = adcName then some (pkg.methodSet (pkg.typeOf adcName) configureName).isSome
  else if k = pwmName then some false
  else if k = bluetoothName then some (buildTags.any (fun tag => decide (tag ∈ radioTags)))
  else if k = usbDeviceName then some (pkg.scope usbDeviceName).isSome
  else none

/-- The flag of a key in the result of detectSupportedFeatures, none when the key is
missing or no map is returned. -/
def detectedFlag (upperTable : Char → Bool) (pkg : TypedPackage) (buildTags : List Str)
    (key : Str) : Option Bool :=
  match detectSupportedFeatures upperTable pkg buildTags with
  | .ok features => features key
  | _ => none

/-- A machine package with the types Pin (number 1, with Get), ADC (2, with Configure) and
PWMConfig (3), the variable UART0 of a type (5) whose Configure takes a UARTConfig (6), and
the declaration `var a, PWM0 = ...` in which PWM0 has a type (4) whose Configure takes one
PWMConfig. -/
def pkgLaterName : TypedPackage where
  files := [[Decl.typeDecl [⟨"Pin".toList⟩, ⟨"ADC".toList⟩, ⟨"PWMConfig".toList⟩],
    Decl.genDecl Token.VAR [⟨"UART0".toList, [], [Expr.other]⟩],
    Decl.genDecl Token.VAR [⟨"a".toList, ["PWM0".toList], [Expr.other, Expr.other]⟩]]]
  scope := fun n =>
    if n ∈ ["Pin".toList, "ADC".toList, "PWMConfig".toList, "UART0".toList, "a".toList,
        "PWM0".toList] then some ⟨[], none⟩
    else none
  typeOf := fun n =>
    if n = "Pin".toList then 1 else if n = "ADC".toList then 2
    else if n = "PWMConfig".toList then 3 else if n = "PWM0".toList then 4
    else if n = "UART0".toList then 5 else 0
  methodSet := fun t m =>
    if t = 1 ∧ m = "Get".toList then some []
    else if t = 2 ∧ m = "Configure".toList then some [7]
    else if t = 4 ∧ m = "Configure".toList then some [3]
    else if t = 5 ∧ m = "Configure".toList then some [6]
    else none

/-- The same package with the declaration `var PWM0 = ...` in place of `var a, PWM0 = ...`. -/
def pkgFirstName : TypedPackage where
  files := [[Decl.typeDecl [⟨"Pin".toList⟩, ⟨"ADC".toList⟩, ⟨"PWMConfig".toList⟩],
    Decl.genDecl Token.VAR [⟨"UART0".toList, [], [Expr.other]⟩],
    Decl.genDecl Token.VAR [⟨"PWM0".toList, [], [Expr.other]⟩]]]
  scope := pkgLaterName.scope
  typeOf := pkgLaterName.typeOf
  methodSet := pkgLaterName.methodSet

/-- A machine package without the type ADC. -/
def pkgNoADC : TypedPackage where
  files := [[Decl.typeDecl [⟨"Pin".toList⟩]]]
  scope := fun n => if n = "Pin".toList then some ⟨[], none⟩ else none
  typeOf := fun _ => 1
  methodSet := fun _ _ => none

/-! ## Specification-side definitions for the row loop -/

/-- A document whose Interfaces section has the row "|  | YES | NO |": 5 parts, the first
cell blank. -/
def docBlankRow : Str :=
  "# Board\n\n## Interfaces\n\n| Interface | Hardware Supported | TinyGo Support |\n|  | YES | NO |\n\n## Pins\n".toList

/-! ## Specification-side definitions for the pin table -/

/-- The three cells of the row of a Pin Entry: the first alias in backticks, the hardware
name in backticks, and the remaining aliases, each in backticks, joined by a comma and a
space. -/
def pinCells (pin : Pin) : List Str :=
  [quoted (pin.OtherNames.headD []), quoted pin.HardwareName,
    Join (pin.OtherNames.tail.map quoted) ", ".toList]

/-- A table row of three cells, padded on the right to the widths of the columns of the
heading, 17, 12 and 17. -/
def pinTableRow : List Str → Str
  | [c0, c1, c2] =>
    "| ".toList ++ padRight 17 c0 ++ " | ".toList ++ padRight 12 c1 ++ " | ".toList
      ++ padRight 17 c2 ++ " |\n".toList
  | _ => []

/-- The row of a Pin Entry. -/
def expectedPinRow (pin : Pin) : Str := pinTableRow (pinCells pin)

/-- The cells between the bars of a table row, without the surrounding white space. -/
def rowCells (row : Str) : List Str := (Split '|' row).map TrimSpace

/-- Pin constants without NoPin: GPIO3 Pin = 3 and LED Pin = GPIO3. -/
def pkgNoSentinel : Package where
  files := [[Decl.genDecl Token.CONST [⟨"GPIO3".toList, [], [Expr.basicLit]⟩,
    ⟨"LED".toList, [], [Expr.ident "GPIO3".toList]⟩]]]
  scope := fun n =>
    if n = "GPIO3".toList ∨ n = "LED".toList then some ⟨pinTypeString, some 3⟩
    else none

/-- Pin constants without NoPin of which one, Below, has a value that is not representable
as uint64 (a negative value of a signed type Pin). -/
def pkgUnreadablePin : Package where
  files := [[Decl.genDecl Token.CONST [⟨"GPIO3".toList, [], [Expr.basicLit]⟩,
    ⟨"Below".toList, [], [Expr.other]⟩]]]
  scope := fun n =>
    if n = "GPIO3".toList then some ⟨pinTypeString, some 3⟩
    else if n = "Below".toList then some ⟨pinTypeString, none⟩
    else none

/-- Constants with the aliases LED, D13 and SCK of the hardware pin PB5. -/
def pkgThreeAliases : Package where
  files := [[Decl.genDecl Token.CONST [⟨"NoPin".toList, [], [Expr.basicLit]⟩,
    ⟨"PB5".toList, [], [Expr.basicLit]⟩, ⟨"LED".toList, [], [Expr.ident "PB5".toList]⟩,
    ⟨"D13".toList, [], [Expr.ident "PB5".toList]⟩,
    ⟨"SCK".toList, [], [Expr.ident "PB5".toList]⟩]]]
  scope := fun n =>
    if n = "NoPin".toList then some ⟨pinTypeString, some 255⟩
    else if n = "PB5".toList ∨ n = "LED".toList ∨ n = "D13".toList ∨ n = "SCK".toList then
      some ⟨pinTypeString, some 13⟩
    else none

/-! ## Specification-side definitions for the declaration classifier -/

/-- The name of the receiver type of a method whose receiver is a plain named type T or a
pointer *T; none for a function and for any other receiver. -/
def receiverTypeName (decl : FuncDecl) : Option Str :=
  match decl.recv with
  | some (.ident name) => some name
  | some (.star (.ident name)) => some name
  | _ => none

/-- The declarations of all files of the package, in source order. -/
def allDecls (pkg : Package) : List Decl := pkg.files.flatMap (fun file => file)

/-- The function and method declarations of the package, in source order. -/
def funcDecls (pkg : Package) : List FuncDecl :=
  (allDecls pkg).filterMap (fun decl =>
    match decl with
    | .funcDecl fd => some fd
    | _ => none)

/-- The exported method is attached to a registered type: its receiver type name is
exported. -/
def isAttached (upperTable : Char → Bool) (decl : FuncDecl) (typeName : Str) : Prop :=
  IsExported upperTable decl.name = true ∧ receiverTypeName decl = some typeName
    ∧ IsExported upperTable typeName = true

/-- After the declarations in done the exported methods among them with an exported
receiver type name are attached to the registered type of that name. -/
def AttachInv (upperTable : Char → Bool) (done : List Decl) (doc : PackageDoc) : Prop :=
  ∀ fd T, Decl.funcDecl fd ∈ done → isAttached upperTable fd T →
    ∃ typeDoc found, doc.Types T = some typeDoc ∧ typeDoc.Funcs fd.name = some found
      ∧ Decl.funcDecl found ∈ done ∧ found.name = fd.name
      ∧ receiverTypeName found = some T

/-- The declarations `type Pin ...`, `type pin ...`, `func (p Pin) Set()` and
`func (p *pin) Get()`: the exported method Get has the unexported receiver type pin. -/
def pkgUnexportedReceiver : Package where
  files := [[Decl.typeDecl [⟨"Pin".toList⟩], Decl.typeDecl [⟨"pin".toList⟩],
    Decl.funcDecl ⟨"Set".toList, some (TypeExpr.ident "Pin".toList)⟩,
    Decl.funcDecl ⟨"Get".toList, some (TypeExpr.star (TypeExpr.ident "pin".toList))⟩]]
  scope := fun _ => none

/-- The declarations `type Pin ...`, `func (p Pin) Set()`, `func (p *Pin) Get()` and
`func NewPin()`. -/
def pkgMethods : Package where
  files := [[Decl.typeDecl [⟨"Pin".toList⟩],
    Decl.funcDecl ⟨"Set".toList, some (TypeExpr.ident "Pin".toList)⟩,
    Decl.funcDecl ⟨"Get".toList, some (TypeExpr.star (TypeExpr.ident "Pin".toList))⟩,
    Decl.funcDecl ⟨"NewPin".toList, none⟩]]
  scope := fun _ => none

/-- The declarations `type Pin ...` and an exported method Get whose receiver is neither a
name nor a pointer. -/
def pkgUnknownReceiver : Package where
  files := [[Decl.typeDecl [⟨"Pin".toList⟩],
    Decl.funcDecl ⟨"Get".toList, some TypeExpr.other⟩]]
  scope := fun _ => none

/-! ## Specification-side definitions for the file system -/

/-- The error is one of section lookup, table-row parsing or pin resolution. -/
def isTextError : Error → Bool
  | .headerNotFound _ => true
  | .endNotFound _ => true
  | .expectedFiveParts _ => true
  | .notUint64 _ => true
  | .noNoPin => true
  | .duplicateHardwarePin _ _ => true
  | .noHardwarePinName _ => true
  | _ => false

/-- The path of the board document in the examples. -/
def boardPath : Str := "board.md".toList

/-- A file system that holds one file, at boardPath. -/
def fsWith (doc : Str) : FileSystem := fun p => if p = boardPath then some doc else none

/-- A board document with an Interfaces section, a Pins section and a section after it. -/
def docBothSections : Str :=
  "# Board\n\n## Interfaces\n\n| SPI | YES | NO |\n\n## Pins\n\n| Pin |\n\n## Notes\n".toList

/-- System calls that do not fail. -/
def noFaults : Faults where
  writeFails := false
  leftByWrite := none
  renameFails := false

/-! ## Specification-side definitions for the regenerated table -/

/-- A cell as the row loop writes it: without white space at its ends, and without a bar or
a newline. -/
def CleanCell (t : Str) : Prop :=
  t.dropWhile IsSpace = t ∧ t.rdropWhile IsSpace = t ∧ '|' ∉ t ∧ '\n' ∉ t

/-- The line of a table row without its newline. -/
def rowLine (feature hardwareSupport softwareSupport : Str) : Str :=
  "| ".toList ++ padRight 9 feature ++ " | ".toList ++ padRight 3 hardwareSupport
    ++ " | ".toList ++ padRight 3 softwareSupport ++ " |".toList

/-- The cells of a data row as the row loop writes them: clean, and the feature cell is not
empty, not "Interface" and does not start with a dash. -/
def WrittenCells (cells : Str × Str × Str) : Prop :=
  CleanCell cells.1 ∧ CleanCell cells.2.1 ∧ CleanCell cells.2.2
    ∧ cells.1 ≠ [] ∧ cells.1 ≠ interfaceCell ∧ cells.1.head? ≠ some '-'

/-- The cells of a data row after the row loop: the software-support cell is the expected
one. -/
def updatedCells (features : FlagMap) (cells : Str × Str × Str) : Str × Str × Str :=
  (cells.1, cells.2.1, expectedSoftwareSupport features cells.1 cells.2.1 cells.2.2)

/-- The lines of the heading of the regenerated table. -/
def headingLines : List Str :=
  ["## Interfaces".toList, [],
    "| Interface | Hardware Supported | TinyGo Support |".toList,
    "| --------- | ------------- | ----- |".toList]

/-- A text in which no line after the first begins with "#": it has no newline followed
by "#". -/
def NoHeadingInside (s : Str) : Prop := ¬ ['\n', '#'] <:+: s

/-- The document docNoPins after the Interfaces step with the flags of the scenario. -/
def docNoPinsUpdated : Str :=
  "# Board\n\n".toList ++ interfacesHeader
    ++ "| SPI       | YES | YES |\n\n## Notes\n\ntext\n".toList


/-! # Theorems -/

set_option maxRecDepth 20000

/-! ## Library functions -/

theorem HasPrefix_iff (s pre : Str) : HasPrefix s pre = true ↔ pre <+: s := by
  simp [HasPrefix]

theorem Index_nil (sub : Str) : Index [] sub = if sub = [] then some 0 else none := rfl

theorem Index_cons (c : Char) (cs sub : Str) :
    Index (c :: cs) sub
      = if HasPrefix (c :: cs) sub then some 0 else (Index cs sub).map (· + 1) := rfl

/-- Index returns the first offset at which the substring occurs. -/
theorem Index_eq_some_iff (sub : Str) : ∀ (s : Str) (i : Nat),
    Index s sub = some i ↔ (sub <+: s.drop i ∧ ∀ j, j < i → ¬ sub <+: s.drop j)
  | [], i => by
    rw [Index_nil]
    by_cases h : sub = []
    · subst h
      simp only [if_true, Option.some.injEq, List.drop_nil, List.nil_prefix, true_and]
      constructor
      · rintro rfl j hj; omega
      · intro hj
        by_contra hne
        exact hj 0 (by omega) trivial
    · simp [h]
  | c :: cs, i => by
    rw [Index_cons]
    by_cases hp : HasPrefix (c :: cs) sub = true
    · rw [if_pos hp]
      have hp1 := (HasPrefix_iff _ _).1 hp
      constructor
      · intro h
        have h0 : i = 0 := by simpa using h.symm
        subst h0
        exact ⟨by simpa using hp1, fun j hj => by omega⟩
      · rintro ⟨_, hmin⟩
        by_contra hne
        have hi : 0 < i := by
          rcases Nat.eq_zero_or_pos i with h0 | h0
          · subst h0; exact absurd rfl hne
          · exact h0
        exact hmin 0 hi (by simpa using hp1)
    · rw [if_neg hp]
      have hp1 : ¬ sub <+: c :: cs := fun h => hp ((HasPrefix_iff _ _).2 h)
      cases i with
      | zero =>
        constructor
        · intro h
          cases hx : Index cs sub <;> simp [hx] at h
        · rintro ⟨h, _⟩
          exact absurd (by simpa using h) hp1
      | succ k =>
        have ih := Index_eq_some_iff sub cs k
        constructor
        · intro h
          have hk : Index cs sub = some k := by
            cases hx : Index cs sub with
            | none => simp [hx] at h
            | some m =>
              simp only [hx, Option.map_some', Option.some.injEq] at h
              have : m = k := by omega
              rw [this]
          obtain ⟨h1, h2⟩ := ih.1 hk
          refine ⟨by simpa using h1, ?_⟩
          intro j hj
          cases j with
          | zero => simpa using hp1
          | succ m => simpa using h2 m (by omega)
        · rintro ⟨h1, h2⟩
          have hk : Index cs sub = some k := by
            refine ih.2 ⟨by simpa using h1, ?_⟩
            intro j hj
            simpa using h2 (j + 1) (by omega)
          simp [hk]

/-- Index fails exactly when the substring occurs nowhere. -/
theorem Index_eq_none_iff (sub : Str) : ∀ (s : Str),
    Index s sub = none ↔ ∀ j, ¬ sub <+: s.drop j
  | [] => by
    rw [Index_nil]
    by_cases h : sub = []
    · subst h; simp
    · simp [h]
  | c :: cs => by
    rw [Index_cons]
    have ih := Index_eq_none_iff sub cs
    by_cases hp : HasPrefix (c :: cs) sub = true
    · rw [if_pos hp]
      have hp1 := (HasPrefix_iff _ _).1 hp
      simp only [false_iff, not_forall, not_not, reduceCtorEq]
      exact ⟨0, by simpa using hp1⟩
    · rw [if_neg hp]
      have hp1 : ¬ sub <+: c :: cs := fun h => hp ((HasPrefix_iff _ _).2 h)
      rw [Option.map_eq_none', ih]
      constructor
      · intro h j
        cases j with
        | zero => simpa using hp1
        | succ m => simpa using h m
      · intro h j
        simpa using h (j + 1)

theorem prefix_drop_le {sub s : Str} {i : Nat} (hne : sub ≠ []) (h : sub <+: s.drop i) :
    i + sub.length ≤ s.length := by
  have h1 := h.length_le
  rw [List.length_drop] at h1
  have h2 : 0 < sub.length := List.length_pos.2 hne
  omega

/-! ## findSection -/

/-- The marker that ends a section. -/
theorem endMarker_ne_nil : endMarker ≠ [] := by decide

theorem endMarker_length : endMarker.length = 4 := by decide

theorem sectionHeader_ne_nil (name : Str) : sectionHeader name ≠ [] := by
  simp [sectionHeader]

/-- Complete description of the successful results of findSection. -/
theorem findSection_ok_iff (name doc : Str) (start stop : Nat) :
    findSection name doc = .ok (start, stop) ↔
      sectionHeader name <+: doc.drop start
      ∧ (∀ j, j < start → ¬ sectionHeader name <+: doc.drop j)
      ∧ start ≤ stop
      ∧ endMarker <+: doc.drop stop
      ∧ (∀ j, start ≤ j → j < stop → ¬ endMarker <+: doc.drop j) := by
  cases h1 : Index doc (sectionHeader name) with
  | none =>
    simp only [findSection, h1, reduceCtorEq, false_iff]
    rintro ⟨h, _⟩
    exact (Index_eq_none_iff _ _).1 h1 start h
  | some s =>
    obtain ⟨hs1, hs2⟩ := (Index_eq_some_iff _ _ _).1 h1
    have key : ∀ start, sectionHeader name <+: doc.drop start →
        (∀ j, j < start → ¬ sectionHeader name <+: doc.drop j) → start = s := by
      intro start h3 h4
      rcases Nat.lt_trichotomy start s with h | h | h
      · exact absurd h3 (hs2 start h)
      · exact h
      · exact absurd hs1 (h4 s h)
    cases h2 : Index (doc.drop s) endMarker with
    | none =>
      simp only [findSection, h1, h2, reduceCtorEq, false_iff]
      rintro ⟨h3, h4, h5, h6, _⟩
      have hss := key start h3 h4
      subst hss
      refine (Index_eq_none_iff _ _).1 h2 (stop - start) ?_
      rw [List.drop_drop]
      have : start + (stop - start) = stop := by omega
      rw [this]
      exact h6
    | some e =>
      obtain ⟨he1, he2⟩ := (Index_eq_some_iff _ _ _).1 h2
      rw [List.drop_drop] at he1
      simp only [findSection, h1, h2, Outcome.ok.injEq, Prod.mk.injEq]
      constructor
      · rintro ⟨rfl, rfl⟩
        refine ⟨hs1, hs2, by omega, he1, ?_⟩
        intro j hj1 hj2
        have := he2 (j - s) (by omega)
        rw [List.drop_drop] at this
        have hj : s + (j - s) = j := by omega
        rw [hj] at this
        exact this
      · rintro ⟨h3, h4, h5, h6, h7⟩
        have hss := key start h3 h4
        subst hss
        refine ⟨rfl, ?_⟩
        rcases Nat.lt_trichotomy (start + e) stop with h | h | h
        · exact absurd he1 (h7 _ (by omega) h)
        · exact h
        · have := he2 (stop - start) (by omega)
          rw [List.drop_drop] at this
          have hj : start + (stop - start) = stop := by omega
          rw [hj] at this
          exact absurd h6 this

/-- Complete description of the error for a section that no header follows. -/
theorem findSection_endNotFound_iff (name doc : Str) :
    findSection name doc = .error (.endNotFound name) ↔
      ∃ start, Index doc (sectionHeader name) = some start
        ∧ ∀ j, start ≤ j → ¬ endMarker <+: doc.drop j := by
  cases h1 : Index doc (sectionHeader name) with
  | none => simp [findSection, h1]
  | some s =>
    cases h2 : Index (doc.drop s) endMarker with
    | none =>
      simp only [findSection, h1, h2, true_iff, Option.some.injEq, exists_eq_left']
      intro j hj
      have := (Index_eq_none_iff _ _).1 h2 (j - s)
      rw [List.drop_drop] at this
      have hj : s + (j - s) = j := by omega
      rw [hj] at this
      exact this
    | some e =>
      simp only [findSection, h1, h2, reduceCtorEq, false_iff, Option.some.injEq,
        exists_eq_left', not_forall, not_not]
      obtain ⟨he1, _⟩ := (Index_eq_some_iff _ _ _).1 h2
      rw [List.drop_drop] at he1
      exact ⟨s + e, by omega, he1⟩

theorem findSection_bounds_le {name doc : Str} {start stop : Nat}
    (h : findSection name doc = .ok (start, stop)) :
    start ≤ stop ∧ stop + 4 ≤ doc.length := by
  obtain ⟨_, _, h3, h4, _⟩ := (findSection_ok_iff _ _ _ _).1 h
  have := prefix_drop_le endMarker_ne_nil h4
  have h5 := endMarker_length
  omega

theorem findSection_ne_crash (name doc : Str) : findSection name doc ≠ .crash := by
  cases h1 : Index doc (sectionHeader name) with
  | none => simp [findSection, h1]
  | some s => cases h2 : Index (doc.drop s) endMarker <;> simp [findSection, h1, h2]

/-! ## The row loop of updateBoardDocumentation -/

theorem updateSoftwareSupport_eq (features : FlagMap) (f hw sw : Str) :
    updateSoftwareSupport features f hw sw = expectedSoftwareSupport features f hw sw := by
  unfold updateSoftwareSupport expectedSoftwareSupport
  by_cases h1 : hw = cellNO
  · simp [h1]
  · by_cases h2 : hw = cellUnknown
    · simp [h2]
    · rw [if_pos ⟨h1, h2⟩, if_neg (by simp [h1, h2])]
      rcases features f with _ | b
      · rfl
      · cases b <;> rfl

/-- On a line that parses, the loop body does what the specification says. -/
theorem interfacesRow_of_rowParses (features : FlagMap) (line : Str)
    (h : rowParses line = true) :
    interfacesRow features line
      = match dataRow line with
        | none => .skip
        | some cells => .emit (expectedRow features cells) := by
  unfold rowParses at h
  unfold interfacesRow dataRow
  cases hp : HasPrefix line rowPrefix with
  | true =>
    simp only [hp, Bool.not_true, Bool.false_or] at h
    simp only [Bool.not_true, Bool.false_eq_true, if_false, if_true]
    split at h
    · rename_i p0 p1 p2 p3 p4 hs
      by_cases hi : TrimSpace p1 = interfaceCell
      · simp [hi]
      · simp only [hi, if_false, false_or]
        cases hf : TrimSpace p1 with
        | nil => simp [hf] at h
        | cons c cs =>
          by_cases hc : c = '-'
          · simp [hc]
          · simp [hc, expectedRow, updateSoftwareSupport_eq]
    · simp at h
  | false => simp

/-- On a line that does not parse, the loop body fails: an error for a malformed row, a
crash for a row of 5 parts with a blank first cell. -/
theorem interfacesRow_of_not_rowParses (features : FlagMap) (line : Str)
    (h : rowParses line = false) :
    (malformedRow line = true
        ∧ interfacesRow features line = .fail (.expectedFiveParts (Split '|' line).length))
      ∨ (malformedRow line = false ∧ interfacesRow features line = .crash) := by
  unfold rowParses at h
  unfold interfacesRow malformedRow
  cases hp : HasPrefix line rowPrefix with
  | true =>
    simp only [hp, Bool.not_true, Bool.false_or] at h
    simp only [Bool.not_true, Bool.false_eq_true, if_false, Bool.true_and]
    split at h
    · rename_i p0 p1 p2 p3 p4 hs
      right
      have he : TrimSpace p1 = [] := by simpa using h
      have hi : ¬ interfaceCell = [] := by decide
      simp [hs, he, hi]
    · rename_i hs
      left
      have hl : (Split '|' line).length ≠ 5 := by
        intro hl
        match hq : Split '|' line, hl with
        | [a, b, c, d, e], _ => exact hs _ _ _ _ _ hq
      exact ⟨by simpa using hl, rfl⟩
  | false => simp [hp] at h

/-- The loop appends the expected rows when all lines parse, and only then succeeds. -/
theorem interfacesLoop_ok_iff (features : FlagMap) : ∀ (lines : List Str) (acc txt : Str),
    interfacesLoop features acc lines = .ok txt ↔
      lines.all rowParses = true
        ∧ txt = acc ++ ((lines.filterMap dataRow).map (expectedRow features)).flatten
  | [], acc, txt => by
    simp [interfacesLoop, eq_comm]
  | line :: rest, acc, txt => by
    rw [interfacesLoop]
    by_cases h : rowParses line = true
    · rw [interfacesRow_of_rowParses features line h]
      cases hd : dataRow line with
      | none =>
        simp only [List.all_cons, h, Bool.true_and, List.filterMap_cons, hd]
        exact interfacesLoop_ok_iff features rest acc txt
      | some cells =>
        simp only [List.all_cons, h, Bool.true_and, List.filterMap_cons, hd, List.map_cons,
          List.flatten_cons]
        rw [interfacesLoop_ok_iff features rest _ txt, List.append_assoc]
    · simp only [Bool.not_eq_true] at h
      rcases interfacesRow_of_not_rowParses features line h with ⟨_, h2⟩ | ⟨_, h2⟩
      · simp [h2, h]
      · simp [h2, h]

/-! ## Malformed rows -/

/-- When some line is malformed and no row of 5 parts has a blank first cell, the row loop
returns the error "expected 5 parts". -/
theorem interfacesLoop_malformed (features : FlagMap) : ∀ (lines : List Str) (acc : Str),
    (∃ line ∈ lines, malformedRow line = true) →
    (∀ line ∈ lines, rowParses line = true ∨ malformedRow line = true) →
    ∃ n, n ≠ 5 ∧ interfacesLoop features acc lines = .error (.expectedFiveParts n)
  | [], _, h, _ => by simp at h
  | line :: rest, acc, h, hall => by
    rw [interfacesLoop]
    by_cases hp : rowParses line = true
    · have hm : malformedRow line = false := by
        unfold rowParses at hp
        unfold malformedRow
        cases hpre : HasPrefix line rowPrefix with
        | false => simp
        | true =>
          simp only [hpre, Bool.not_true, Bool.false_or] at hp
          split at hp
          · rename_i hs
            simp [hs]
          · simp at hp
      have hrest : ∃ l ∈ rest, malformedRow l = true := by
        obtain ⟨l, hl, hml⟩ := h
        rcases List.mem_cons.1 hl with rfl | hl
        · rw [hm] at hml; exact absurd hml (by simp)
        · exact ⟨l, hl, hml⟩
      have hall2 : ∀ l ∈ rest, rowParses l = true ∨ malformedRow l = true :=
        fun l hl => hall l (List.mem_cons_of_mem _ hl)
      rw [interfacesRow_of_rowParses features line hp]
      cases dataRow line with
      | none => exact interfacesLoop_malformed features rest acc hrest hall2
      | some cells => exact interfacesLoop_malformed features rest _ hrest hall2
    · simp only [Bool.not_eq_true] at hp
      have hm : malformedRow line = true := by
        rcases hall line (List.mem_cons_self _ _) with h1 | h1
        · rw [hp] at h1; exact absurd h1 (by simp)
        · exact h1
      rcases interfacesRow_of_not_rowParses features line hp with ⟨_, h2⟩ | ⟨h1, _⟩
      · refine ⟨_, ?_, by rw [h2]⟩
        unfold malformedRow at hm
        simp only [Bool.and_eq_true, bne_iff_ne, ne_eq] at hm
        exact hm.2
      · rw [hm] at h1; exact absurd h1 (by simp)

/-! ## Range loops -/

theorem forRange_nil {σ α : Type} (body : σ → α → Outcome σ) (st : σ) :
    forRange body st [] = .ok st := rfl

theorem forRange_cons {σ α : Type} (body : σ → α → Outcome σ) (st : σ) (x : α) (xs : List α) :
    forRange body st (x :: xs)
      = match body st x with
        | .ok st1 => forRange body st1 xs
        | .error e => .error e
        | .crash => .crash := rfl

/-- A state property kept by every successful iteration holds when the loop succeeds. -/
theorem forRange_invariant {σ α : Type} (body : σ → α → Outcome σ) (inv : List α → σ → Prop)
    (hstep : ∀ done st x st1, inv done st → body st x = .ok st1 → inv (done ++ [x]) st1) :
    ∀ (xs done : List α) (st st1 : σ), inv done st → forRange body st xs = .ok st1 →
      inv (done ++ xs) st1
  | [], done, st, st1, hinv, h => by
    rw [forRange_nil] at h
    cases h
    simpa using hinv
  | x :: xs, done, st, st1, hinv, h => by
    rw [forRange_cons] at h
    cases hb : body st x with
    | ok st2 =>
      rw [hb] at h
      have := forRange_invariant body inv hstep xs (done ++ [x]) st2 st1
        (hstep done st x st2 hinv hb) h
      simpa using this
    | error e => rw [hb] at h; cases h
    | crash => rw [hb] at h; cases h

/-! ## The second loop of getPinsSection -/

theorem firstSeen_mem : ∀ (l : List Nat) (x : Nat), x ∈ firstSeen l ↔ x ∈ l
  | [], x => by simp [firstSeen]
  | y :: ys, x => by
    simp only [firstSeen, List.mem_cons, List.mem_filter, firstSeen_mem ys x, decide_eq_true_eq]
    by_cases h : x = y
    · simp [h]
    · simp [h]

theorem firstSeen_nodup : ∀ (l : List Nat), (firstSeen l).Nodup
  | [] => by simp [firstSeen]
  | y :: ys => by
    simp only [firstSeen, List.nodup_cons, List.mem_filter, decide_eq_true_eq, ne_eq,
      not_true_eq_false, and_false, not_false_eq_true, true_and]
    exact (firstSeen_nodup ys).filter _

/-- A new value is appended to the values seen so far, a known value changes nothing. -/
theorem firstSeen_concat : ∀ (l : List Nat) (x : Nat),
    firstSeen (l ++ [x]) = if x ∈ l then firstSeen l else firstSeen l ++ [x]
  | [], x => by simp [firstSeen]
  | y :: ys, x => by
    have ih := firstSeen_concat ys x
    rw [List.cons_append, firstSeen, ih, firstSeen]
    by_cases h : x = y
    · subst h
      by_cases h2 : x ∈ ys
      · simp [h2]
      · simp [h2, List.filter_append]
    · by_cases h2 : x ∈ ys
      · simp [h2, h]
      · simp [h2, h, List.filter_append]

theorem hardware_filter_eq (scan : PinScan) (l : List Str) (num : Nat) :
    (hardwareNames scan l).filter (fun n => pinValue scan n = num)
      = (namesOf scan l num).filter (fun n => scan.hardwarePins n) := by
  simp only [hardwareNames, namesOf, List.filter_filter]
  apply List.filter_congr
  intro n _
  cases isNoPin scan n <;> cases scan.hardwarePins n <;> simp

theorem alias_filter_eq (scan : PinScan) (l : List Str) (num : Nat) :
    (aliasNames scan l).filter (fun n => pinValue scan n = num)
      = (namesOf scan l num).filter (fun n => !scan.hardwarePins n) := by
  simp only [aliasNames, namesOf, List.filter_filter]
  apply List.filter_congr
  intro n _
  cases isNoPin scan n <;> cases scan.hardwarePins n <;> simp

theorem entryOf_of_namesOf_nil (scan : PinScan) (l : List Str) (num : Nat)
    (h : namesOf scan l num = []) :
    entryOf scan l num = { HardwareName := [], OtherNames := [] } := by
  simp [entryOf, hardware_filter_eq, alias_filter_eq, h]

theorem resolveInv_getD_pins {scan : PinScan} {done : List Str} {st : Resolve}
    (inv : ResolveInv scan done st) (num : Nat) :
    (st.pins num).getD { HardwareName := [], OtherNames := [] } = entryOf scan done num := by
  rw [inv.pins]
  by_cases h : namesOf scan done num = []
  · rw [if_pos h, entryOf_of_namesOf_nil scan done num h]; rfl
  · rw [if_neg h]; rfl

theorem resolveInv_init (scan : PinScan) :
    ResolveInv scan [] { exposedPins := [], pins := fun _ => none } where
  pins := by intro num; simp [namesOf]
  single := by intro num; simp [hardwareNames]
  exposed := by simp [aliasNames, firstSeen]

/-- A skipped name changes nothing. -/
theorem resolveInv_skip {scan : PinScan} {done : List Str} {st : Resolve}
    (inv : ResolveInv scan done st) (x : Str) (hx : isNoPin scan x = true) :
    ResolveInv scan (done ++ [x]) st where
  pins := by
    intro num
    have : namesOf scan (done ++ [x]) num = namesOf scan done num := by
      simp [namesOf, List.filter_append, hx]
    have h2 : entryOf scan (done ++ [x]) num = entryOf scan done num := by
      simp [entryOf, hardwareNames, aliasNames, List.filter_append, hx]
    rw [this, h2]
    exact inv.pins num
  single := by
    intro num
    have : hardwareNames scan (done ++ [x]) = hardwareNames scan done := by
      simp [hardwareNames, List.filter_append, hx]
    rw [this]
    exact inv.single num
  exposed := by
    have : aliasNames scan (done ++ [x]) = aliasNames scan done := by
      simp [aliasNames, List.filter_append, hx]
    rw [this]
    exact inv.exposed

theorem headD_eq_nil_of_ne_nil {l : List Str} (hl : ∀ n ∈ l, n ≠ []) (h : l.headD [] = []) :
    l = [] := by
  cases l with
  | nil => rfl
  | cons a as => exact absurd h (hl a (List.mem_cons_self _ _))

theorem mapSet_apply {κ ν : Type} [DecidableEq κ] (m : κ → Option ν) (k j : κ) (v : ν) :
    mapSet m k v j = if j = k then some v else m j := rfl

/-- A first hardware name of its value is recorded in the entry of the value. -/
theorem resolveInv_hardware {scan : PinScan} {done : List Str} {st : Resolve}
    (inv : ResolveInv scan done st) (hne : ∀ n, scan.hardwarePins n = true → n ≠ [])
    (x : Str) (hx : isNoPin scan x = false) (hh : scan.hardwarePins x = true)
    (hfirst : (entryOf scan done (pinValue scan x)).HardwareName = []) :
    ResolveInv scan (done ++ [x])
      { st with pins := mapSet st.pins (pinValue scan x)
                  { entryOf scan done (pinValue scan x) with HardwareName := x } } := by
  have hnil : (hardwareNames scan done).filter (fun n => pinValue scan n = pinValue scan x)
      = [] := by
    apply headD_eq_nil_of_ne_nil _ hfirst
    intro n hn
    have := (List.mem_filter.1 (List.mem_filter.1 hn).1).2
    simp only [Bool.and_eq_true] at this
    exact hne n this.2
  have hhw : hardwareNames scan (done ++ [x]) = hardwareNames scan done ++ [x] := by
    simp [hardwareNames, List.filter_append, hx, hh]
  have hal : aliasNames scan (done ++ [x]) = aliasNames scan done := by
    simp [aliasNames, List.filter_append, hx, hh]
  constructor
  · intro num
    simp only [mapSet_apply]
    by_cases hnum : num = pinValue scan x
    · subst hnum
      have h1 : namesOf scan (done ++ [x]) (pinValue scan x) ≠ [] := by
        simp [namesOf, List.filter_append, hx]
      rw [if_pos rfl, if_neg h1]
      simp only [entryOf, hhw, hal, List.filter_append, hnil, Option.some.injEq, Pin.mk.injEq,
        and_true]
      simp
    · have h1 : namesOf scan (done ++ [x]) num = namesOf scan done num := by
        simp [namesOf, List.filter_append, hx, Ne.symm hnum]
      have h2 : entryOf scan (done ++ [x]) num = entryOf scan done num := by
        simp [entryOf, hhw, hal, List.filter_append, Ne.symm hnum]
      rw [if_neg hnum, h1, h2]
      exact inv.pins num
  · intro num
    rw [hhw, List.filter_append]
    by_cases hnum : num = pinValue scan x
    · subst hnum
      rw [hnil]
      simp
    · have := inv.single num
      simpa [Ne.symm hnum] using this
  · rw [hal]
    exact inv.exposed

/-- An alias is appended to the entry of its value, which is exposed at its first alias. -/
theorem resolveInv_alias {scan : PinScan} {done : List Str} {st : Resolve}
    (inv : ResolveInv scan done st)
    (x : Str) (hx : isNoPin scan x = false) (hh : scan.hardwarePins x = false) :
    ResolveInv scan (done ++ [x])
      { exposedPins :=
          if (entryOf scan done (pinValue scan x)).OtherNames.length = 0 then
            st.exposedPins ++ [pinValue scan x]
          else st.exposedPins
        pins := mapSet st.pins (pinValue scan x)
          { entryOf scan done (pinValue scan x) with
            OtherNames := (entryOf scan done (pinValue scan x)).OtherNames ++ [x] } } := by
  have hhw : hardwareNames scan (done ++ [x]) = hardwareNames scan done := by
    simp [hardwareNames, List.filter_append, hx, hh]
  have hal : aliasNames scan (done ++ [x]) = aliasNames scan done ++ [x] := by
    simp [aliasNames, List.filter_append, hx, hh]
  constructor
  · intro num
    simp only [mapSet_apply]
    by_cases hnum : num = pinValue scan x
    · subst hnum
      have h1 : namesOf scan (done ++ [x]) (pinValue scan x) ≠ [] := by
        simp [namesOf, List.filter_append, hx]
      rw [if_pos rfl, if_neg h1]
      simp [entryOf, hhw, hal, List.filter_append]
    · have h1 : namesOf scan (done ++ [x]) num = namesOf scan done num := by
        simp [namesOf, List.filter_append, hx, Ne.symm hnum]
      have h2 : entryOf scan (done ++ [x]) num = entryOf scan done num := by
        simp [entryOf, hhw, hal, List.filter_append, Ne.symm hnum]
      rw [if_neg hnum, h1, h2]
      exact inv.pins num
  · intro num
    rw [hhw]
    exact inv.single num
  · show (if (entryOf scan done (pinValue scan x)).OtherNames.length = 0 then
        st.exposedPins ++ [pinValue scan x] else st.exposedPins) = _
    rw [hal, List.map_append, List.map_singleton, firstSeen_concat, inv.exposed]
    have hiff : (entryOf scan done (pinValue scan x)).OtherNames.length = 0
        ↔ ¬ pinValue scan x ∈ (aliasNames scan done).map (pinValue scan) := by
      simp only [entryOf, List.length_eq_zero, List.filter_eq_nil_iff, decide_eq_true_eq,
        List.mem_map, not_exists, not_and]
    by_cases hm : pinValue scan x ∈ (aliasNames scan done).map (pinValue scan)
    · rw [if_pos hm, if_neg (fun h => hiff.1 h hm)]
    · rw [if_neg hm, if_pos (hiff.2 hm)]

/-- One iteration of the second loop: it keeps the invariant, or returns the error for a
second hardware name of the same value. -/
theorem resolveStep_spec {scan : PinScan} (hne : ∀ n, scan.hardwarePins n = true → n ≠ [])
    {done : List Str} {st : Resolve} (inv : ResolveInv scan done st) (x : Str) :
    (∃ st1, resolveStep scan st x = .ok st1 ∧ ResolveInv scan (done ++ [x]) st1) ∨
      (∃ a, resolveStep scan st x = .error (.duplicateHardwarePin a x)
        ∧ isNoPin scan x = false ∧ scan.hardwarePins x = true
        ∧ a ∈ (hardwareNames scan done).filter (fun n => pinValue scan n = pinValue scan x)) := by
  unfold resolveStep
  by_cases hskip : x = noPinName ∨ pinValue scan x = pinValue scan noPinName
  · rw [if_pos hskip]
    exact Or.inl ⟨st, rfl, resolveInv_skip inv x (by simp [isNoPin, hskip])⟩
  · rw [if_neg hskip]
    have hx : isNoPin scan x = false := by simp [isNoPin, hskip]
    simp only [resolveInv_getD_pins inv]
    cases hh : scan.hardwarePins x with
    | true =>
      simp only [if_true]
      by_cases hfirst : (entryOf scan done (pinValue scan x)).HardwareName = []
      · rw [if_neg (by simpa using hfirst)]
        exact Or.inl ⟨_, rfl, resolveInv_hardware inv hne x hx hh hfirst⟩
      · rw [if_pos hfirst]
        refine Or.inr ⟨_, rfl, hx, trivial, ?_⟩
        simp only [entryOf] at hfirst ⊢
        cases hl : (hardwareNames scan done).filter
            (fun n => pinValue scan n = pinValue scan x) with
        | nil => rw [hl] at hfirst; exact absurd rfl hfirst
        | cons a as => simp
    | false =>
      simp only [Bool.false_eq_true, if_false]
      exact Or.inl ⟨_, rfl, resolveInv_alias inv x hx hh⟩

/-- The second loop: it ends in a state that satisfies the invariant for all the names, or
returns a duplicate hardware pin name error. -/
theorem resolveLoop_spec {scan : PinScan} (hne : ∀ n, scan.hardwarePins n = true → n ≠ []) :
    ∀ (xs done : List Str) (st : Resolve), ResolveInv scan done st →
      (∃ st1, forRange (resolveStep scan) st xs = .ok st1 ∧ ResolveInv scan (done ++ xs) st1) ∨
        (∃ a b, forRange (resolveStep scan) st xs = .error (.duplicateHardwarePin a b))
  | [], done, st, inv => Or.inl ⟨st, rfl, by simpa using inv⟩
  | x :: xs, done, st, inv => by
    rw [forRange_cons]
    rcases resolveStep_spec hne inv x with ⟨st1, h1, inv1⟩ | ⟨a, h1, _⟩
    · rw [h1]
      have := resolveLoop_spec hne xs (done ++ [x]) st1 inv1
      simpa using this
    · rw [h1]
      exact Or.inr ⟨a, x, rfl⟩

/-- The second loop succeeds when no value has two hardware names. -/
theorem resolveLoop_ok {scan : PinScan} (hne : ∀ n, scan.hardwarePins n = true → n ≠ []) :
    ∀ (xs done : List Str) (st : Resolve), ResolveInv scan done st →
      (∀ num, ((hardwareNames scan (done ++ xs)).filter
        (fun n => pinValue scan n = num)).length ≤ 1) →
      ∃ st1, forRange (resolveStep scan) st xs = .ok st1
  | [], done, st, _, _ => ⟨st, rfl⟩
  | x :: xs, done, st, inv, hs => by
    rw [forRange_cons]
    rcases resolveStep_spec hne inv x with ⟨st1, h1, inv1⟩ | ⟨a, _, hx, hh, ha⟩
    · rw [h1]
      exact resolveLoop_ok hne xs (done ++ [x]) st1 inv1 (by simpa using hs)
    · exfalso
      have h2 := hs (pinValue scan x)
      have hsplit : hardwareNames scan (done ++ x :: xs)
          = hardwareNames scan done ++ x :: hardwareNames scan xs := by
        simp [hardwareNames, List.filter_append, List.filter_cons, hx, hh]
      rw [hsplit, List.filter_append, List.length_append] at h2
      have h3 : 0 < ((hardwareNames scan done).filter
          (fun n => pinValue scan n = pinValue scan x)).length :=
        List.length_pos_of_mem ha
      have h4 : 0 < ((x :: hardwareNames scan xs).filter
          (fun n => pinValue scan n = pinValue scan x)).length := by
        apply List.length_pos_of_mem (a := x)
        simp
      omega

/-- Two names in a list of at most one element are equal. -/
theorem eq_of_mem_of_length_le_one {l : List Str} (hl : l.length ≤ 1) {a b : Str}
    (ha : a ∈ l) (hb : b ∈ l) : a = b := by
  match l, hl, ha, hb with
  | [c], _, ha, hb =>
    rw [List.mem_singleton] at ha hb
    rw [ha, hb]

/-! ## The first loop of getPinsSection -/

theorem rmatch_nil_pinIsHardwareName : pinIsHardwareName.rmatch [] = false := by decide

theorem isHardwarePin_rmatch {name : Str} {values : List Expr}
    (h : isHardwarePin name values = true) : pinIsHardwareName.rmatch name = true := by
  unfold isHardwarePin at h
  cases hm : pinIsHardwareName.rmatch name with
  | true => rfl
  | false => simp [hm] at h

theorem scanInv_init :
    ScanInv { pinNames := fun _ => none, hardwarePins := fun _ => false, pinNamesSlice := [] } where
  hardware := by intro n h; simp at h
  keys := by intro n; simp

theorem scanSpec_inv (upperTable : Char → Bool) (pkg : Package) (st st1 : PinScan)
    (spec : ValueSpec) (inv : ScanInv st) (h : scanSpec upperTable pkg st spec = .ok st1) :
    ScanInv st1 := by
  unfold scanSpec at h
  cases he : IsExported upperTable spec.name with
  | false =>
    simp only [he, Bool.not_false, if_true, Outcome.ok.injEq] at h
    rw [← h]; exact inv
  | true =>
    simp only [he, Bool.not_true, Bool.false_eq_true, if_false] at h
    cases ho : pkg.scope spec.name with
    | none => simp [ho] at h
    | some obj =>
      simp only [ho] at h
      by_cases ht : obj.typeString = pinTypeString
      · simp only [ht, ne_eq, not_true_eq_false, if_false] at h
        cases hv : obj.uint64Val with
        | none => simp [hv] at h
        | some val =>
          simp only [hv, Outcome.ok.injEq] at h
          subst h
          constructor
          · intro n hn
            simp only at hn ⊢
            by_cases hhw : isHardwarePin spec.name spec.values = true
            · simp only [hhw, if_true] at hn
              by_cases hnn : n = spec.name
              · subst hnn
                exact ⟨isHardwarePin_rmatch hhw, by simp⟩
              · simp only [hnn, if_false] at hn
                have := inv.hardware n hn
                exact ⟨this.1, by simp [this.2]⟩
            · simp only [hhw, if_false] at hn
              have := inv.hardware n hn
              exact ⟨this.1, by simp [this.2]⟩
          · intro n
            simp only [List.mem_append, List.mem_singleton, mapSet_apply]
            by_cases hnn : n = spec.name
            · simp [hnn]
            · simp [hnn, inv.keys n]
      · simp only [ne_eq, ht, not_false_eq_true, if_true, Outcome.ok.injEq] at h
        rw [← h]; exact inv

theorem scanDecl_inv (upperTable : Char → Bool) (pkg : Package) (st st1 : PinScan)
    (decl : Decl) (inv : ScanInv st) (h : scanDecl upperTable pkg st decl = .ok st1) :
    ScanInv st1 := by
  unfold scanDecl at h
  cases decl with
  | other =>
    simp only [Outcome.ok.injEq] at h
    rw [← h]; exact inv
  | typeDecl specs =>
    simp only [Outcome.ok.injEq] at h
    rw [← h]; exact inv
  | funcDecl fd =>
    simp only [Outcome.ok.injEq] at h
    rw [← h]; exact inv
  | genDecl tok specs =>
    simp only at h
    by_cases ht : tok = Token.CONST
    · simp only [ht, ne_eq, not_true_eq_false, if_false] at h
      exact forRange_invariant (scanSpec upperTable pkg) (fun _ s => ScanInv s)
        (fun _ s x s1 hs hx => scanSpec_inv upperTable pkg s s1 x hs hx) specs [] st st1 inv h
    · simp only [ne_eq, ht, not_false_eq_true, if_true, Outcome.ok.injEq] at h
      rw [← h]; exact inv

/-- The variables left by the first loop satisfy its invariant. -/
theorem scanPins_inv {upperTable : Char → Bool} {pkg : Package} {scan : PinScan}
    (h : scanPins upperTable pkg = .ok scan) : ScanInv scan := by
  unfold scanPins at h
  refine forRange_invariant _ (fun _ s => ScanInv s) ?_ pkg.files [] _ scan scanInv_init h
  intro _ s file s1 hs hfile
  exact forRange_invariant (scanDecl upperTable pkg) (fun _ s => ScanInv s)
    (fun _ s x s1 hs hx => scanDecl_inv upperTable pkg s s1 x hs hx) file [] s s1 hs hfile

theorem scanInv_hardware_ne_nil {scan : PinScan} (inv : ScanInv scan) :
    ∀ n, scan.hardwarePins n = true → n ≠ [] := by
  intro n hn hnil
  have := (inv.hardware n hn).1
  rw [hnil, rmatch_nil_pinIsHardwareName] at this
  cases this

/-! ## resolvePins and the rendering loop -/

theorem derefLoop_spec (st : Resolve) (f : Nat → Pin) : ∀ (nums : List Nat) (acc : List Pin),
    (∀ num ∈ nums, st.pins num = some (f num)) →
    forRange (fun acc num =>
      match st.pins num with
      | some pin => Outcome.ok (acc ++ [pin])
      | none => Outcome.crash) acc nums = .ok (acc ++ nums.map f)
  | [], acc, _ => by simp [forRange_nil]
  | num :: nums, acc, h => by
    rw [forRange_cons]
    simp only [h num (List.mem_cons_self _ _)]
    rw [derefLoop_spec st f nums _ (fun n hn => h n (List.mem_cons_of_mem _ hn))]
    simp

theorem namesOf_ne_nil_of_alias {scan : PinScan} {names : List Str} {num : Nat}
    (h : num ∈ (aliasNames scan names).map (pinValue scan)) : namesOf scan names num ≠ [] := by
  obtain ⟨n, hn, hv⟩ := List.mem_map.1 h
  have hn2 := List.mem_filter.1 hn
  intro hnil
  have : n ∈ namesOf scan names num := by
    refine List.mem_filter.2 ⟨hn2.1, ?_⟩
    have h3 := hn2.2
    simp only [Bool.and_eq_true, Bool.not_eq_true'] at h3
    simp [h3.1, hv]
  rw [hnil] at this
  cases this

/-- Once the second loop is over, exposedPins points to the expected entries. -/
theorem derefPins_spec {scan : PinScan} {st : Resolve}
    (inv : ResolveInv scan scan.pinNamesSlice st) : derefPins st = .ok (expectedEntries scan) := by
  unfold derefPins expectedEntries
  rw [derefLoop_spec st (entryOf scan scan.pinNamesSlice) st.exposedPins []]
  · rw [inv.exposed]; rfl
  · intro num hnum
    rw [inv.exposed, firstSeen_mem] at hnum
    rw [inv.pins, if_neg (namesOf_ne_nil_of_alias hnum)]

/-- The outcome of resolvePins once the first loop has succeeded: without NoPin an error;
with a value that has two hardware names a duplicate error; otherwise the expected
entries. -/
theorem resolvePins_spec {upperTable : Char → Bool} {pkg : Package} {scan : PinScan}
    (hscan : scanPins upperTable pkg = .ok scan) :
    (scan.pinNames noPinName = none ∧ resolvePins upperTable pkg = .error .noNoPin)
    ∨ (scan.pinNames noPinName ≠ none
        ∧ (∀ num, ((hardwareNames scan scan.pinNamesSlice).filter
            (fun n => pinValue scan n = num)).length ≤ 1)
        ∧ resolvePins upperTable pkg = .ok (expectedEntries scan))
    ∨ (scan.pinNames noPinName ≠ none
        ∧ (¬ ∀ num, ((hardwareNames scan scan.pinNamesSlice).filter
            (fun n => pinValue scan n = num)).length ≤ 1)
        ∧ ∃ a b, resolvePins upperTable pkg = .error (.duplicateHardwarePin a b)) := by
  have hne := scanInv_hardware_ne_nil (scanPins_inv hscan)
  unfold resolvePins
  simp only [hscan]
  by_cases hno : scan.pinNames noPinName = none
  · exact Or.inl ⟨hno, by rw [if_pos hno]⟩
  · right
    rw [if_neg hno]
    rcases resolveLoop_spec hne scan.pinNamesSlice [] _ (resolveInv_init scan) with
      ⟨st1, h1, inv1⟩ | ⟨a, b, h1⟩
    · left
      rw [List.nil_append] at inv1
      refine ⟨hno, inv1.single, ?_⟩
      simp only [h1]
      exact derefPins_spec inv1
    · right
      refine ⟨hno, ?_, a, b, by simp only [h1]⟩
      intro hs
      obtain ⟨st1, h2⟩ := resolveLoop_ok hne scan.pinNamesSlice [] _ (resolveInv_init scan)
        (by simpa using hs)
      rw [h2] at h1
      cases h1

/-- Rendering the entries: an entry without hardware name is an error, entries with an
alias never crash. -/
theorem renderLoop_spec : ∀ (entries : List Pin) (acc : Str),
    (∀ p ∈ entries, p.OtherNames ≠ []) →
    ((∀ p ∈ entries, p.HardwareName ≠ []) ∧ ∃ txt, forRange renderPin acc entries = .ok txt)
    ∨ ((∃ p ∈ entries, p.HardwareName = [])
        ∧ ∃ a, forRange renderPin acc entries = .error (.noHardwarePinName a))
  | [], acc, _ => Or.inl ⟨by simp, acc, rfl⟩
  | p :: ps, acc, h => by
    rw [forRange_cons]
    have hp := h p (List.mem_cons_self _ _)
    unfold renderPin
    cases ho : p.OtherNames with
    | nil => exact absurd ho hp
    | cons first rest =>
      simp only
      by_cases hh : p.HardwareName = []
      · rw [if_pos hh]
        exact Or.inr ⟨⟨p, List.mem_cons_self _ _, hh⟩, first, rfl⟩
      · rw [if_neg hh]
        simp only
        rcases renderLoop_spec ps _ (fun q hq => h q (List.mem_cons_of_mem _ hq)) with
          ⟨h1, txt, h2⟩ | ⟨⟨q, hq, hq2⟩, a, h2⟩
        · left
          refine ⟨?_, txt, h2⟩
          intro q hq
          rcases List.mem_cons.1 hq with rfl | hq
          · exact hh
          · exact h1 q hq
        · right
          exact ⟨⟨q, List.mem_cons_of_mem _ hq, hq2⟩, a, h2⟩

theorem expectedEntries_otherNames_ne_nil (scan : PinScan) :
    ∀ p ∈ expectedEntries scan, p.OtherNames ≠ [] := by
  intro p hp
  obtain ⟨num, hnum, rfl⟩ := List.mem_map.1 hp
  rw [firstSeen_mem] at hnum
  obtain ⟨n, hn, hv⟩ := List.mem_map.1 hnum
  intro hnil
  have : n ∈ (entryOf scan scan.pinNamesSlice num).OtherNames := by
    simp only [entryOf]
    exact List.mem_filter.2 ⟨hn, by simpa using hv⟩
  rw [hnil] at this
  cases this

/-! ## getPinsSection in terms of the variables of its first loop -/

/-- When the first loop has collected NoPin and two constants with distinct names, the same
value (different from the value of NoPin), both recorded as hardware names, getPinsSection
returns a "duplicate hardware pin name" error. -/
theorem duplicate_hardware_scan (upperTable : Char → Bool) (pkg : Package)
    (scan : PinScan) (n1 n2 : Str)
    (hscan : scanPins upperTable pkg = .ok scan)
    (hnopin : scan.pinNames noPinName ≠ none)
    (h1 : n1 ∈ scan.pinNamesSlice) (h2 : n2 ∈ scan.pinNamesSlice)
    (hne : n1 ≠ n2)
    (hval : pinValue scan n1 = pinValue scan n2)
    (hnot : pinValue scan n1 ≠ pinValue scan noPinName)
    (hh1 : scan.hardwarePins n1 = true) (hh2 : scan.hardwarePins n2 = true) :
    ∃ a b, getPinsSection upperTable pkg = .error (.duplicateHardwarePin a b) := by
  have hmem : ∀ n, n ∈ scan.pinNamesSlice → pinValue scan n = pinValue scan n1 →
      scan.hardwarePins n = true →
      n ∈ (hardwareNames scan scan.pinNamesSlice).filter
        (fun m => pinValue scan m = pinValue scan n1) := by
    intro n hn hv hh
    refine List.mem_filter.2 ⟨List.mem_filter.2 ⟨hn, ?_⟩, by simpa using hv⟩
    have : isNoPin scan n = false := by
      simp only [isNoPin, decide_eq_false_iff_not, not_or]
      refine ⟨?_, by rw [hv]; exact hnot⟩
      intro hnn
      rw [hnn] at hv
      exact hnot hv.symm
    simp [this, hh]
  rcases resolvePins_spec hscan with ⟨h, _⟩ | ⟨_, hs, _⟩ | ⟨_, _, a, b, h⟩
  · exact absurd h hnopin
  · exact absurd (eq_of_mem_of_length_le_one (hs (pinValue scan n1)) (hmem n1 h1 rfl hh1)
      (hmem n2 h2 hval.symm hh2)) hne
  · exact ⟨a, b, by simp only [getPinsSection, h]⟩


theorem entryOf_hardwareName_value {scan : PinScan} {names : List Str} {num : Nat}
    (h : (entryOf scan names num).HardwareName ≠ []) :
    pinValue scan (entryOf scan names num).HardwareName = num
      ∧ (entryOf scan names num).HardwareName ∈ hardwareNames scan names := by
  simp only [entryOf] at h ⊢
  cases hl : (hardwareNames scan names).filter (fun n => pinValue scan n = num) with
  | nil => rw [hl] at h; exact absurd rfl h
  | cons a as =>
    have : a ∈ (hardwareNames scan names).filter (fun n => pinValue scan n = num) := by
      rw [hl]; exact List.mem_cons_self _ _
    have h2 := List.mem_filter.1 this
    exact ⟨by simpa using h2.2, h2.1⟩

theorem map_value_entries {scan : PinScan} {names : List Str} : ∀ (nums : List Nat),
    (∀ p ∈ nums.map (entryOf scan names), p.HardwareName ≠ []) →
    (nums.map (entryOf scan names)).map (fun p => pinValue scan p.HardwareName) = nums
  | [], _ => rfl
  | num :: nums, h => by
    simp only [List.map_cons, List.cons.injEq]
    refine ⟨(entryOf_hardwareName_value (h _ (by simp))).1, ?_⟩
    exact map_value_entries nums (fun p hp => h p (by simp only [List.map_cons]; exact List.mem_cons_of_mem _ hp))

/-- What a successful getPinsSection says of resolvePins and of the entries. -/
theorem getPinsSection_ok {upperTable : Char → Bool} {pkg : Package} {scan : PinScan}
    {text : Str} (hscan : scanPins upperTable pkg = .ok scan)
    (hok : getPinsSection upperTable pkg = .ok text) :
    resolvePins upperTable pkg = .ok (expectedEntries scan)
      ∧ (∀ p ∈ expectedEntries scan, p.HardwareName ≠ []) := by
  rcases resolvePins_spec hscan with ⟨_, h⟩ | ⟨_, _, h⟩ | ⟨_, _, a, b, h⟩
  · simp [getPinsSection, h] at hok
  · refine ⟨h, ?_⟩
    simp only [getPinsSection, h] at hok
    rcases renderLoop_spec (expectedEntries scan) pinsHeader
      (expectedEntries_otherNames_ne_nil scan) with ⟨h1, _⟩ | ⟨_, a, h2⟩
    · exact h1
    · rw [h2] at hok; cases hok
  · simp [getPinsSection, h] at hok

/-- When getPinsSection succeeds, the entries of exposedPins belong to pairwise different
numeric values, and every entry has a non-empty HardwareName and at least one name in
OtherNames, all of the value of the hardware name; and when some name that is not skipped
and not a hardware name has a value that no hardware name has, getPinsSection returns an
error. -/
theorem pin_identity_scan (upperTable : Char → Bool) (pkg : Package) (scan : PinScan)
    (hscan : scanPins upperTable pkg = .ok scan) :
    (∀ text, getPinsSection upperTable pkg = .ok text →
      ∃ entries, resolvePins upperTable pkg = .ok entries
        ∧ (entries.map (fun p => pinValue scan p.HardwareName)).Nodup
        ∧ ∀ p ∈ entries, p.HardwareName ≠ [] ∧ p.OtherNames ≠ []
            ∧ ∀ n ∈ p.OtherNames, pinValue scan n = pinValue scan p.HardwareName)
    ∧ (∀ n, n ∈ scan.pinNamesSlice → isNoPin scan n = false → scan.hardwarePins n = false →
        (∀ m, m ∈ scan.pinNamesSlice → scan.hardwarePins m = true →
          pinValue scan m ≠ pinValue scan n) →
        ∃ e, getPinsSection upperTable pkg = .error e) := by
  constructor
  · intro text hok
    obtain ⟨h1, h2⟩ := getPinsSection_ok hscan hok
    refine ⟨_, h1, ?_, ?_⟩
    · unfold expectedEntries at h2 ⊢
      rw [map_value_entries _ h2]
      exact firstSeen_nodup _
    · intro p hp
      refine ⟨h2 p hp, expectedEntries_otherNames_ne_nil scan p hp, ?_⟩
      have hp2 := h2 p hp
      obtain ⟨num, _, rfl⟩ := List.mem_map.1 hp
      intro n hn
      rw [(entryOf_hardwareName_value hp2).1]
      simp only [entryOf] at hn
      simpa using (List.mem_filter.1 hn).2
  · intro n hn hx hh hno
    rcases resolvePins_spec hscan with ⟨_, h⟩ | ⟨_, _, h⟩ | ⟨_, _, a, b, h⟩
    · exact ⟨.noNoPin, by simp only [getPinsSection, h]⟩
    · simp only [getPinsSection, h]
      rcases renderLoop_spec (expectedEntries scan) pinsHeader
        (expectedEntries_otherNames_ne_nil scan) with ⟨h1, _⟩ | ⟨_, a, h2⟩
      · exfalso
        have hal : n ∈ aliasNames scan scan.pinNamesSlice :=
          List.mem_filter.2 ⟨hn, by simp [hx, hh]⟩
        have hmem : entryOf scan scan.pinNamesSlice (pinValue scan n) ∈ expectedEntries scan := by
          unfold expectedEntries
          refine List.mem_map.2 ⟨pinValue scan n, ?_, rfl⟩
          rw [firstSeen_mem]
          exact List.mem_map.2 ⟨n, hal, rfl⟩
        have h3 := entryOf_hardwareName_value (h1 _ hmem)
        have h4 := List.mem_filter.1 h3.2
        simp only [Bool.and_eq_true] at h4
        exact hno _ h4.1 h4.2.2 h3.1
      · exact ⟨_, h2⟩
    · exact ⟨.duplicateHardwarePin a b, by simp only [getPinsSection, h]⟩


/-! ## isHardwarePin -/

theorem mem_oneOf (cs : List Char) (x : Str) :
    x ∈ (oneOf cs).matches' ↔ ∃ c ∈ cs, x = [c] := by
  induction cs with
  | nil =>
    simp only [oneOf, List.foldr_nil, List.not_mem_nil, false_and, exists_false, iff_false]
    exact Language.not_mem_zero x
  | cons a as ih =>
    have hcons : oneOf (a :: as) = RegularExpression.char a + oneOf as := rfl
    rw [hcons, RegularExpression.matches'_add, Language.mem_add, ih,
      RegularExpression.matches'_char]
    constructor
    · rintro (h | ⟨c, hc, rfl⟩)
      · exact ⟨a, List.mem_cons_self _ _, h⟩
      · exact ⟨c, List.mem_cons_of_mem _ hc, rfl⟩
    · rintro ⟨c, hc, rfl⟩
      rcases List.mem_cons.1 hc with rfl | hc
      · exact Or.inl rfl
      · exact Or.inr ⟨c, hc, rfl⟩

theorem char_eq_of_toNat {c : Char} {n : Nat} (h : c.toNat = n) : c = Char.ofNat n := by
  rw [← h, Char.ofNat_toNat]

theorem mem_digits_iff (c : Char) : c ∈ "0123456789".toList ↔ c.isDigit = true := by
  constructor
  · intro h
    simp only [String.toList, List.mem_cons, List.mem_singleton, List.not_mem_nil, or_false] at h
    rcases h with rfl | rfl | rfl | rfl | rfl | rfl | rfl | rfl | rfl | rfl <;> decide
  · intro h
    simp only [Char.isDigit, Bool.and_eq_true, decide_eq_true_eq] at h
    have h1 : 48 ≤ c.toNat := h.1
    have h2 : c.toNat ≤ 57 := h.2
    have hc := char_eq_of_toNat (c := c) (n := c.toNat) rfl
    generalize c.toNat = n at h1 h2 hc
    subst hc
    interval_cases n <;> decide

theorem mem_uppers_iff (c : Char) :
    c ∈ "ABCDEFGHIJKLMNOPQRSTUVWXYZ".toList ↔ c.isUpper = true := by
  constructor
  · intro h
    simp only [String.toList, List.mem_cons, List.mem_singleton, List.not_mem_nil, or_false] at h
    rcases h with rfl | rfl | rfl | rfl | rfl | rfl | rfl | rfl | rfl | rfl | rfl | rfl | rfl
      | rfl | rfl | rfl | rfl | rfl | rfl | rfl | rfl | rfl | rfl | rfl | rfl | rfl <;> decide
  · intro h
    simp only [Char.isUpper, Bool.and_eq_true, decide_eq_true_eq] at h
    have h1 : 65 ≤ c.toNat := h.1
    have h2 : c.toNat ≤ 90 := h.2
    have hc := char_eq_of_toNat (c := c) (n := c.toNat) rfl
    generalize c.toNat = n at h1 h2 hc
    subst hc
    interval_cases n <;> decide

theorem mem_reDigit (x : Str) : x ∈ reDigit.matches' ↔ ∃ c, c.isDigit = true ∧ x = [c] := by
  unfold reDigit
  rw [mem_oneOf]
  constructor
  · rintro ⟨c, hc, rfl⟩
    exact ⟨c, (mem_digits_iff c).1 hc, rfl⟩
  · rintro ⟨c, hc, rfl⟩
    exact ⟨c, (mem_digits_iff c).2 hc, rfl⟩

theorem mem_reUpper (x : Str) : x ∈ reUpper.matches' ↔ ∃ c, c.isUpper = true ∧ x = [c] := by
  unfold reUpper
  rw [mem_oneOf]
  constructor
  · rintro ⟨c, hc, rfl⟩
    exact ⟨c, (mem_uppers_iff c).1 hc, rfl⟩
  · rintro ⟨c, hc, rfl⟩
    exact ⟨c, (mem_uppers_iff c).2 hc, rfl⟩

/-- The expression [0-9]* matches the strings of digits. -/
theorem mem_star_reDigit (x : Str) :
    x ∈ (RegularExpression.star reDigit).matches' ↔ ∀ c ∈ x, c.isDigit = true := by
  rw [RegularExpression.matches'_star, Language.mem_kstar]
  constructor
  · rintro ⟨L, rfl, hL⟩ c hc
    obtain ⟨y, hy, hcy⟩ := List.mem_flatten.1 hc
    obtain ⟨d, hd, rfl⟩ := (mem_reDigit y).1 (hL y hy)
    rw [List.mem_singleton] at hcy
    rw [hcy]; exact hd
  · intro h
    refine ⟨x.map (fun c => [c]), ?_, ?_⟩
    · clear h
      induction x with
      | nil => rfl
      | cons a as ih => simp only [List.map_cons, List.flatten_cons, List.singleton_append]; rw [← ih]
    · intro y hy
      obtain ⟨c, hc, rfl⟩ := List.mem_map.1 hy
      exact (mem_reDigit _).2 ⟨c, h c hc, rfl⟩

/-- The expression [0-9]+ matches the non-empty strings of digits. -/
theorem mem_digits1 (x : Str) :
    x ∈ (reDigit * RegularExpression.star reDigit).matches'
      ↔ x ≠ [] ∧ ∀ c ∈ x, c.isDigit = true := by
  rw [RegularExpression.matches'_mul, Language.mem_mul]
  constructor
  · rintro ⟨a, ha, b, hb, rfl⟩
    obtain ⟨d, hd, rfl⟩ := (mem_reDigit a).1 ha
    refine ⟨by simp, ?_⟩
    intro c hc
    rcases List.mem_append.1 hc with h | h
    · rw [List.mem_singleton] at h; rw [h]; exact hd
    · exact (mem_star_reDigit b).1 hb c h
  · rintro ⟨hne, h⟩
    cases x with
    | nil => exact absurd rfl hne
    | cons d ds =>
      refine ⟨[d], (mem_reDigit _).2 ⟨d, h d (List.mem_cons_self _ _), rfl⟩, ds, ?_, rfl⟩
      exact (mem_star_reDigit ds).2 (fun c hc => h c (List.mem_cons_of_mem _ hc))

/-- The expression [0-9]{2} matches the strings of two digits. -/
theorem mem_digits2 (x : Str) :
    x ∈ (reDigit * reDigit).matches'
      ↔ ∃ d1 d2, x = [d1, d2] ∧ d1.isDigit = true ∧ d2.isDigit = true := by
  rw [RegularExpression.matches'_mul, Language.mem_mul]
  constructor
  · rintro ⟨a, ha, b, hb, rfl⟩
    obtain ⟨d1, hd1, rfl⟩ := (mem_reDigit a).1 ha
    obtain ⟨d2, hd2, rfl⟩ := (mem_reDigit b).1 hb
    exact ⟨d1, d2, rfl, hd1, hd2⟩
  · rintro ⟨d1, d2, rfl, hd1, hd2⟩
    exact ⟨[d1], (mem_reDigit _).2 ⟨d1, hd1, rfl⟩, [d2], (mem_reDigit _).2 ⟨d2, hd2, rfl⟩, rfl⟩

theorem mem_singleton_mul (c : Char) (L : Language Char) (x : Str) :
    x ∈ ({[c]} : Language Char) * L ↔ ∃ y, x = c :: y ∧ y ∈ L := by
  rw [Language.mem_mul]
  constructor
  · rintro ⟨a, ha, b, hb, rfl⟩
    rw [Set.mem_singleton_iff] at ha
    subst ha
    exact ⟨b, rfl, hb⟩
  · rintro ⟨y, rfl, hy⟩
    exact ⟨[c], rfl, y, hy, rfl⟩

/-- The expression pinIsHardwareName matches exactly the names of hardware form. -/
theorem pinIsHardwareName_iff (name : Str) :
    pinIsHardwareName.rmatch name = true ↔ hardwareForm name := by
  rw [RegularExpression.rmatch_iff_matches']
  unfold pinIsHardwareName hardwareForm
  simp only [RegularExpression.matches'_add, Language.mem_add, or_assoc]
  refine or_congr ?_ (or_congr ?_ (or_congr ?_ ?_))
  · simp only [RegularExpression.matches'_mul, RegularExpression.matches'_char, mul_assoc,
      mem_singleton_mul]
    rw [← RegularExpression.matches'_mul]
    constructor
    · rintro ⟨y, rfl, hy⟩
      rw [Language.mem_mul] at hy
      obtain ⟨a, ha, b, hb, rfl⟩ := hy
      obtain ⟨u, hu, rfl⟩ := (mem_reUpper a).1 ha
      obtain ⟨h1, h2⟩ := (mem_digits1 b).1 hb
      exact ⟨u, b, rfl, hu, h1, h2⟩
    · rintro ⟨u, ds, rfl, hu, h1, h2⟩
      refine ⟨u :: ds, rfl, ?_⟩
      rw [Language.mem_mul]
      exact ⟨[u], (mem_reUpper _).2 ⟨u, hu, rfl⟩, ds, (mem_digits1 ds).2 ⟨h1, h2⟩, rfl⟩
  · simp only [RegularExpression.matches'_mul, RegularExpression.matches'_char, mul_assoc,
      mem_singleton_mul]
    rw [← RegularExpression.matches'_mul]
    constructor
    · rintro ⟨y, rfl, hy⟩
      rw [Language.mem_mul] at hy
      obtain ⟨a, ha, b, hb, rfl⟩ := hy
      obtain ⟨c, hc, rfl⟩ := (mem_oneOf _ a).1 ha
      obtain ⟨z, rfl, hz⟩ := (mem_singleton_mul _ _ b).1 hb
      obtain ⟨d1, d2, rfl, hd1, hd2⟩ := (mem_digits2 z).1 hz
      refine ⟨c, d1, d2, rfl, ?_, hd1, hd2⟩
      simpa using hc
    · rintro ⟨b, d1, d2, rfl, hb, hd1, hd2⟩
      refine ⟨[b, '_', d1, d2], rfl, ?_⟩
      rw [Language.mem_mul]
      refine ⟨[b], (mem_oneOf _ _).2 ⟨b, by simpa using hb, rfl⟩, ['_', d1, d2], ?_, rfl⟩
      exact (mem_singleton_mul _ _ _).2
        ⟨[d1, d2], rfl, (mem_digits2 _).2 ⟨d1, d2, rfl, hd1, hd2⟩⟩
  · have hlit : reLit "GPIO".toList
        = RegularExpression.char 'G' * (RegularExpression.char 'P'
          * (RegularExpression.char 'I' * (RegularExpression.char 'O' * 1))) := rfl
    rw [hlit]
    simp only [RegularExpression.matches'_mul, RegularExpression.matches'_char,
      RegularExpression.matches'_epsilon, mul_assoc, one_mul, mem_singleton_mul]
    rw [← RegularExpression.matches'_mul]
    constructor
    · rintro ⟨y1, rfl, y2, rfl, y3, rfl, y4, rfl, hy⟩
      obtain ⟨h1, h2⟩ := (mem_digits1 y4).1 hy
      exact ⟨y4, rfl, h1, h2⟩
    · rintro ⟨ds, rfl, h1, h2⟩
      exact ⟨_, rfl, _, rfl, _, rfl, ds, rfl, (mem_digits1 ds).2 ⟨h1, h2⟩⟩
  · simp only [RegularExpression.matches'_mul, RegularExpression.matches'_char,
      mem_singleton_mul]
    rw [← RegularExpression.matches'_mul]
    constructor
    · rintro ⟨y, rfl, hy⟩
      obtain ⟨d1, d2, rfl, hd1, hd2⟩ := (mem_digits2 y).1 hy
      exact ⟨d1, d2, rfl, hd1, hd2⟩
    · rintro ⟨d1, d2, rfl, hd1, hd2⟩
      exact ⟨[d1, d2], rfl, (mem_digits2 _).2 ⟨d1, d2, rfl, hd1, hd2⟩⟩

/-- C6: isHardwarePin(name, values) is true exactly when the whole name has one of the
hardware forms and the initializer list is empty or begins with a basic literal, a binary
expression or the identifier iota. A name of hardware form initialized by another
identifier (P00 = GPIO0) is no hardware name; PA0, PA00, P0_00, GPIO0 and P00 without
initializer are hardware names. -/
theorem isHardwarePin_iff :
    (∀ (name : Str) (values : List Expr),
      isHardwarePin name values = true ↔ hardwareForm name ∧ chipInitializer values)
    ∧ isHardwarePin "P00".toList [Expr.ident "GPIO0".toList] = false
    ∧ isHardwarePin "PA0".toList [] = true
    ∧ isHardwarePin "PA00".toList [] = true
    ∧ isHardwarePin "P0_00".toList [] = true
    ∧ isHardwarePin "GPIO0".toList [] = true
    ∧ isHardwarePin "P00".toList [] = true := by
  refine ⟨?_, by decide, by decide, by decide, by decide, by decide, by decide⟩
  intro name values
  rw [← pinIsHardwareName_iff]
  unfold isHardwarePin chipInitializer
  cases hm : pinIsHardwareName.rmatch name with
  | false => simp
  | true =>
    simp only [Bool.not_true, Bool.false_eq_true, if_false, true_and]
    cases values with
    | nil => simp
    | cons v rest =>
      cases v with
      | basicLit => simp
      | binaryExpr => simp
      | ident valueName =>
        by_cases hv : valueName = iotaName
        · simp [hv]
        · simp [hv]
      | other => simp

/-! ## Occurrences of a text in a concatenation -/

/-- A text that is a prefix of `u ++ y` lies in `u` or continues into `y`. -/
theorem prefix_append_cases {h u y : Str} (hp : h <+: u ++ y) :
    h <+: u ∨ ∃ v, v ≠ [] ∧ h = u ++ v ∧ v <+: y := by
  by_cases hl : h.length ≤ u.length
  · exact Or.inl (List.prefix_of_prefix_length_le hp (List.prefix_append u y) hl)
  · right
    have hu : u <+: h :=
      List.prefix_of_prefix_length_le (List.prefix_append u y) hp (by omega)
    obtain ⟨v, rfl⟩ := hu
    refine ⟨v, ?_, rfl, (List.prefix_append_right_inj u).1 hp⟩
    rintro rfl
    simp at hl

/-- Where an occurrence of `h` at offset `i` of `x ++ y` lies: inside `x`, inside `y`, or
across the boundary. -/
theorem prefix_drop_append_cases {h x y : Str} {i : Nat} (hp : h <+: (x ++ y).drop i) :
    h <+: x.drop i
    ∨ (x.length ≤ i ∧ h <+: y.drop (i - x.length))
    ∨ (i < x.length ∧ ∃ v, v ≠ [] ∧ h = x.drop i ++ v ∧ v <+: y) := by
  rw [List.drop_append_eq_append_drop] at hp
  by_cases hi : x.length ≤ i
  · right; left
    rw [List.drop_eq_nil_of_le hi, List.nil_append] at hp
    exact ⟨hi, hp⟩
  · have h0 : i - x.length = 0 := by omega
    rw [h0, List.drop_zero] at hp
    rcases prefix_append_cases hp with h1 | ⟨v, hv, h1, h2⟩
    · exact Or.inl h1
    · exact Or.inr (Or.inr ⟨by omega, v, hv, h1, h2⟩)

theorem infix_of_prefix_drop {h x : Str} {i : Nat} (hp : h <+: x.drop i) : h <:+: x :=
  hp.isInfix.trans (List.drop_suffix i x).isInfix

theorem prefix_drop_of_infix {h x : Str} (hp : h <:+: x) : ∃ i, h <+: x.drop i := by
  obtain ⟨a, b, rfl⟩ := hp
  refine ⟨a.length, ?_⟩
  rw [List.append_assoc, List.drop_left]
  exact List.prefix_append h b

/-! ## The characters of the regenerated section -/

theorem Split_subset (sep : Char) : ∀ (s : Str), ∀ p ∈ Split sep s, ∀ c ∈ p, c ∈ s
  | [], p, hp, c, hc => by
    simp only [Split, List.mem_singleton] at hp
    rw [hp] at hc; exact hc
  | a :: as, p, hp, c, hc => by
    unfold Split at hp
    by_cases ha : a = sep
    · rw [if_pos ha] at hp
      rcases List.mem_cons.1 hp with rfl | hp
      · cases hc
      · exact List.mem_cons_of_mem _ (Split_subset sep as p hp c hc)
    · rw [if_neg ha] at hp
      cases hs : Split sep as with
      | nil =>
        rw [hs] at hp
        simp only [List.mem_singleton] at hp
        rw [hp] at hc
        simp only [List.mem_singleton] at hc
        rw [hc]; exact List.mem_cons_self _ _
      | cons q qs =>
        rw [hs] at hp
        simp only at hp
        rcases List.mem_cons.1 hp with rfl | hp
        · rcases List.mem_cons.1 hc with rfl | hc
          · exact List.mem_cons_self _ _
          · exact List.mem_cons_of_mem _
              (Split_subset sep as q (by rw [hs]; exact List.mem_cons_self _ _) c hc)
        · exact List.mem_cons_of_mem _
            (Split_subset sep as p (by rw [hs]; exact List.mem_cons_of_mem _ hp) c hc)

theorem Split_sep_not_mem (sep : Char) : ∀ (s : Str), ∀ p ∈ Split sep s, sep ∉ p
  | [], p, hp => by
    simp only [Split, List.mem_singleton] at hp
    rw [hp]; exact List.not_mem_nil _
  | a :: as, p, hp => by
    unfold Split at hp
    by_cases ha : a = sep
    · rw [if_pos ha] at hp
      rcases List.mem_cons.1 hp with rfl | hp
      · exact List.not_mem_nil _
      · exact Split_sep_not_mem sep as p hp
    · rw [if_neg ha] at hp
      cases hs : Split sep as with
      | nil =>
        rw [hs] at hp
        simp only [List.mem_singleton] at hp
        rw [hp]
        simp only [List.mem_singleton]
        exact fun h => ha h.symm
      | cons q qs =>
        rw [hs] at hp
        simp only at hp
        rcases List.mem_cons.1 hp with rfl | hp
        · intro hmem
          rcases List.mem_cons.1 hmem with h | h
          · exact ha h.symm
          · exact Split_sep_not_mem sep as q (by rw [hs]; exact List.mem_cons_self _ _) h
        · exact Split_sep_not_mem sep as p (by rw [hs]; exact List.mem_cons_of_mem _ hp)

theorem TrimSpace_subset (s : Str) : ∀ c ∈ TrimSpace s, c ∈ s := by
  intro c hc
  unfold TrimSpace at hc
  have h1 : c ∈ s.dropWhile IsSpace :=
    (List.rdropWhile_prefix IsSpace (s.dropWhile IsSpace)).subset hc
  exact (List.dropWhile_suffix IsSpace).subset h1

theorem padRight_no_newline {w : Nat} {x : Str} (h : '\n' ∉ x) : '\n' ∉ padRight w x := by
  unfold padRight
  intro hm
  rcases List.mem_append.1 hm with h1 | h1
  · exact h h1
  · have := (List.mem_replicate.1 h1).2
    exact absurd this (by decide)

theorem formatRow_guarded {f h s : Str} (hf : '\n' ∉ f) (hh : '\n' ∉ h) (hs : '\n' ∉ s) :
    GuardedRow (formatRow f h s) := by
  refine ⟨'|' :: ' ' :: (padRight 9 f ++ (' ' :: '|' :: ' ' :: (padRight 3 h
    ++ (' ' :: '|' :: ' ' :: (padRight 3 s ++ [' ']))))), ?_, ?_⟩
  · simp [formatRow]
  · have h1 := padRight_no_newline (w := 9) hf
    have h2 := padRight_no_newline (w := 3) hh
    have h3 := padRight_no_newline (w := 3) hs
    simp only [List.mem_cons, List.mem_append, List.not_mem_nil, or_false, not_or]
    refine ⟨by decide, by decide, h1, by decide, by decide, by decide, h2, by decide,
      by decide, by decide, h3, by decide⟩

theorem expectedSoftwareSupport_no_newline (features : FlagMap) {f h s : Str}
    (hs : '\n' ∉ s) : '\n' ∉ expectedSoftwareSupport features f h s := by
  unfold expectedSoftwareSupport
  split
  · exact hs
  · split
    · decide
    · decide
    · exact hs

/-- The rows written for the data rows of lines without newline are guarded rows. -/
theorem expectedRow_guarded (features : FlagMap) {line : Str} {cells : Str × Str × Str}
    (hline : '\n' ∉ line) (hd : dataRow line = some cells) :
    GuardedRow (expectedRow features cells) := by
  unfold dataRow at hd
  split at hd
  · split at hd
    · rename_i p0 p1 p2 p3 p4 hsplit
      split at hd
      · cases hd
      · simp only [Option.some.injEq] at hd
        subst hd
        have hsub : ∀ p ∈ Split '|' line, '\n' ∉ TrimSpace p := by
          intro p hp hm
          exact hline (Split_subset '|' line p hp _ (TrimSpace_subset p _ hm))
        rw [hsplit] at hsub
        unfold expectedRow
        exact formatRow_guarded (hsub p1 (by simp)) (hsub p2 (by simp))
          (expectedSoftwareSupport_no_newline features (hsub p3 (by simp)))
    · cases hd
  · cases hd

theorem guardedRow_not_infix {r : Str} (hr : GuardedRow r) : ¬ ['s', '\n'] <:+: r := by
  obtain ⟨b, rfl, hb⟩ := hr
  rintro ⟨a, c, h⟩
  have h1 : (b ++ ['|']) ++ '\n' :: [] = (a ++ ['s']) ++ '\n' :: c := by
    simp only [List.append_assoc, List.singleton_append, List.cons_append, List.nil_append] at h ⊢
    exact h.symm
  have hx : '\n' ∉ b ++ ['|'] := by
    simp only [List.mem_append, List.mem_singleton, not_or]
    exact ⟨hb, by decide⟩
  have h2 := (List.append_cons_inj_of_not_mem hx (List.not_mem_nil _)).1 h1
  have h3 := List.append_inj' h2.1 rfl
  exact absurd h3.2 (by decide)

theorem guardedRow_head {r : Str} (hr : GuardedRow r) : ¬ ['\n'] <+: r := by
  obtain ⟨b, rfl, hb⟩ := hr
  rintro ⟨t, h⟩
  cases b with
  | nil => simp at h
  | cons x xs =>
    simp only [List.cons_append, List.singleton_append, List.cons.injEq] at h
    exact hb (by rw [← h.1]; exact List.mem_cons_self _ _)

/-- A non-empty suffix of a text that ends with the character `c` ends with `c`. -/
theorem suffix_ends_with {u t0 : Str} {c : Char} (hu : u <:+ t0 ++ [c]) (hne : u ≠ []) :
    ∃ u0, u = u0 ++ [c] := by
  obtain ⟨t, ht⟩ := hu
  rcases List.eq_nil_or_concat u with h | ⟨u0, l, h⟩
  · exact absurd h hne
  · subst h
    rw [List.concat_eq_append, ← List.append_assoc] at ht
    have := List.append_inj' ht rfl
    simp only [List.cons.injEq, and_true] at this
    exact ⟨u0, by rw [List.concat_eq_append, this.2]⟩

theorem guardedRow_ends {r : Str} (hr : GuardedRow r) : ∃ r0, r = r0 ++ ['\n'] := by
  obtain ⟨b, rfl, _⟩ := hr
  exact ⟨b ++ ['|'], by simp⟩

/-- In a sequence of guarded rows no newline follows the letter s, and the text does not
begin with a newline. -/
theorem rows_flatten_guarded : ∀ (rows : List Str), (∀ r ∈ rows, GuardedRow r) →
    ¬ ['s', '\n'] <:+: rows.flatten ∧ ¬ ['\n'] <+: rows.flatten
  | [], _ => by
    refine ⟨?_, ?_⟩
    · decide
    · decide
  | r :: rs, h => by
    have hr := h r (List.mem_cons_self _ _)
    have ih := rows_flatten_guarded rs (fun q hq => h q (List.mem_cons_of_mem _ hq))
    rw [List.flatten_cons]
    constructor
    · intro hin
      obtain ⟨k, hk⟩ := prefix_drop_of_infix hin
      rcases prefix_drop_append_cases hk with h1 | ⟨_, h1⟩ | ⟨hlt, v, hv, h1, _⟩
      · exact guardedRow_not_infix hr (infix_of_prefix_drop h1)
      · exact ih.1 (infix_of_prefix_drop h1)
      · obtain ⟨r0, hr0⟩ := guardedRow_ends hr
        have hne : r.drop k ≠ [] := by
          intro hnil
          have := List.drop_eq_nil_iff.1 hnil
          omega
        have hsuf : r.drop k <:+ r0 ++ ['\n'] := by
          rw [← hr0]; exact List.drop_suffix k r
        obtain ⟨u0, hu0⟩ := suffix_ends_with hsuf hne
        rw [hu0] at h1
        cases u0 with
        | nil =>
          simp only [List.nil_append, List.singleton_append, List.cons.injEq] at h1
          exact absurd h1.1 (by decide)
        | cons a as =>
          cases as with
          | nil =>
            simp only [List.cons_append, List.nil_append, List.cons.injEq] at h1
            have := h1.2.2
            cases v with
            | nil => exact hv rfl
            | cons _ _ => cases this
          | cons _ _ =>
            have := congrArg List.length h1
            simp at this
    · intro hp
      rcases prefix_append_cases hp with h1 | ⟨v, _, h1, _⟩
      · exact guardedRow_head hr h1
      · obtain ⟨b, hb, _⟩ := hr
        have := congrArg List.length h1
        rw [hb] at this
        simp at this
        omega

/-- A text that ends with a newline, followed by guarded rows, ends with a newline. -/
theorem rows_flatten_ends : ∀ (rows : List Str) (x0 : Str), (∀ r ∈ rows, GuardedRow r) →
    ∃ y0, (x0 ++ ['\n']) ++ rows.flatten = y0 ++ ['\n']
  | [], x0, _ => ⟨x0, by simp⟩
  | r :: rs, x0, h => by
    obtain ⟨r0, hr0⟩ := guardedRow_ends (h r (List.mem_cons_self _ _))
    obtain ⟨y0, hy0⟩ := rows_flatten_ends rs (x0 ++ ['\n'] ++ r0)
      (fun q hq => h q (List.mem_cons_of_mem _ hq))
    refine ⟨y0, ?_⟩
    rw [← hy0, List.flatten_cons, hr0]
    simp only [List.append_assoc]

/-! ## The Pins header and the regenerated Interfaces section -/

theorem expectedInterfaces_rows_guarded (features : FlagMap) (sec : Str) :
    ∀ r ∈ ((Split '\n' sec).filterMap dataRow).map (expectedRow features), GuardedRow r := by
  intro r hr
  obtain ⟨cells, hc, rfl⟩ := List.mem_map.1 hr
  obtain ⟨line, hl, hd⟩ := List.mem_filterMap.1 hc
  exact expectedRow_guarded features (Split_sep_not_mem '\n' sec line hl) hd

theorem pinsHeader_not_in_interfacesHeader :
    ¬ sectionHeader pinsName <:+: interfacesHeader := by decide

theorem s_newline_in_pinsHeader : ['s', '\n'] <:+: sectionHeader pinsName := by decide

theorem pinsHeader_suffixes :
    ∀ v ∈ (sectionHeader pinsName).tails, v ≠ [] →
      ¬ v <+: interfacesHeader
        ∧ (v ≠ sectionHeader pinsName → v = ['\n'] ∨ ['s', '\n'] <:+: v) := by decide

theorem pinsHeader_one_newline : ¬ ['\n', '\n'] <:+: sectionHeader pinsName := by decide

theorem pinsHeader_length : (sectionHeader pinsName).length = 8 := by decide

theorem interfacesHeader_length : 8 ≤ interfacesHeader.length := by decide

theorem interfacesHeader_ends :
    interfacesHeader = interfacesHeader.dropLast ++ ['\n'] := by decide

/-- The regenerated Interfaces section ends with a newline. -/
theorem expectedInterfaces_ends (features : FlagMap) (sec : Str) :
    ∃ t0, expectedInterfaces features sec = t0 ++ ['\n'] := by
  unfold expectedInterfaces
  rw [interfacesHeader_ends]
  exact rows_flatten_ends _ _ (expectedInterfaces_rows_guarded features sec)

/-- The text "## Pins" and a newline occurs nowhere in the regenerated Interfaces
section. -/
theorem pinsHeader_not_in_expectedInterfaces (features : FlagMap) (sec : Str) (k : Nat) :
    ¬ sectionHeader pinsName <+: (expectedInterfaces features sec).drop k := by
  intro hp
  unfold expectedInterfaces at hp
  obtain ⟨hg1, hg2⟩ := rows_flatten_guarded _ (expectedInterfaces_rows_guarded features sec)
  rcases prefix_drop_append_cases hp with h1 | ⟨_, h1⟩ | ⟨hlt, v, hv, h1, h2⟩
  · exact pinsHeader_not_in_interfacesHeader (infix_of_prefix_drop h1)
  · exact hg1 (s_newline_in_pinsHeader.trans (infix_of_prefix_drop h1))
  · have hsuf : v <:+ sectionHeader pinsName := ⟨_, h1.symm⟩
    have hne : v ≠ sectionHeader pinsName := by
      intro he
      have := congrArg List.length h1
      rw [List.length_append, List.length_drop, he] at this
      omega
    rcases (pinsHeader_suffixes v ((List.mem_tails _ _).2 hsuf) hv).2 hne with h3 | h3
    · rw [h3] at h2; exact hg2 h2
    · exact hg1 (h3.trans h2.isInfix)

/-! ## Locating the Pins section after the Interfaces section is replaced -/

/-- A section is found exactly when its header occurs and an end marker occurs at or
after some occurrence of the header. -/
theorem findSection_isOk_iff (name doc : Str) :
    (∃ p, findSection name doc = .ok p) ↔
      ∃ i j, sectionHeader name <+: doc.drop i ∧ i ≤ j ∧ endMarker <+: doc.drop j := by
  constructor
  · rintro ⟨⟨start, stop⟩, h⟩
    obtain ⟨h1, _, h3, h4, _⟩ := (findSection_ok_iff _ _ _ _).1 h
    exact ⟨start, stop, h1, h3, h4⟩
  · rintro ⟨i, j, h1, h2, h3⟩
    cases hs : Index doc (sectionHeader name) with
    | none => exact absurd h1 ((Index_eq_none_iff _ _).1 hs i)
    | some s =>
      obtain ⟨_, hmin⟩ := (Index_eq_some_iff _ _ _).1 hs
      have hsi : s ≤ i := by
        by_contra hlt
        exact hmin i (by omega) h1
      cases he : Index (doc.drop s) endMarker with
      | none =>
        have := (Index_eq_none_iff _ _).1 he (j - s)
        rw [List.drop_drop] at this
        have hj : s + (j - s) = j := by omega
        rw [hj] at this
        exact absurd h3 this
      | some e => exact ⟨(s, s + e), by simp only [findSection, hs, he]⟩

theorem take_slice_drop (doc : Str) {start stop : Nat} (h : start ≤ stop) :
    doc.take start ++ slice doc start stop ++ doc.drop stop = doc := by
  unfold slice
  have h1 : doc.take start = (doc.take stop).take start := by
    rw [List.take_take, Nat.min_eq_left h]
  rw [h1, List.take_append_drop, List.take_append_drop]

/-- If the Pins section is found after the Interfaces section is replaced, it is found in
the document as it was read. -/
theorem findSection_pins_transfer (features : FlagMap) (doc : Str) (start stop : Nat)
    (hI : findSection interfacesName doc = .ok (start, stop))
    (hP : ∃ p, findSection pinsName
      (doc.take start ++ expectedInterfaces features (slice doc start stop) ++ doc.drop stop)
        = .ok p) :
    ∃ q, findSection pinsName doc = .ok q := by
  obtain ⟨_, _, hle, hmark, _⟩ := (findSection_ok_iff _ _ _ _).1 hI
  have hlen := (findSection_bounds_le hI).2
  have hAlen : (doc.take start).length = start := by
    rw [List.length_take]; omega
  obtain ⟨i', j', h1, h2, h3⟩ := (findSection_isOk_iff _ _).1 hP
  rw [findSection_isOk_iff]
  generalize hT : expectedInterfaces features (slice doc start stop) = T at h1 h3
  have hdoc := take_slice_drop doc hle
  rw [List.append_assoc] at h1
  rcases prefix_drop_append_cases h1 with hA | ⟨hge, hTB⟩ | ⟨hlt, v, hv, hsplit, hvp⟩
  · -- the header lies before the Interfaces section
    have hi : i' + (sectionHeader pinsName).length ≤ (doc.take start).length :=
      prefix_drop_le (sectionHeader_ne_nil _) hA
    have hpre : sectionHeader pinsName <+: doc.drop i' := by
      conv_rhs => rw [← List.take_append_drop start doc]
      rw [List.drop_append_eq_append_drop]
      exact hA.trans (List.prefix_append _ _)
    exact ⟨i', stop, hpre, by rw [pinsHeader_length] at hi; omega, hmark⟩
  · rcases prefix_drop_append_cases hTB with hT1 | ⟨hge2, hB⟩ | ⟨hlt2, v, hv, hsplit, hvp⟩
    · -- the header would lie inside the regenerated section
      rw [← hT] at hT1
      exact absurd hT1 (pinsHeader_not_in_expectedInterfaces _ _ _)
    · -- the header lies after the Interfaces section
      rw [hAlen] at hge hB hge2
      rw [List.drop_drop] at hB
      have hj : (doc.take start ++ T ++ doc.drop stop).drop j'
          = doc.drop (stop + (j' - start - T.length)) := by
        have : j' = (doc.take start ++ T).length + (j' - start - T.length) := by
          rw [List.length_append, hAlen]; omega
        conv_lhs => rw [this]
        rw [List.drop_append, List.drop_drop]
      rw [hj] at h3
      exact ⟨stop + (i' - start - T.length), stop + (j' - start - T.length), hB,
        by omega, h3⟩
    · -- the header would end on the newline that follows the regenerated section
      exfalso
      obtain ⟨t0, ht0⟩ := expectedInterfaces_ends features (slice doc start stop)
      rw [hT] at ht0
      have hne : T.drop (i' - (doc.take start).length) ≠ [] := by
        intro hnil
        have := List.drop_eq_nil_iff.1 hnil
        omega
      have hsuf : T.drop (i' - (doc.take start).length) <:+ t0 ++ ['\n'] := by
        rw [← ht0]; exact List.drop_suffix _ _
      obtain ⟨u0, hu0⟩ := suffix_ends_with hsuf hne
      obtain ⟨m, hm⟩ := hmark
      have hv2 : ∃ v1, v = '\n' :: v1 := by
        rw [← hm] at hvp
        cases v with
        | nil => exact absurd rfl hv
        | cons a as =>
          obtain ⟨t, ht⟩ := hvp
          have : a = '\n' := by
            have h5 := congrArg List.head? ht
            simpa [endMarker] using h5
          exact ⟨as, by rw [this]⟩
      obtain ⟨v1, rfl⟩ := hv2
      apply pinsHeader_one_newline
      rw [hsplit, hu0]
      exact ⟨u0, v1, by simp⟩
  · -- the header would begin before and end inside the regenerated section
    exfalso
    have hsuf : v <:+ sectionHeader pinsName := ⟨_, hsplit.symm⟩
    have hvlen : v.length ≤ interfacesHeader.length := by
      have := hsuf.length_le
      rw [pinsHeader_length] at this
      have := interfacesHeader_length
      omega
    have hvh : v <+: interfacesHeader := by
      rw [← hT] at hvp
      unfold expectedInterfaces at hvp
      rw [List.append_assoc] at hvp
      exact List.prefix_of_prefix_length_le hvp (List.prefix_append _ _) hvlen
    exact (pinsHeader_suffixes v ((List.mem_tails _ _).2 hsuf) hv).1 hvh

/-! ## Claims on updateBoardDocumentation -/

theorem regenerateInterfaces_ok_iff (features : FlagMap) (oldSection txt : Str) :
    regenerateInterfaces features oldSection = .ok txt ↔
      rowsParse oldSection = true ∧ txt = expectedInterfaces features oldSection := by
  unfold regenerateInterfaces rowsParse expectedInterfaces
  exact interfacesLoop_ok_iff features _ _ _

theorem regenerateInterfaces_of_rowsParse (features : FlagMap) {oldSection : Str}
    (h : rowsParse oldSection = true) :
    regenerateInterfaces features oldSection = .ok (expectedInterfaces features oldSection) :=
  (regenerateInterfaces_ok_iff features oldSection _).2 ⟨h, rfl⟩

theorem not_ok_of_isOk_false {α : Type} {o : Outcome α} (h : o.isOk = false) :
    ∀ q, o ≠ .ok q := by
  intro q hq
  rw [hq] at h
  cases h

/-- Without Interfaces section the error of findSection is returned. -/
theorem update_of_interfaces_not_found (upperTable : Char → Bool) (features : FlagMap)
    (doc : Str) (pkg : Package) (h : ∀ q, findSection interfacesName doc ≠ .ok q) :
    ∃ e, findSection interfacesName doc = .error e
      ∧ updateBoardDocumentation upperTable features doc pkg = .error e := by
  unfold updateBoardDocumentation
  cases hf : findSection interfacesName doc with
  | ok q => exact absurd hf (h q)
  | error e => exact ⟨e, rfl, rfl⟩
  | crash => exact absurd hf (findSection_ne_crash _ _)

/-- With an Interfaces section of which the rows parse, and a Pins lookup that fails after
the replacement, the document with the Interfaces section replaced is returned. -/
theorem update_of_pins_not_found_after (upperTable : Char → Bool) (features : FlagMap)
    (doc : Str) (pkg : Package) {start stop : Nat}
    (hI : findSection interfacesName doc = .ok (start, stop))
    (hrows : rowsParse (slice doc start stop) = true)
    (hP : ∀ q, findSection pinsName
      (doc.take start ++ expectedInterfaces features (slice doc start stop) ++ doc.drop stop)
        ≠ .ok q) :
    updateBoardDocumentation upperTable features doc pkg
      = .ok (doc.take start ++ expectedInterfaces features (slice doc start stop)
          ++ doc.drop stop) := by
  unfold updateBoardDocumentation
  simp only [hI, regenerateInterfaces_of_rowsParse features hrows]
  cases hf : findSection pinsName
      (doc.take start ++ expectedInterfaces features (slice doc start stop) ++ doc.drop stop) with
  | ok q => exact absurd hf (hP q)
  | error e => rfl
  | crash => rfl

/-- The same when the Pins lookup fails in the document as it was read. -/
theorem update_of_pins_not_found (upperTable : Char → Bool) (features : FlagMap)
    (doc : Str) (pkg : Package) {start stop : Nat}
    (hI : findSection interfacesName doc = .ok (start, stop))
    (hrows : rowsParse (slice doc start stop) = true)
    (hP : ∀ q, findSection pinsName doc ≠ .ok q) :
    updateBoardDocumentation upperTable features doc pkg
      = .ok (doc.take start ++ expectedInterfaces features (slice doc start stop)
          ++ doc.drop stop) := by
  apply update_of_pins_not_found_after upperTable features doc pkg hI hrows
  intro q hq
  obtain ⟨q2, h2⟩ := findSection_pins_transfer features doc start stop hI ⟨q, hq⟩
  exact hP q2 h2

/-- With a Pins section found after the replacement, the pin table replaces it. -/
theorem update_of_pins_found (upperTable : Char → Bool) (features : FlagMap)
    (doc : Str) (pkg : Package) {start stop start1 stop1 : Nat}
    (hI : findSection interfacesName doc = .ok (start, stop))
    (hrows : rowsParse (slice doc start stop) = true)
    (hP : findSection pinsName
      (doc.take start ++ expectedInterfaces features (slice doc start stop) ++ doc.drop stop)
        = .ok (start1, stop1)) :
    updateBoardDocumentation upperTable features doc pkg
      = match getPinsSection upperTable pkg with
        | .ok pinsText =>
          .ok ((doc.take start ++ expectedInterfaces features (slice doc start stop)
              ++ doc.drop stop).take start1 ++ pinsText
            ++ (doc.take start ++ expectedInterfaces features (slice doc start stop)
              ++ doc.drop stop).drop stop1)
        | .error e => .error e
        | .crash => .crash := by
  unfold updateBoardDocumentation
  simp only [hI, regenerateInterfaces_of_rowsParse features hrows, hP]
  cases getPinsSection upperTable pkg <;> rfl

/-- With an Interfaces section that holds a malformed row and no row of 5 parts with a
blank first cell, the error "expected 5 parts" is returned. -/
theorem update_of_malformed_row (upperTable : Char → Bool) (features : FlagMap)
    (doc : Str) (pkg : Package) {start stop : Nat}
    (hI : findSection interfacesName doc = .ok (start, stop))
    (hmal : ∃ line ∈ Split '\n' (slice doc start stop), malformedRow line = true)
    (hrows : ∀ line ∈ Split '\n' (slice doc start stop),
      rowParses line = true ∨ malformedRow line = true) :
    ∃ n, n ≠ 5
      ∧ updateBoardDocumentation upperTable features doc pkg = .error (.expectedFiveParts n) := by
  obtain ⟨n, hn, h⟩ := interfacesLoop_malformed features _ interfacesHeader hmal hrows
  refine ⟨n, hn, ?_⟩
  unfold updateBoardDocumentation
  simp only [hI, regenerateInterfaces, h]

/-- C1: the regeneration of the Interfaces section succeeds exactly when every line
beginning with "| " splits into 5 parts with a non-blank first cell, and its result is then
the fixed heading followed by one row per data row of the old section (a line beginning
with "| " of exactly 5 parts whose trimmed first cell is neither "Interface" nor starts
with a dash), in the same order, holding the trimmed feature and hardware cells and the
software cell "YES" / "Not yet" / old trimmed cell chosen as the specification says. -/
theorem interfaces_regeneration (features : FlagMap) (oldSection txt : Str) :
    regenerateInterfaces features oldSection = .ok txt ↔
      rowsParse oldSection = true
        ∧ txt = interfacesHeader
            ++ (((Split '\n' oldSection).filterMap dataRow).map
                (fun cells => formatRow cells.1 cells.2.1
                  (expectedSoftwareSupport features cells.1 cells.2.1 cells.2.2))).flatten := by
  rw [regenerateInterfaces_ok_iff]
  rfl

/-- The scenario of the specification: with SPI detected the row "| SPI | YES | NO |"
becomes a row with cells SPI, YES, YES; the row "| CAN | NO | ? |" keeps its cells; with
I2C not detected the software cell "YES" becomes "Not yet". -/
theorem interfaces_regeneration_scenario :
    regenerateInterfaces flagsScenario sectionScenario
      = .ok (interfacesHeader
          ++ "| SPI       | YES | YES |\n| CAN       | NO  | ?   |\n| I2C       | YES | Not yet |\n".toList) := by
  decide

/-- C2: when findSection("Interfaces") returns (start, end) and every table row parses,
the regeneration succeeds with a text T, and the document doc[:start] + T + doc[end:]
built by the replacement step has the old bytes [0, start) as its first bytes and the old
bytes [end, len) as its last bytes; when findSection locates no Pins section in the
document, this is the text returned for writing, and otherwise the returned text is this
document with the range of the Pins section replaced by the pin table. -/
theorem section_replacement_scoping (upperTable : Char → Bool) (features : FlagMap)
    (doc : Str) (pkg : Package) (start stop : Nat)
    (hI : findSection interfacesName doc = .ok (start, stop))
    (hrows : rowsParse (slice doc start stop) = true) :
    ∃ itext, regenerateInterfaces features (slice doc start stop) = .ok itext
      ∧ start ≤ stop ∧ stop ≤ doc.length
      ∧ (doc.take start ++ itext ++ doc.drop stop).take start = doc.take start
      ∧ (doc.take start ++ itext ++ doc.drop stop).drop (start + itext.length)
          = doc.drop stop
      ∧ (doc.take start ++ itext ++ doc.drop stop).length
          = start + itext.length + (doc.length - stop)
      ∧ ((findSection pinsName doc).isOk = false →
          updateBoardDocumentation upperTable features doc pkg
            = .ok (doc.take start ++ itext ++ doc.drop stop))
      ∧ (∀ start1 stop1 pinsText,
          findSection pinsName (doc.take start ++ itext ++ doc.drop stop)
            = .ok (start1, stop1) →
          getPinsSection upperTable pkg = .ok pinsText →
          updateBoardDocumentation upperTable features doc pkg
            = .ok ((doc.take start ++ itext ++ doc.drop stop).take start1 ++ pinsText
                ++ (doc.take start ++ itext ++ doc.drop stop).drop stop1)) := by
  have hb := findSection_bounds_le hI
  have hAlen : (doc.take start).length = start := by
    rw [List.length_take]; omega
  refine ⟨_, regenerateInterfaces_of_rowsParse features hrows, hb.1, by omega, ?_, ?_, ?_,
    ?_, ?_⟩
  · rw [List.append_assoc, List.take_append_of_le_length (by omega), List.take_take,
      Nat.min_self]
  · have : start + (expectedInterfaces features (slice doc start stop)).length
        = (doc.take start ++ expectedInterfaces features (slice doc start stop)).length := by
      rw [List.length_append, hAlen]
    rw [this, List.drop_left]
  · simp only [List.length_append, hAlen, List.length_drop]
  · exact fun h => update_of_pins_not_found upperTable features doc pkg hI hrows
      (not_ok_of_isOk_false h)
  · intro start1 stop1 pinsText hP hpins
    rw [update_of_pins_found upperTable features doc pkg hI hrows hP, hpins]

/-- C2 (witness): a document with the sections Interfaces and Notes. -/
theorem section_replacement_scoping_witness :
    ∃ itext, regenerateInterfaces flagsScenario (slice docNoPins 9 43) = .ok itext
      ∧ 9 ≤ 43 ∧ 43 ≤ docNoPins.length
      ∧ (docNoPins.take 9 ++ itext ++ docNoPins.drop 43).take 9 = docNoPins.take 9
      ∧ (docNoPins.take 9 ++ itext ++ docNoPins.drop 43).drop (9 + itext.length)
          = docNoPins.drop 43
      ∧ (docNoPins.take 9 ++ itext ++ docNoPins.drop 43).length
          = 9 + itext.length + (docNoPins.length - 43)
      ∧ ((findSection pinsName docNoPins).isOk = false →
          updateBoardDocumentation asciiOnly flagsScenario docNoPins pkgScenario
            = .ok (docNoPins.take 9 ++ itext ++ docNoPins.drop 43))
      ∧ (∀ start1 stop1 pinsText,
          findSection pinsName (docNoPins.take 9 ++ itext ++ docNoPins.drop 43)
            = .ok (start1, stop1) →
          getPinsSection asciiOnly pkgScenario = .ok pinsText →
          updateBoardDocumentation asciiOnly flagsScenario docNoPins pkgScenario
            = .ok ((docNoPins.take 9 ++ itext ++ docNoPins.drop 43).take start1 ++ pinsText
                ++ (docNoPins.take 9 ++ itext ++ docNoPins.drop 43).drop stop1)) :=
  section_replacement_scoping asciiOnly flagsScenario docNoPins pkgScenario 9 43
    (by decide) (by decide)

/-- C7 (counterexample): in the document "### Pins\n\ntext\n## End\n" findSection("Pins")
succeeds with start = 1, which is neither 0 nor preceded by a newline: the header found is
the tail of the line "### Pins", not a line that is exactly "## Pins". -/
theorem findSection_start_inside_line :
    findSection pinsName docSubsection = .ok (1, 14)
      ∧ ¬ (1 = 0 ∨ docSubsection.get? (1 - 1) = some '\n')
      ∧ docSubsection.get? (1 - 1) = some '#' := by
  decide

/-- C7 (amended): findSection(N, doc) succeeds with (start, end) exactly when start is the
offset of the first occurrence of the text "## N\n" in doc (anywhere, not only at the
beginning of a line), start ≤ end, and end is the offset of the first occurrence of
"\n## " at or after start; so no newline followed by "## " begins inside doc[start:end]. -/
theorem findSection_section_bounds (name doc : Str) (start stop : Nat) :
    findSection name doc = .ok (start, stop) ↔
      sectionHeader name <+: doc.drop start
      ∧ (∀ j, j < start → ¬ sectionHeader name <+: doc.drop j)
      ∧ start ≤ stop
      ∧ endMarker <+: doc.drop stop
      ∧ (∀ j, start ≤ j → j < stop → ¬ endMarker <+: doc.drop j) :=
  findSection_ok_iff name doc start stop

/-- C8 (counterexample): in a board document whose last section is "## Pins",
findSection("Pins") does not return the end of the document but the error "could not find
end of 'Pins' header", and updateBoardDocumentation returns the document with the Pins
section as it was although the package declares pins. -/
theorem findSection_last_section_not_found :
    findSection pinsName docPinsLast = .error (.endNotFound pinsName)
      ∧ findSection pinsName docPinsLast ≠ .ok (44, docPinsLast.length)
      ∧ sectionHeader pinsName <+: docPinsLast.drop 44
      ∧ updateBoardDocumentation asciiOnly flagsScenario docPinsLast pkgScenario
          = .ok docPinsLastUpdated := by
  decide

/-- C8 (amended): when the text "## N\n" occurs in the document and no "\n## " occurs at
or after its first occurrence, findSection(N, doc) returns the error "could not find end of
'N' header"; a "## Pins" section in this position is therefore not located, and
updateBoardDocumentation, when the Interfaces section is found and its rows parse, returns
the document with only the Interfaces section replaced, whatever the package. -/
theorem findSection_last_section (name doc : Str) (first : Nat)
    (hfirst : Index doc (sectionHeader name) = some first)
    (hlast : ∀ j, first ≤ j → ¬ endMarker <+: doc.drop j) :
    findSection name doc = .error (.endNotFound name)
      ∧ (name = pinsName →
          ∀ (upperTable : Char → Bool) (features : FlagMap) (pkg : Package) (start stop : Nat),
            findSection interfacesName doc = .ok (start, stop) →
            rowsParse (slice doc start stop) = true →
            updateBoardDocumentation upperTable features doc pkg
              = .ok (doc.take start ++ expectedInterfaces features (slice doc start stop)
                  ++ doc.drop stop)) := by
  have herr : findSection name doc = .error (.endNotFound name) :=
    (findSection_endNotFound_iff name doc).2 ⟨first, hfirst, hlast⟩
  refine ⟨herr, ?_⟩
  rintro rfl upperTable features pkg start stop hI hrows
  apply update_of_pins_not_found upperTable features doc pkg hI hrows
  intro q hq
  rw [herr] at hq
  cases hq

/-- C8 (witness): the board document whose last section is "## Pins". -/
theorem findSection_last_section_witness :
    findSection pinsName docPinsLast = .error (.endNotFound pinsName)
      ∧ (pinsName = pinsName →
          ∀ (upperTable : Char → Bool) (features : FlagMap) (pkg : Package) (start stop : Nat),
            findSection interfacesName docPinsLast = .ok (start, stop) →
            rowsParse (slice docPinsLast start stop) = true →
            updateBoardDocumentation upperTable features docPinsLast pkg
              = .ok (docPinsLast.take start
                  ++ expectedInterfaces features (slice docPinsLast start stop)
                  ++ docPinsLast.drop stop)) :=
  findSection_last_section pinsName docPinsLast 44 (by decide) (by
    intro j hj
    by_cases hjl : j < docPinsLast.length
    · have hlen : docPinsLast.length = 61 := by decide
      rw [hlen] at hjl
      interval_cases j <;> decide
    · rw [List.drop_eq_nil_of_le (by omega)]
      decide)

/-- C9 (failing input): the Interfaces section of the document has the row "|  | YES | NO |",
of 5 parts with a blank first cell, before the malformed row "| SPI | YES |";
updateBoardDocumentation does not return the error "expected 5 parts" but panics at
feature[0], for every flag map and package. Without such a row before it, the malformed row
is rejected with the error (update_of_malformed_row). -/
theorem malformed_row_after_blank_row :
    findSection interfacesName docBlankThenMalformed = .ok (0, 45)
      ∧ (∃ line ∈ Split '\n' (slice docBlankThenMalformed 0 45), malformedRow line = true)
      ∧ ∀ (upperTable : Char → Bool) (features : FlagMap) (pkg : Package),
          updateBoardDocumentation upperTable features docBlankThenMalformed pkg = .crash :=
  ⟨by decide, ⟨"| SPI | YES |".toList, by decide, by decide⟩, fun _ _ _ => rfl⟩

/-- C10: when findSection locates no Interfaces section, updateBoardDocumentation returns
the error of findSection; when the Interfaces section is found, its rows parse and
findSection locates no Pins section, it returns the document with only the Interfaces
section replaced, and the same for every package: the pin resolver is not consulted, so a
package without NoPin causes no failure. -/
theorem interfaces_mandatory_pins_optional (upperTable : Char → Bool) (features : FlagMap)
    (doc : Str) (pkg : Package) :
    ((findSection interfacesName doc).isOk = false →
      ∃ e, updateBoardDocumentation upperTable features doc pkg = .error e)
    ∧ (∀ start stop, findSection interfacesName doc = .ok (start, stop) →
        rowsParse (slice doc start stop) = true →
        (findSection pinsName doc).isOk = false →
        updateBoardDocumentation upperTable features doc pkg
            = .ok (doc.take start ++ expectedInterfaces features (slice doc start stop)
                ++ doc.drop stop)
          ∧ ∀ pkg2, updateBoardDocumentation upperTable features doc pkg2
              = updateBoardDocumentation upperTable features doc pkg) := by
  constructor
  · intro h
    obtain ⟨e, _, he⟩ := update_of_interfaces_not_found upperTable features doc pkg
      (not_ok_of_isOk_false h)
    exact ⟨e, he⟩
  · intro start stop hI hrows hP0
    have hP := not_ok_of_isOk_false hP0
    refine ⟨update_of_pins_not_found upperTable features doc pkg hI hrows hP, ?_⟩
    intro pkg2
    rw [update_of_pins_not_found upperTable features doc pkg hI hrows hP,
      update_of_pins_not_found upperTable features doc pkg2 hI hrows hP]

/-- C10 (witness): a document without Interfaces section gives an error; a document
without Pins section is updated with the package without declarations, in which
getPinsSection fails for lack of NoPin. -/
theorem interfaces_mandatory_pins_optional_witness :
    (∃ e, updateBoardDocumentation asciiOnly flagsScenario docNoInterfaces emptyPackage
        = .error e)
    ∧ getPinsSection asciiOnly emptyPackage = .error .noNoPin
    ∧ updateBoardDocumentation asciiOnly flagsScenario docNoPins emptyPackage
        = .ok (docNoPins.take 9 ++ expectedInterfaces flagsScenario (slice docNoPins 9 43)
            ++ docNoPins.drop 43)
    ∧ ∀ pkg2, updateBoardDocumentation asciiOnly flagsScenario docNoPins pkg2
        = updateBoardDocumentation asciiOnly flagsScenario docNoPins emptyPackage :=
  ⟨(interfaces_mandatory_pins_optional asciiOnly flagsScenario docNoInterfaces
      emptyPackage).1 (by decide),
    by decide,
    (interfaces_mandatory_pins_optional asciiOnly flagsScenario docNoPins emptyPackage).2
      9 43 (by decide) (by decide) (by decide)⟩

/-! ## The first loop of getPinsSection in terms of the package -/

theorem forRange_append {σ α : Type} (body : σ → α → Outcome σ) : ∀ (xs ys : List α) (st : σ),
    forRange body st (xs ++ ys)
      = match forRange body st xs with
        | .ok st1 => forRange body st1 ys
        | .error e => .error e
        | .crash => .crash
  | [], ys, st => rfl
  | x :: xs, ys, st => by
    rw [List.cons_append, forRange_cons, forRange_cons]
    cases body st x with
    | ok st1 => exact forRange_append body xs ys st1
    | error e => rfl
    | crash => rfl

/-- Nested loops are one loop over the concatenation. -/
theorem forRange_flatMap {σ α β : Type} (body : σ → β → Outcome σ) (outer : σ → α → Outcome σ)
    (inner : α → List β) (h : ∀ st x, outer st x = forRange body st (inner x)) :
    ∀ (xs : List α) (st : σ), forRange outer st xs = forRange body st (xs.flatMap inner)
  | [], st => rfl
  | x :: xs, st => by
    rw [forRange_cons, List.flatMap_cons, forRange_append, h]
    cases forRange body st (inner x) with
    | ok st1 => exact forRange_flatMap body outer inner h xs st1
    | error e => rfl
    | crash => rfl

theorem scanDecl_eq (upperTable : Char → Bool) (pkg : Package) (st : PinScan) (decl : Decl) :
    scanDecl upperTable pkg st decl
      = forRange (scanSpec upperTable pkg) st (constSpecsOf [decl]) := by
  cases decl with
  | other => rfl
  | typeDecl specs => rfl
  | funcDecl fd => rfl
  | genDecl tok specs =>
    cases tok <;> simp [scanDecl, constSpecsOf, forRange_nil]

/-- The first loop is one loop over the value specs of the constant declarations. -/
theorem scanPins_eq (upperTable : Char → Bool) (pkg : Package) :
    scanPins upperTable pkg
      = forRange (scanSpec upperTable pkg)
          { pinNames := fun _ => none, hardwarePins := fun _ => false, pinNamesSlice := [] }
          (constSpecs pkg) := by
  unfold scanPins constSpecs
  apply forRange_flatMap
  intro st file
  unfold constSpecsOf
  apply forRange_flatMap
  intro st1 decl
  rw [scanDecl_eq]
  simp [constSpecsOf]

theorem scanSpec_isOk (upperTable : Char → Bool) (pkg : Package) (st : PinScan)
    (spec : ValueSpec) :
    (scanSpec upperTable pkg st spec).isOk = specReadable upperTable pkg spec := by
  unfold scanSpec specReadable
  cases he : IsExported upperTable spec.name with
  | false => simp [he, Outcome.isOk]
  | true =>
    simp only [he, Bool.not_true, Bool.false_eq_true, if_false, Bool.false_or]
    cases ho : pkg.scope spec.name with
    | none => simp [Outcome.isOk]
    | some obj =>
      simp only
      by_cases ht : obj.typeString = pinTypeString
      · simp only [ht, ne_eq, not_true_eq_false, if_false, decide_False, Bool.false_or]
        cases hv : obj.uint64Val <;> simp [Outcome.isOk]
      · simp [ht, Outcome.isOk]

/-- A loop whose body succeeds or fails independently of the state succeeds exactly when
the body succeeds on every element. -/
theorem forRange_isOk {σ α : Type} (body : σ → α → Outcome σ) (good : α → Bool)
    (h : ∀ st x, (body st x).isOk = good x) :
    ∀ (xs : List α) (st : σ), (forRange body st xs).isOk = xs.all good
  | [], st => rfl
  | x :: xs, st => by
    rw [forRange_cons, List.all_cons, ← h st x]
    cases hb : body st x with
    | ok st1 => simpa [Outcome.isOk] using forRange_isOk body good h xs st1
    | error e => rfl
    | crash => rfl

/-- The first loop succeeds exactly when every constant spec is readable. -/
theorem scanPins_isOk (upperTable : Char → Bool) (pkg : Package) :
    (scanPins upperTable pkg).isOk = (constSpecs pkg).all (specReadable upperTable pkg) := by
  rw [scanPins_eq]
  exact forRange_isOk _ _ (scanSpec_isOk upperTable pkg) _ _

theorem scanSpec_step (upperTable : Char → Bool) (pkg : Package) (done : List ValueSpec)
    (st : PinScan) (spec : ValueSpec) (st1 : PinScan) (inv : ScanSpec upperTable pkg done st)
    (h : scanSpec upperTable pkg st spec = .ok st1) :
    ScanSpec upperTable pkg (done ++ [spec]) st1 := by
  have hskip : isPinSpec upperTable pkg spec = false → st1 = st →
      ScanSpec upperTable pkg (done ++ [spec]) st1 := by
    intro hp hst
    subst hst
    constructor
    · simp [List.filter_append, hp, inv.names]
    · exact inv.values
    · intro n
      simp [List.filter_append, hp, inv.hardware n]
  unfold scanSpec at h
  cases he : IsExported upperTable spec.name with
  | false =>
    simp only [he, Bool.not_false, if_true, Outcome.ok.injEq] at h
    exact hskip (by simp [isPinSpec, he]) h.symm
  | true =>
    simp only [he, Bool.not_true, Bool.false_eq_true, if_false] at h
    cases ho : pkg.scope spec.name with
    | none => simp [ho] at h
    | some obj =>
      simp only [ho] at h
      by_cases ht : obj.typeString = pinTypeString
      · simp only [ht, ne_eq, not_true_eq_false, if_false] at h
        cases hv : obj.uint64Val with
        | none => simp [hv] at h
        | some val =>
          simp only [hv, Outcome.ok.injEq] at h
          subst h
          have hp : isPinSpec upperTable pkg spec = true := by simp [isPinSpec, he, ho, ht]
          constructor
          · simp [List.filter_append, hp, inv.names]
          · intro n
            simp only [mapSet_apply, List.mem_append, List.mem_singleton]
            by_cases hn : n = spec.name
            · subst hn
              simp [ho, hv]
            · simp only [hn, if_false, or_false]
              exact inv.values n
          · intro n
            simp only [List.filter_append, List.any_append, ← inv.hardware n]
            by_cases hn : n = spec.name
            · subst hn
              cases hh : isHardwarePin spec.name spec.values <;>
                simp [List.filter_cons, hp, hh]
            · have hn2 : ¬ spec.name = n := fun h => hn h.symm
              cases hh : isHardwarePin spec.name spec.values <;>
                simp [List.filter_cons, hp, hn, hn2]
      · simp only [ne_eq, ht, not_false_eq_true, if_true, Outcome.ok.injEq] at h
        exact hskip (by simp [isPinSpec, he, ho, ht]) h.symm

/-- The variables of the first loop of getPinsSection in terms of the package. -/
theorem scanPins_spec {upperTable : Char → Bool} {pkg : Package} {scan : PinScan}
    (h : scanPins upperTable pkg = .ok scan) :
    ScanSpec upperTable pkg (constSpecs pkg) scan := by
  rw [scanPins_eq] at h
  have := forRange_invariant (scanSpec upperTable pkg) (ScanSpec upperTable pkg)
    (scanSpec_step upperTable pkg) (constSpecs pkg) [] _ scan ?_ h
  · simpa using this
  · constructor
    · rfl
    · intro n; simp
    · intro n; rfl

/-- When the first loop of getPinsSection succeeds, its variables are the exported Pin
constants of the package. -/
theorem scanPins_eq_packageScan {upperTable : Char → Bool} {pkg : Package}
    (h : (scanPins upperTable pkg).isOk = true) :
    scanPins upperTable pkg = .ok (packageScan upperTable pkg) := by
  cases hs : scanPins upperTable pkg with
  | error e => rw [hs] at h; cases h
  | crash => rw [hs] at h; cases h
  | ok scan =>
    have hspec := scanPins_spec hs
    have hnames : scan.pinNamesSlice = (packageScan upperTable pkg).pinNamesSlice :=
      hspec.names
    have hvalues : scan.pinNames = (packageScan upperTable pkg).pinNames := by
      funext n
      rw [hspec.values n, hnames]
      rfl
    have hhard : scan.hardwarePins = (packageScan upperTable pkg).hardwarePins := by
      funext n
      rw [hspec.hardware n]
      rfl
    cases scan
    simp only at hnames hvalues hhard
    subst hnames hvalues hhard
    rfl

/-! ## Claims on getPinsSection -/

theorem scanPins_isOk_of_getPinsSection {upperTable : Char → Bool} {pkg : Package}
    {text : Str} (h : getPinsSection upperTable pkg = .ok text) :
    (scanPins upperTable pkg).isOk = true := by
  unfold getPinsSection resolvePins at h
  cases hs : scanPins upperTable pkg with
  | ok scan => rfl
  | error e => simp [hs] at h
  | crash => simp [hs] at h

/-- C3: for every package of which the constant specs can be read and the exported Pin
constants contain NoPin and two constants with distinct names, the same numeric value
(different from the value of NoPin), both classified as hardware names by isHardwarePin,
getPinsSection returns a "duplicate hardware pin name" error, hence no pin table. -/
theorem duplicate_hardware_name_rejected (upperTable : Char → Bool) (pkg : Package)
    (n1 n2 : Str)
    (hread : (constSpecs pkg).all (specReadable upperTable pkg) = true)
    (hnopin : noPinName ∈ (packageScan upperTable pkg).pinNamesSlice)
    (h1 : n1 ∈ (packageScan upperTable pkg).pinNamesSlice)
    (h2 : n2 ∈ (packageScan upperTable pkg).pinNamesSlice)
    (hne : n1 ≠ n2)
    (hval : pinValue (packageScan upperTable pkg) n1 = pinValue (packageScan upperTable pkg) n2)
    (hnot : pinValue (packageScan upperTable pkg) n1
      ≠ pinValue (packageScan upperTable pkg) noPinName)
    (hh1 : (packageScan upperTable pkg).hardwarePins n1 = true)
    (hh2 : (packageScan upperTable pkg).hardwarePins n2 = true) :
    ∃ a b, getPinsSection upperTable pkg = .error (.duplicateHardwarePin a b) := by
  have hscan := scanPins_eq_packageScan (by rw [scanPins_isOk]; exact hread)
  exact duplicate_hardware_scan upperTable pkg _ n1 n2 hscan
    (((scanPins_inv hscan).keys _).1 hnopin) h1 h2 hne hval hnot hh1 hh2

/-- C3 (witness): the constants NoPin = 255, PA0 = 0, GPIO0 = 0, LED = PA0. -/
theorem duplicate_hardware_name_rejected_witness :
    ∃ a b, getPinsSection asciiOnly pkgDuplicate = .error (.duplicateHardwarePin a b) :=
  duplicate_hardware_name_rejected asciiOnly pkgDuplicate "PA0".toList "GPIO0".toList
    (by decide) (by decide) (by decide) (by decide) (by decide) (by decide) (by decide)
    (by decide) (by decide)

/-- C4: for every package on which getPinsSection succeeds, the entries of exposedPins
belong to pairwise different numeric values, and every entry has a non-empty HardwareName
and at least one name in OtherNames, all of the value of the hardware name; and when the
constant specs can be read and some exported Pin constant that is not NoPin, has not the
value of NoPin and is no hardware name has a value that no hardware name has,
getPinsSection returns an error instead of a table. -/
theorem pin_identity_uniqueness (upperTable : Char → Bool) (pkg : Package) :
    (∀ text, getPinsSection upperTable pkg = .ok text →
      ∃ entries, resolvePins upperTable pkg = .ok entries
        ∧ (entries.map
            (fun p => pinValue (packageScan upperTable pkg) p.HardwareName)).Nodup
        ∧ ∀ p ∈ entries, p.HardwareName ≠ [] ∧ p.OtherNames ≠ []
            ∧ ∀ n ∈ p.OtherNames, pinValue (packageScan upperTable pkg) n
                = pinValue (packageScan upperTable pkg) p.HardwareName)
    ∧ ((constSpecs pkg).all (specReadable upperTable pkg) = true →
        ∀ n, n ∈ (packageScan upperTable pkg).pinNamesSlice →
          isNoPin (packageScan upperTable pkg) n = false →
          (packageScan upperTable pkg).hardwarePins n = false →
          (∀ m, m ∈ (packageScan upperTable pkg).pinNamesSlice →
            (packageScan upperTable pkg).hardwarePins m = true →
            pinValue (packageScan upperTable pkg) m ≠ pinValue (packageScan upperTable pkg) n) →
          ∃ e, getPinsSection upperTable pkg = .error e) := by
  constructor
  · intro text hok
    have hscan := scanPins_eq_packageScan (scanPins_isOk_of_getPinsSection hok)
    exact (pin_identity_scan upperTable pkg _ hscan).1 text hok
  · intro hread
    have hscan := scanPins_eq_packageScan (by rw [scanPins_isOk]; exact hread)
    exact (pin_identity_scan upperTable pkg _ hscan).2

/-- C4 (witness): the constants of the scenario give a table; the constants NoPin = 255
and LED = 13, where 13 has no hardware name, give an error. -/
theorem pin_identity_uniqueness_witness :
    (∃ entries, resolvePins asciiOnly pkgScenario = .ok entries
        ∧ (entries.map
            (fun p => pinValue (packageScan asciiOnly pkgScenario) p.HardwareName)).Nodup
        ∧ ∀ p ∈ entries, p.HardwareName ≠ [] ∧ p.OtherNames ≠ []
            ∧ ∀ n ∈ p.OtherNames, pinValue (packageScan asciiOnly pkgScenario) n
                = pinValue (packageScan asciiOnly pkgScenario) p.HardwareName)
      ∧ ∃ e, getPinsSection asciiOnly pkgAliasOnly = .error e :=
  ⟨(pin_identity_uniqueness asciiOnly pkgScenario).1 pinsTextScenario (by decide),
    (pin_identity_uniqueness asciiOnly pkgAliasOnly).2 (by decide)
      "LED".toList (by decide) (by decide) (by decide) (by decide)⟩

/-- C5: for every package on which getPinsSection succeeds, the entries of exposedPins are
the expected entries of the exported Pin constants: one entry for each value, different
from the value of NoPin, that has a name not classified as hardware name, in the order in
which the values first acquired such an alias in declaration order, each with its aliases
in declaration order. For the constants NoPin = 0xFF, GPIO3 Pin = 3, LED Pin = GPIO3 the
entries are the single entry with HardwareName "GPIO3" and OtherNames ["LED"]. -/
theorem pin_exposure_and_order :
    (∀ (upperTable : Char → Bool) (pkg : Package) (text : Str),
      getPinsSection upperTable pkg = .ok text →
      resolvePins upperTable pkg = .ok (expectedEntries (packageScan upperTable pkg)))
    ∧ (∀ upperTable : Char → Bool, resolvePins upperTable pkgScenario
        = .ok [{ HardwareName := "GPIO3".toList, OtherNames := ["LED".toList] }]) :=
  ⟨fun _ _ _ hok =>
      (getPinsSection_ok (scanPins_eq_packageScan (scanPins_isOk_of_getPinsSection hok)) hok).1,
    fun _ => rfl⟩

/-- C5 (witness): the constants of the scenario. -/
theorem pin_exposure_and_order_witness :
    resolvePins asciiOnly pkgScenario
      = .ok (expectedEntries (packageScan asciiOnly pkgScenario)) :=
  pin_exposure_and_order.1 asciiOnly pkgScenario pinsTextScenario (by decide)

/-! ## The capability detector -/

theorem setIf_apply (cond : Bool) (features : FlagMap) (key j : Str) :
    setIf cond features key j
      = if j = key ∧ cond = true then some true else features j := by
  unfold setIf
  cases cond <;> simp [mapSet_apply]

theorem isRadioTag_eq (tag : Str) : isRadioTag tag = decide (tag ∈ radioTags) := by
  simp [isRadioTag, radioTags, Bool.or_assoc]

theorem bluetoothLoop_apply : ∀ (tags : List Str) (features : FlagMap) (j : Str),
    bluetoothLoop features tags j
      = if j = bluetoothName ∧ tags.any isRadioTag = true then some true else features j
  | [], features, j => by simp [bluetoothLoop]
  | tag :: rest, features, j => by
    rw [bluetoothLoop, bluetoothLoop_apply rest]
    cases htag : isRadioTag tag with
    | false => simp [htag]
    | true =>
      by_cases hj : j = bluetoothName
      · simp [hj, htag, mapSet_apply]
      · simp [hj, htag, mapSet_apply]

/-- What one step of the variable loop does when it does not panic. -/
theorem pwmSpec_ok (upperTable : Char → Bool) (pkg : TypedPackage) (features next : FlagMap)
    (spec : ValueSpec) (h : pwmSpec upperTable pkg features spec = .ok next) :
    next = if isPWMVariable upperTable pkg spec.name = true then mapSet features pwmName true
      else features := by
  unfold pwmSpec at h
  unfold isPWMVariable
  cases hexp : IsExported upperTable spec.name with
  | false =>
    simp only [hexp, Bool.not_false, if_true, Outcome.ok.injEq] at h
    simp [← h]
  | true =>
    simp only [hexp, Bool.not_true, Bool.false_eq_true, if_false] at h
    cases hscope : pkg.scope spec.name with
    | none => simp only [hscope] at h; cases h
    | some obj =>
      simp only [hscope] at h
      cases hm : pkg.methodSet (pkg.typeOf spec.name) configureName with
      | none =>
        simp only [hm, Outcome.ok.injEq] at h
        simp [← h]
      | some params =>
        simp only [hm] at h
        match params, h with
        | [], h => simpa using h.symm
        | [param], h =>
          cases hcfg : pkg.scope pwmConfigName with
          | none => simp [hcfg] at h
          | some obj2 =>
            by_cases hp : param = pkg.typeOf pwmConfigName
            · simp [hcfg, hp] at h
              simp [hp, ← h]
            · simp [hcfg, hp] at h
              simp [hp, ← h]
        | _ :: _ :: _, h => simpa using h.symm

theorem mapSet_idem {κ ν : Type} [DecidableEq κ] (m : κ → Option ν) (k : κ) (v : ν) :
    mapSet (mapSet m k v) k v = mapSet m k v := by
  funext j
  simp only [mapSet_apply]
  split <;> rfl

/-- The variable loop sets the key PWM exactly when the first name of some spec denotes a
PWM peripheral, and changes nothing else. -/
theorem pwmLoop_ok (upperTable : Char → Bool) (pkg : TypedPackage) :
    ∀ (specs : List ValueSpec) (features next : FlagMap),
      forRange (pwmSpec upperTable pkg) features specs = .ok next →
      next = if specs.any (fun spec => isPWMVariable upperTable pkg spec.name) = true
        then mapSet features pwmName true else features
  | [], features, next, h => by
    rw [forRange_nil] at h
    cases h
    simp
  | spec :: rest, features, next, h => by
    rw [forRange_cons] at h
    cases hb : pwmSpec upperTable pkg features spec with
    | error e => rw [hb] at h; cases h
    | crash => rw [hb] at h; cases h
    | ok mid =>
      rw [hb] at h
      have hmid := pwmSpec_ok upperTable pkg features mid spec hb
      have hnext := pwmLoop_ok upperTable pkg rest mid next h
      rw [hnext, hmid, List.any_cons]
      cases isPWMVariable upperTable pkg spec.name <;>
        cases rest.any (fun spec => isPWMVariable upperTable pkg spec.name) <;>
        simp [mapSet_idem]

theorem pwmDecl_eq (upperTable : Char → Bool) (pkg : TypedPackage) (features : FlagMap)
    (decl : Decl) :
    pwmDecl upperTable pkg features decl
      = forRange (pwmSpec upperTable pkg) features
          (match decl with
            | .genDecl .VAR specs => specs
            | _ => []) := by
  cases decl with
  | other => rfl
  | typeDecl specs => rfl
  | funcDecl fd => rfl
  | genDecl tok specs =>
    cases tok <;> simp [pwmDecl, forRange_nil]

/-- The last loop of detectSupportedFeatures is one loop over the value specs of the
variable declarations. -/
theorem pwmFiles_eq (upperTable : Char → Bool) (pkg : TypedPackage) (features : FlagMap) :
    forRange (fun features file => forRange (pwmDecl upperTable pkg) features file)
        features pkg.files
      = forRange (pwmSpec upperTable pkg) features (varSpecs pkg.toPackage) := by
  unfold varSpecs
  apply forRange_flatMap
  intro st file
  apply forRange_flatMap
  intro st1 decl
  rw [pwmDecl_eq]

/-- The keys of the map are pairwise different strings. -/
theorem featureName_literals :
    gpioName = ['G', 'P', 'I', 'O'] ∧ uartName = ['U', 'A', 'R', 'T']
      ∧ spiName = ['S', 'P', 'I'] ∧ i2cName = ['I', '2', 'C'] ∧ adcName = ['A', 'D', 'C']
      ∧ pwmName = ['P', 'W', 'M']
      ∧ bluetoothName = ['B', 'l', 'u', 'e', 't', 'o', 'o', 't', 'h']
      ∧ usbDeviceName = ['U', 'S', 'B', 'D', 'e', 'v', 'i', 'c', 'e'] := by
  decide

/-- The map before the last loop. -/
theorem baseFeatures_eq (pkg : TypedPackage) (buildTags : List Str) :
    setIf (pkg.scope usbDeviceName).isSome
        (bluetoothLoop
          (setIf (pkg.methodSet (pkg.typeOf adcName) configureName).isSome
            (setIf (pkg.scope i2cName).isSome
              (setIf (pkg.scope spiName).isSome
                (setIf (pkg.scope uartName).isSome
                  (setIf (pkg.methodSet (pkg.typeOf pinTypeName) getName).isSome
                    initialFeatures gpioName) uartName) spiName) i2cName) adcName)
          buildTags) usbDeviceName
      = baseFeatures pkg buildTags := by
  funext k
  have hany : buildTags.any isRadioTag
      = buildTags.any (fun tag => decide (tag ∈ radioTags)) := by
    congr 1
    funext tag
    exact isRadioTag_eq tag
  simp only [setIf_apply, bluetoothLoop_apply, baseFeatures, initialFeatures, hany]
  generalize (pkg.scope usbDeviceName).isSome = b1
  generalize (pkg.methodSet (pkg.typeOf adcName) configureName).isSome = b2
  generalize (pkg.scope i2cName).isSome = b3
  generalize (pkg.scope spiName).isSome = b4
  generalize (pkg.scope uartName).isSome = b5
  generalize (pkg.methodSet (pkg.typeOf pinTypeName) getName).isSome = b6
  generalize buildTags.any (fun tag => decide (tag ∈ radioTags)) = b7
  by_cases h1 : k = gpioName
  · subst h1; cases b6 <;> simp [featureNames, featureName_literals]
  by_cases h2 : k = uartName
  · subst h2; cases b5 <;> simp [featureNames, featureName_literals]
  by_cases h3 : k = spiName
  · subst h3; cases b4 <;> simp [featureNames, featureName_literals]
  by_cases h4 : k = i2cName
  · subst h4; cases b3 <;> simp [featureNames, featureName_literals]
  by_cases h5 : k = adcName
  · subst h5; cases b2 <;> simp [featureNames, featureName_literals]
  by_cases h6 : k = pwmName
  · subst h6; simp [featureNames, featureName_literals]
  by_cases h7 : k = bluetoothName
  · subst h7; cases b7 <;> simp [featureNames, featureName_literals]
  by_cases h8 : k = usbDeviceName
  · subst h8; cases b1 <;> simp [featureNames, featureName_literals]
  simp [featureNames, h1, h2, h3, h4, h5, h6, h7, h8]

/-- The map returned by detectSupportedFeatures: the flags of the named lookups and of the
build tags, and the key PWM set when the first name of some variable spec denotes a PWM
peripheral. -/
theorem detectSupportedFeatures_ok (upperTable : Char → Bool) (pkg : TypedPackage)
    (buildTags : List Str) (flags : FlagMap)
    (h : detectSupportedFeatures upperTable pkg buildTags = .ok flags) :
    flags = if (varSpecs pkg.toPackage).any
          (fun spec => isPWMVariable upperTable pkg spec.name) = true
        then mapSet (baseFeatures pkg buildTags) pwmName true
        else baseFeatures pkg buildTags := by
  unfold detectSupportedFeatures at h
  cases hpin : pkg.scope pinTypeName with
  | none => simp only [hpin] at h; cases h
  | some o1 =>
    cases hadc : pkg.scope adcName with
    | none => simp only [hpin, hadc] at h; cases h
    | some o2 =>
      simp only [hpin, hadc] at h
      rw [pwmFiles_eq, baseFeatures_eq] at h
      exact pwmLoop_ok upperTable pkg _ _ _ h

theorem detectSupportedFeatures_of_ne_pwm (upperTable : Char → Bool) (pkg : TypedPackage)
    (buildTags : List Str) (flags : FlagMap)
    (h : detectSupportedFeatures upperTable pkg buildTags = .ok flags) (k : Str)
    (hk : k ≠ pwmName) : flags k = baseFeatures pkg buildTags k := by
  rw [detectSupportedFeatures_ok upperTable pkg buildTags flags h]
  split
  · rw [mapSet_apply, if_neg hk]
  · rfl

/-- The flag PWM follows the first names of the variable specs only. -/
theorem detectSupportedFeatures_pwm (upperTable : Char → Bool) (pkg : TypedPackage)
    (buildTags : List Str) (flags : FlagMap)
    (h : detectSupportedFeatures upperTable pkg buildTags = .ok flags) :
    flags pwmName
      = some ((varSpecs pkg.toPackage).any
          (fun spec => isPWMVariable upperTable pkg spec.name)) := by
  rw [detectSupportedFeatures_ok upperTable pkg buildTags flags h]
  cases (varSpecs pkg.toPackage).any (fun spec => isPWMVariable upperTable pkg spec.name)
  · simp [baseFeatures, featureName_literals]
  · simp [mapSet_apply]

/-- C12 (code against the claim): in the package with the types Pin, ADC and PWMConfig and
the declaration `var a, PWM0 = ...`, the exported top-level variable PWM0 has a type whose
Configure method takes exactly one parameter, of the type PWMConfig, and
detectSupportedFeatures returns the flag PWM false, because only the first name of a
variable spec is looked at; with the declaration `var PWM0 = ...` the flag is true. -/
theorem pwm_later_name_not_detected :
    (pkgLaterName.scope pinTypeName).isSome = true
      ∧ (pkgLaterName.scope adcName).isSome = true
      ∧ (pkgLaterName.scope pwmConfigName).isSome = true
      ∧ (∃ spec ∈ varSpecs pkgLaterName.toPackage, "PWM0".toList ∈ spec.moreNames)
      ∧ isPWMVariable asciiOnly pkgLaterName "PWM0".toList = true
      ∧ detectedFlag asciiOnly pkgLaterName [] pwmName = some false
      ∧ detectedFlag asciiOnly pkgFirstName [] pwmName = some true := by
  refine ⟨by decide, by decide, by decide, ?_, by decide, by decide, by decide⟩
  exact ⟨⟨"a".toList, ["PWM0".toList], [Expr.other, Expr.other]⟩, by decide, by decide⟩

/-- C13: for every build-tag list and every package on which detectSupportedFeatures
returns a map, the flag Bluetooth is true exactly when some tag is equal to one of
"nrf51", "nrf52", "nrf52840", "nrf52833", and false otherwise. -/
theorem bluetooth_exact_membership (upperTable : Char → Bool) (pkg : TypedPackage)
    (buildTags : List Str) (flags : FlagMap)
    (h : detectSupportedFeatures upperTable pkg buildTags = .ok flags) :
    flags bluetoothName = some (decide (∃ tag ∈ buildTags, tag ∈ radioTags)) := by
  rw [detectSupportedFeatures_of_ne_pwm upperTable pkg buildTags flags h bluetoothName
    (by decide)]
  have hb : baseFeatures pkg buildTags bluetoothName
      = some (buildTags.any (fun tag => decide (tag ∈ radioTags))) := by
    simp [baseFeatures, featureName_literals]
  rw [hb]
  congr 1
  rw [Bool.eq_iff_iff]
  simp

/-- C13 (witness): the tags ["nrf52840", "someOtherTag"] give true, the tags
["stm32", "someOtherTag"] give false, and the tags ["nrf52832", "xnrf51"] give false. -/
theorem bluetooth_exact_membership_witness :
    (∃ flags, detectSupportedFeatures asciiOnly pkgFirstName
          ["nrf52840".toList, "someOtherTag".toList] = .ok flags
        ∧ flags bluetoothName = some true)
      ∧ (∃ flags, detectSupportedFeatures asciiOnly pkgFirstName
          ["stm32".toList, "someOtherTag".toList] = .ok flags
        ∧ flags bluetoothName = some false)
      ∧ (∃ flags, detectSupportedFeatures asciiOnly pkgFirstName
          ["nrf52832".toList, "xnrf51".toList] = .ok flags
        ∧ flags bluetoothName = some false) :=
  ⟨⟨_, rfl, (bluetooth_exact_membership asciiOnly pkgFirstName
      ["nrf52840".toList, "someOtherTag".toList] _ rfl).trans (by decide)⟩,
    ⟨_, rfl, (bluetooth_exact_membership asciiOnly pkgFirstName
      ["stm32".toList, "someOtherTag".toList] _ rfl).trans (by decide)⟩,
    ⟨_, rfl, (bluetooth_exact_membership asciiOnly pkgFirstName
      ["nrf52832".toList, "xnrf51".toList] _ rfl).trans (by decide)⟩⟩

/-- C14: for every package and build-tag list on which detectSupportedFeatures returns a
map, the keys of the map are exactly GPIO, UART, SPI, I2C, ADC, PWM, Bluetooth and
USBDevice; GPIO is true exactly when the method set of the type Pin has Get, ADC exactly
when the method set of the type ADC has Configure, and each of UART, SPI, I2C and USBDevice
exactly when the scope has a declaration of that name. -/
theorem named_lookup_flags (upperTable : Char → Bool) (pkg : TypedPackage)
    (buildTags : List Str) (flags : FlagMap)
    (h : detectSupportedFeatures upperTable pkg buildTags = .ok flags) :
    (∀ k, (flags k).isSome = true ↔ k ∈ featureNames)
      ∧ flags gpioName = some (pkg.methodSet (pkg.typeOf pinTypeName) getName).isSome
      ∧ flags adcName = some (pkg.methodSet (pkg.typeOf adcName) configureName).isSome
      ∧ flags uartName = some (pkg.scope uartName).isSome
      ∧ flags spiName = some (pkg.scope spiName).isSome
      ∧ flags i2cName = some (pkg.scope i2cName).isSome
      ∧ flags usbDeviceName = some (pkg.scope usbDeviceName).isSome := by
  have hne := detectSupportedFeatures_of_ne_pwm upperTable pkg buildTags flags h
  have hpwm := detectSupportedFeatures_pwm upperTable pkg buildTags flags h
  refine ⟨?_, ?_, ?_, ?_, ?_, ?_, ?_⟩
  · intro k
    by_cases hk : k = pwmName
    · subst hk
      rw [hpwm]
      simp [featureNames]
    · rw [hne k hk]
      simp only [baseFeatures, featureNames, List.mem_cons, List.mem_singleton,
        List.not_mem_nil, or_false]
      by_cases h1 : k = gpioName
      · subst h1; simp [featureName_literals]
      by_cases h2 : k = uartName
      · subst h2; simp [featureName_literals]
      by_cases h3 : k = spiName
      · subst h3; simp [featureName_literals]
      by_cases h4 : k = i2cName
      · subst h4; simp [featureName_literals]
      by_cases h5 : k = adcName
      · subst h5; simp [featureName_literals]
      by_cases h7 : k = bluetoothName
      · subst h7; simp [featureName_literals]
      by_cases h8 : k = usbDeviceName
      · subst h8; simp [featureName_literals]
      simp [h1, h2, h3, h4, h5, hk, h7, h8]
  · rw [hne _ (by decide)]; simp [baseFeatures, featureName_literals]
  · rw [hne _ (by decide)]; simp [baseFeatures, featureName_literals]
  · rw [hne _ (by decide)]; simp [baseFeatures, featureName_literals]
  · rw [hne _ (by decide)]; simp [baseFeatures, featureName_literals]
  · rw [hne _ (by decide)]; simp [baseFeatures, featureName_literals]
  · rw [hne _ (by decide)]; simp [baseFeatures, featureName_literals]

/-- C14 (witness): the package with the types Pin (with Get), ADC (with Configure) and
PWMConfig and the variables UART0 and PWM0, with the tag nrf52. -/
theorem named_lookup_flags_witness :
    ∃ flags, detectSupportedFeatures asciiOnly pkgFirstName ["nrf52".toList] = .ok flags
      ∧ (∀ k, (flags k).isSome = true ↔ k ∈ featureNames)
      ∧ flags gpioName = some true ∧ flags adcName = some true
      ∧ flags uartName = some false ∧ flags spiName = some false
      ∧ flags i2cName = some false ∧ flags usbDeviceName = some false :=
  ⟨_, rfl, named_lookup_flags asciiOnly pkgFirstName ["nrf52".toList] _ rfl⟩

/-- C15: for every package whose scope has no declaration named Pin, or none named ADC,
and every build-tag list, detectSupportedFeatures returns no map: the lookup result is
dereferenced and the run panics. -/
theorem detection_fails_fast (upperTable : Char → Bool) (pkg : TypedPackage)
    (buildTags : List Str)
    (h : (pkg.scope pinTypeName).isSome = false ∨ (pkg.scope adcName).isSome = false) :
    detectSupportedFeatures upperTable pkg buildTags = .crash := by
  unfold detectSupportedFeatures
  cases hpin : pkg.scope pinTypeName with
  | none => rfl
  | some o1 =>
    rcases h with h | h
    · rw [hpin] at h; cases h
    · cases hadc : pkg.scope adcName with
      | none => rfl
      | some o2 => rw [hadc] at h; cases h

/-- C15 (witness): a package with the type Pin and no ADC, with a radio tag. -/
theorem detection_fails_fast_witness :
    detectSupportedFeatures asciiOnly pkgNoADC ["nrf52".toList] = .crash :=
  detection_fails_fast asciiOnly pkgNoADC ["nrf52".toList] (Or.inr (by decide))

/-! ## Rows with a blank first cell -/

/-- A line that begins with "| " and has 5 parts of which the first cell is empty or blank
makes the body of the row loop index the empty string. -/
theorem interfacesRow_blank_first_cell (features : FlagMap) (line p0 p1 p2 p3 p4 : Str)
    (hp : HasPrefix line rowPrefix = true) (hs : Split '|' line = [p0, p1, p2, p3, p4])
    (hblank : TrimSpace p1 = []) : interfacesRow features line = .crash := by
  unfold interfacesRow
  simp only [hp, Bool.not_true, Bool.false_eq_true, if_false, hs, hblank]
  rfl

/-- C19 (failing input): the line "|  | YES | NO |" begins with "| ", has exactly 5 parts
and a blank first cell; the body of the row loop panics on it at feature[0], for every flag
map, and so does updateBoardDocumentation on a document whose Interfaces section holds this
row, for every flag map and package: neither a regenerated section nor an error is
returned. -/
theorem blank_first_cell_row_panics :
    HasPrefix "|  | YES | NO |".toList rowPrefix = true
      ∧ (Split '|' "|  | YES | NO |".toList).length = 5
      ∧ (∀ features : FlagMap, interfacesRow features "|  | YES | NO |".toList = .crash)
      ∧ findSection interfacesName docBlankRow = .ok (9, 92)
      ∧ (∀ features : FlagMap,
          regenerateInterfaces features (slice docBlankRow 9 92) = .crash)
      ∧ ∀ (upperTable : Char → Bool) (features : FlagMap) (pkg : Package),
          updateBoardDocumentation upperTable features docBlankRow pkg = .crash :=
  ⟨by decide, by decide, fun _ => rfl, by decide, fun _ => rfl, fun _ _ _ => rfl⟩

/-! ## The sentinel and the rendering of the pin table -/

/-- When the constant specs are read and NoPin is not among the exported Pin constants, the
error of line 505 is returned. -/
theorem getPinsSection_without_sentinel (upperTable : Char → Bool) (pkg : Package)
    (hread : (constSpecs pkg).all (specReadable upperTable pkg) = true)
    (hno : noPinName ∉ (packageScan upperTable pkg).pinNamesSlice) :
    getPinsSection upperTable pkg = .error .noNoPin := by
  have hscan := scanPins_eq_packageScan
    ((scanPins_isOk upperTable pkg).trans hread)
  have hnone : (packageScan upperTable pkg).pinNames noPinName = none := by
    change (if noPinName ∈ (packageScan upperTable pkg).pinNamesSlice then _ else none) = none
    rw [if_neg hno]
  rcases resolvePins_spec hscan with ⟨_, h⟩ | ⟨h, _⟩ | ⟨h, _⟩
  · simp only [getPinsSection, h]
  · exact absurd hnone h
  · exact absurd hnone h

/-- C16 (counterexample): the exported Pin constants GPIO3 and Below do not include NoPin,
and the value of Below is not representable as uint64: getPinsSection returns the error
"expected pin Below ... to be representable by uint64" of line 494, not the error "could
not find NoPin constant". -/
theorem unreadable_pin_before_sentinel_check :
    noPinName ∉ (packageScan asciiOnly pkgUnreadablePin).pinNamesSlice
      ∧ getPinsSection asciiOnly pkgUnreadablePin = .error (.notUint64 "Below".toList)
      ∧ getPinsSection asciiOnly pkgUnreadablePin ≠ .error .noNoPin := by
  refine ⟨by decide, rfl, ?_⟩
  intro h
  have h2 : getPinsSection asciiOnly pkgUnreadablePin
      = .error (.notUint64 "Below".toList) := rfl
  rw [h2] at h
  cases h

/-- C16 (amended): for every package of which the constant specs can be read by the first
loop (every exported first name is found in the scope, and every constant of the type
machine.Pin has a value representable as uint64) and whose exported constants of the type
machine.Pin, taking the first name of each constant spec, do not include NoPin,
getPinsSection returns the error "could not find NoPin constant" and no pin table. -/
theorem sentinel_required (upperTable : Char → Bool) (pkg : Package)
    (hread : (constSpecs pkg).all (specReadable upperTable pkg) = true)
    (hno : noPinName ∉ (pinSpecs upperTable pkg).map (fun spec => spec.name)) :
    getPinsSection upperTable pkg = .error .noNoPin
      ∧ ∀ text, getPinsSection upperTable pkg ≠ .ok text := by
  have h := getPinsSection_without_sentinel upperTable pkg hread hno
  refine ⟨h, ?_⟩
  intro text ht
  rw [h] at ht
  cases ht

/-- C16 (witness): the constants GPIO3 Pin = 3 and LED Pin = GPIO3, without NoPin. -/
theorem sentinel_required_witness :
    getPinsSection asciiOnly pkgNoSentinel = .error .noNoPin
      ∧ ∀ text, getPinsSection asciiOnly pkgNoSentinel ≠ .ok text :=
  sentinel_required asciiOnly pkgNoSentinel (by decide) (by decide)

/-- One step of the rendering loop appends the row of the entry. -/
theorem renderPin_ok (pinsText next : Str) (pin : Pin)
    (h : renderPin pinsText pin = .ok next) : next = pinsText ++ expectedPinRow pin := by
  unfold renderPin at h
  cases ho : pin.OtherNames with
  | nil => simp only [ho] at h; cases h
  | cons first rest =>
    simp only [ho] at h
    by_cases hh : pin.HardwareName = []
    · rw [if_pos hh] at h; cases h
    · rw [if_neg hh] at h
      cases h
      simp [expectedPinRow, pinCells, pinTableRow, ho]

/-- The rendering loop appends one row per entry, in the order of the entries. -/
theorem renderLoop_text : ∀ (entries : List Pin) (pinsText text : Str),
    forRange renderPin pinsText entries = .ok text →
    text = pinsText ++ (entries.map expectedPinRow).flatten
  | [], pinsText, text, h => by
    rw [forRange_nil] at h
    cases h
    simp
  | pin :: rest, pinsText, text, h => by
    rw [forRange_cons] at h
    cases hb : renderPin pinsText pin with
    | error e => rw [hb] at h; cases h
    | crash => rw [hb] at h; cases h
    | ok mid =>
      rw [hb] at h
      rw [renderLoop_text rest mid text h, renderPin_ok pinsText mid pin hb]
      simp


/-! ## The declaration classifier -/

/-- The second loop of writeMachinePackageDoc is one loop over the declarations. -/
theorem writeMachinePackageDoc_eq (upperTable : Char → Bool) (target : Str) (pkg : Package) :
    writeMachinePackageDoc upperTable target pkg
      = forRange (attachFunc upperTable) (readDeclarations upperTable target pkg)
          (allDecls pkg) := by
  unfold writeMachinePackageDoc allDecls
  apply forRange_flatMap
  intro st file
  rfl

/-- A loop with an element on which the body never succeeds does not succeed. -/
theorem forRange_not_ok_of_mem {σ α : Type} (body : σ → α → Outcome σ) (x : α)
    (hx : ∀ st, (body st x).isOk = false) :
    ∀ (xs : List α) (st : σ), x ∈ xs → (forRange body st xs).isOk = false
  | [], _, h => by cases h
  | y :: ys, st, h => by
    rw [forRange_cons]
    cases hb : body st y with
    | error e => rfl
    | crash => rfl
    | ok st1 =>
      rcases List.mem_cons.1 h with h1 | h1
      · have := hx st
        rw [h1, hb] at this
        cases this
      · exact forRange_not_ok_of_mem body x hx ys st1 h1

/-- What a successful step of the second loop does to the types: nothing, or the method is
attached to the registered type of its receiver. -/
theorem attachFunc_types (upperTable : Char → Bool) (doc next : PackageDoc) (decl : Decl)
    (h : attachFunc upperTable doc decl = .ok next) :
    (next.Types = doc.Types ∧ ∀ fd T, decl = .funcDecl fd → ¬ isAttached upperTable fd T)
      ∨ ∃ fd T typeDoc, decl = .funcDecl fd ∧ isAttached upperTable fd T
          ∧ doc.Types T = some typeDoc
          ∧ next.Types = mapSet doc.Types T
              { typeDoc with Funcs := mapSet typeDoc.Funcs fd.name fd } := by
  have hattach : ∀ (fd : FuncDecl) (T : Str), decl = .funcDecl fd →
      IsExported upperTable fd.name = true → receiverTypeName fd = some T →
      attachMethod upperTable doc fd T = .ok next →
      (next.Types = doc.Types ∧ ∀ fd T, decl = .funcDecl fd → ¬ isAttached upperTable fd T)
        ∨ ∃ fd T typeDoc, decl = .funcDecl fd ∧ isAttached upperTable fd T
            ∧ doc.Types T = some typeDoc
            ∧ next.Types = mapSet doc.Types T
                { typeDoc with Funcs := mapSet typeDoc.Funcs fd.name fd } := by
    intro fd T hd hname hrecv hm
    unfold attachMethod at hm
    cases hT : IsExported upperTable T with
    | false =>
      left
      simp only [hT, Bool.false_eq_true, if_false, Outcome.ok.injEq] at hm
      refine ⟨by rw [← hm], ?_⟩
      intro fd2 T2 hd2 hatt
      rw [hd] at hd2
      cases hd2
      have := hatt.2.1
      rw [hrecv] at this
      cases this
      have := hatt.2.2
      rw [hT] at this
      cases this
    | true =>
      right
      simp only [hT, if_true] at hm
      cases htd : doc.Types T with
      | none => simp only [htd] at hm; cases hm
      | some typeDoc =>
        simp only [htd, Outcome.ok.injEq] at hm
        exact ⟨fd, T, typeDoc, hd, ⟨hname, hrecv, hT⟩, htd, by rw [← hm]⟩
  cases decl with
  | genDecl tok specs =>
    left
    simp only [attachFunc, Outcome.ok.injEq] at h
    exact ⟨by rw [← h], fun fd T hd => by cases hd⟩
  | typeDecl specs =>
    left
    simp only [attachFunc, Outcome.ok.injEq] at h
    exact ⟨by rw [← h], fun fd T hd => by cases hd⟩
  | other =>
    left
    simp only [attachFunc, Outcome.ok.injEq] at h
    exact ⟨by rw [← h], fun fd T hd => by cases hd⟩
  | funcDecl fd =>
    unfold attachFunc at h
    cases hname : IsExported upperTable fd.name with
    | false =>
      left
      simp only [hname, Bool.not_false, if_true, Outcome.ok.injEq] at h
      refine ⟨by rw [← h], ?_⟩
      intro fd2 T2 hd2 hatt
      cases hd2
      have := hatt.1
      rw [hname] at this
      cases this
    | true =>
      simp only [hname, Bool.not_true, Bool.false_eq_true, if_false] at h
      cases hrecv : fd.recv with
      | none =>
        left
        simp only [hrecv, Outcome.ok.injEq] at h
        refine ⟨by rw [← h], ?_⟩
        intro fd2 T2 hd2 hatt
        cases hd2
        have := hatt.2.1
        simp [receiverTypeName, hrecv] at this
      | some expr =>
        simp only [hrecv] at h
        match expr, hrecv, h with
        | .ident T, hrecv, h =>
          exact hattach fd T rfl hname (by simp [receiverTypeName, hrecv]) h
        | .star (.ident T), hrecv, h =>
          exact hattach fd T rfl hname (by simp [receiverTypeName, hrecv]) h
        | .star (.star x), hrecv, h => cases h
        | .star .other, hrecv, h => cases h
        | .other, hrecv, h => cases h

theorem attachInv_step (upperTable : Char → Bool) (done : List Decl) (doc : PackageDoc)
    (decl : Decl) (next : PackageDoc) (inv : AttachInv upperTable done doc)
    (h : attachFunc upperTable doc decl = .ok next) :
    AttachInv upperTable (done ++ [decl]) next := by
  intro fd T hmem hatt
  rcases attachFunc_types upperTable doc next decl h with ⟨htypes, hnot⟩ |
    ⟨gd, U, typeDoc, hd, hgatt, hU, htypes⟩
  · rcases List.mem_append.1 hmem with hold | hnew
    · obtain ⟨typeDoc, found, h1, h2, h3, h4, h5⟩ := inv fd T hold hatt
      exact ⟨typeDoc, found, by rw [htypes]; exact h1, h2,
        List.mem_append_left _ h3, h4, h5⟩
    · rw [List.mem_singleton] at hnew
      exact absurd hatt (hnot fd T hnew.symm)
  · have hgmem : Decl.funcDecl gd ∈ done ++ [decl] := by
      rw [hd]; exact List.mem_append_right _ (List.mem_singleton.2 rfl)
    by_cases hTU : T = U
    · subst hTU
      by_cases hn : fd.name = gd.name
      · exact ⟨_, gd, by rw [htypes, mapSet_apply, if_pos rfl], by
          simp only [mapSet_apply, hn, if_true], hgmem, hn.symm, hgatt.2.1⟩
      · rcases List.mem_append.1 hmem with hold | hnew
        · obtain ⟨typeDoc2, found, h1, h2, h3, h4, h5⟩ := inv fd T hold hatt
          rw [hU] at h1
          cases h1
          exact ⟨_, found, by rw [htypes, mapSet_apply, if_pos rfl], by
            simp only [mapSet_apply, hn, if_false]; exact h2,
            List.mem_append_left _ h3, h4, h5⟩
        · rw [List.mem_singleton, hd] at hnew
          cases hnew
          exact absurd rfl hn
    · rcases List.mem_append.1 hmem with hold | hnew
      · obtain ⟨typeDoc2, found, h1, h2, h3, h4, h5⟩ := inv fd T hold hatt
        exact ⟨typeDoc2, found, by rw [htypes, mapSet_apply, if_neg hTU]; exact h1, h2,
          List.mem_append_left _ h3, h4, h5⟩
      · rw [List.mem_singleton, hd] at hnew
        cases hnew
        have h1 := hatt.2.1
        rw [hgatt.2.1] at h1
        cases h1
        exact absurd rfl hTU

theorem mem_funcDecls (pkg : Package) (fd : FuncDecl) :
    fd ∈ funcDecls pkg ↔ Decl.funcDecl fd ∈ allDecls pkg := by
  unfold funcDecls
  rw [List.mem_filterMap]
  constructor
  · rintro ⟨decl, hmem, hd⟩
    cases decl with
    | funcDecl gd =>
      simp only [Option.some.injEq] at hd
      rw [← hd]; exact hmem
    | genDecl tok specs => cases hd
    | typeDecl specs => cases hd
    | other => cases hd
  · intro h
    exact ⟨_, h, rfl⟩

/-- An exported method with an unexported receiver type name is skipped without error. -/
theorem attachFunc_unexported_receiver (upperTable : Char → Bool) (doc : PackageDoc)
    (fd : FuncDecl) (T : Str) (hrecv : receiverTypeName fd = some T)
    (hT : IsExported upperTable T = false) :
    attachFunc upperTable doc (.funcDecl fd) = .ok doc := by
  cases hname : IsExported upperTable fd.name with
  | false => simp only [attachFunc, hname, Bool.not_false, if_true]
  | true =>
    unfold receiverTypeName at hrecv
    cases hr : fd.recv with
    | none => rw [hr] at hrecv; cases hrecv
    | some expr =>
      rw [hr] at hrecv
      match expr, hr, hrecv with
      | .ident U, hr, hrecv =>
        cases hrecv
        simp only [attachFunc, hname, hr, attachMethod, hT, Bool.not_true,
          Bool.false_eq_true, if_false]
      | .star (.ident U), hr, hrecv =>
        cases hrecv
        simp only [attachFunc, hname, hr, attachMethod, hT, Bool.not_true,
          Bool.false_eq_true, if_false]
      | .star (.star x), hr, hrecv => cases hrecv
      | .star .other, hr, hrecv => cases hrecv
      | .other, hr, hrecv => cases hrecv

/-- An exported method whose receiver is neither a name nor a pointer to a name stops the
second loop: with the error "unknown receiver", or with the panic of the type assertion
receiver.X.(*ast.Ident). -/
theorem attachFunc_unknown_receiver (upperTable : Char → Bool) (doc : PackageDoc)
    (fd : FuncDecl) (hname : IsExported upperTable fd.name = true)
    (hsome : fd.recv.isSome = true) (hrecv : receiverTypeName fd = none) :
    (attachFunc upperTable doc (.funcDecl fd)).isOk = false := by
  unfold receiverTypeName at hrecv
  cases hr : fd.recv with
  | none => rw [hr] at hsome; cases hsome
  | some expr =>
    rw [hr] at hrecv
    match expr, hr, hrecv with
    | .ident U, hr, hrecv => cases hrecv
    | .star (.ident U), hr, hrecv => cases hrecv
    | .star (.star x), hr, hrecv =>
      simp only [attachFunc, hname, hr, Bool.not_true, Bool.false_eq_true, if_false]
      rfl
    | .star .other, hr, hrecv =>
      simp only [attachFunc, hname, hr, Bool.not_true, Bool.false_eq_true, if_false]
      rfl
    | .other, hr, hrecv =>
      simp only [attachFunc, hname, hr, Bool.not_true, Bool.false_eq_true, if_false]
      rfl

/-- C18 (counterexample): in the declarations `type Pin`, `type pin`, `func (p Pin) Set()`
and `func (p *pin) Get()` the exported method Get has a receiver type that is not
registered as an exported type; writeMachinePackageDoc returns no error: the method is
skipped, no type has it and it is no function of the package. -/
theorem method_on_unexported_receiver_skipped :
    ∃ doc, writeMachinePackageDoc asciiOnly [] pkgUnexportedReceiver = .ok doc
      ∧ doc.Types "pin".toList = none
      ∧ doc.Funcs "Get".toList = none
      ∧ ∀ T typeDoc, doc.Types T = some typeDoc → typeDoc.Funcs "Get".toList = none := by
  refine ⟨_, rfl, rfl, rfl, ?_⟩
  intro T typeDoc h
  have hread : (readDeclarations asciiOnly [] pkgUnexportedReceiver).Types
      = mapSet (fun _ => none) "Pin".toList (TypeDoc.mk ⟨"Pin".toList⟩ (fun _ => none)) := rfl
  change mapSet (readDeclarations asciiOnly [] pkgUnexportedReceiver).Types "Pin".toList
    _ T = some typeDoc at h
  rw [mapSet_apply] at h
  split at h
  · cases h
    rfl
  · rename_i hT
    rw [hread, mapSet_apply, if_neg hT] at h
    cases h

/-- C18 (amended): for every package on which writeMachinePackageDoc returns a PackageDoc,
each exported method whose receiver is a plain named type T or *T with T exported ends up
in Types[T].Funcs under the name of the method (the entry holds a method of the package of
this name and receiver type, hence the method itself when it is the only one); an exported
method whose receiver is neither a name nor a pointer to a name makes the classification
fail; and an exported method whose receiver type name is unexported is skipped without
error. -/
theorem method_attachment (upperTable : Char → Bool) (target : Str) (pkg : Package) :
    (∀ doc, writeMachinePackageDoc upperTable target pkg = .ok doc →
      ∀ fd ∈ funcDecls pkg, ∀ T, IsExported upperTable fd.name = true →
        receiverTypeName fd = some T → IsExported upperTable T = true →
        ∃ typeDoc found, doc.Types T = some typeDoc ∧ typeDoc.Funcs fd.name = some found
          ∧ found ∈ funcDecls pkg ∧ found.name = fd.name ∧ receiverTypeName found = some T
          ∧ ((∀ g ∈ funcDecls pkg, g.name = fd.name → receiverTypeName g = some T → g = fd) →
              typeDoc.Funcs fd.name = some fd))
      ∧ ((∃ fd ∈ funcDecls pkg, IsExported upperTable fd.name = true
            ∧ fd.recv.isSome = true ∧ receiverTypeName fd = none) →
          (writeMachinePackageDoc upperTable target pkg).isOk = false)
      ∧ ∀ (doc : PackageDoc) (fd : FuncDecl) (T : Str), receiverTypeName fd = some T →
          IsExported upperTable T = false →
          attachFunc upperTable doc (.funcDecl fd) = .ok doc := by
  refine ⟨?_, ?_, ?_⟩
  · intro doc h fd hfd T hname hrecv hT
    rw [writeMachinePackageDoc_eq] at h
    have inv := forRange_invariant (attachFunc upperTable) (AttachInv upperTable)
      (attachInv_step upperTable) (allDecls pkg) [] _ doc
      (fun fd T hmem _ => by cases hmem) h
    rw [List.nil_append] at inv
    obtain ⟨typeDoc, found, h1, h2, h3, h4, h5⟩ :=
      inv fd T ((mem_funcDecls pkg fd).1 hfd) ⟨hname, hrecv, hT⟩
    refine ⟨typeDoc, found, h1, h2, (mem_funcDecls pkg found).2 h3, h4, h5, ?_⟩
    intro huniq
    rw [h2, huniq found ((mem_funcDecls pkg found).2 h3) h4 h5]
  · rintro ⟨fd, hfd, hname, hsome, hrecv⟩
    rw [writeMachinePackageDoc_eq]
    refine forRange_not_ok_of_mem _ (Decl.funcDecl fd) ?_ _ _ ((mem_funcDecls pkg fd).1 hfd)
    intro st
    exact attachFunc_unknown_receiver upperTable st fd hname hsome hrecv
  · intro doc fd T hrecv hT
    exact attachFunc_unexported_receiver upperTable doc fd T hrecv hT

/-- C18 (witness): with `type Pin`, `func (p Pin) Set()`, `func (p *Pin) Get()` and
`func NewPin()` the method Get is in Types[Pin].Funcs; with a method whose receiver is
neither a name nor a pointer the classification fails; the method `func (p *pin) Get()` is
skipped. -/
theorem method_attachment_witness :
    (∃ typeDoc found, (match writeMachinePackageDoc asciiOnly [] pkgMethods with
          | .ok doc => doc.Types "Pin".toList
          | _ => none) = some typeDoc
        ∧ typeDoc.Funcs "Get".toList = some found
        ∧ found ∈ funcDecls pkgMethods ∧ found.name = "Get".toList
        ∧ receiverTypeName found = some "Pin".toList
        ∧ ((∀ g ∈ funcDecls pkgMethods, g.name = "Get".toList →
              receiverTypeName g = some "Pin".toList →
              g = ⟨"Get".toList, some (TypeExpr.star (TypeExpr.ident "Pin".toList))⟩) →
            typeDoc.Funcs "Get".toList
              = some ⟨"Get".toList, some (TypeExpr.star (TypeExpr.ident "Pin".toList))⟩))
      ∧ (writeMachinePackageDoc asciiOnly [] pkgUnknownReceiver).isOk = false
      ∧ ∀ doc : PackageDoc, attachFunc asciiOnly doc
          (.funcDecl ⟨"Get".toList, some (TypeExpr.star (TypeExpr.ident "pin".toList))⟩)
            = .ok doc :=
  ⟨(method_attachment asciiOnly [] pkgMethods).1 _ rfl
      ⟨"Get".toList, some (TypeExpr.star (TypeExpr.ident "Pin".toList))⟩ (by decide)
      "Pin".toList (by decide) (by decide) (by decide),
    (method_attachment asciiOnly [] pkgUnknownReceiver).2.1
      ⟨⟨"Get".toList, some TypeExpr.other⟩, by decide, by decide, by decide, by decide⟩,
    fun doc => (method_attachment asciiOnly [] pkgUnknownReceiver).2.2 doc _ "pin".toList
      (by decide) (by decide)⟩

/-! ## updateBoardDocumentation on the file system -/

theorem tmpPath_ne (path : Str) : path ≠ tmpPath path := by
  intro h
  have hlen := congrArg List.length h
  simp [tmpPath] at hlen

/-- C11: for every file system, path, package and build-tag list, when
updateBoardDocumentation returns an error of section lookup, table-row parsing or pin
resolution, no file has been written: the file system, with the document at the canonical
path and whatever is at the path with the suffix ".tmp", is as before. And in every run the
content at the canonical path is as before, unless the run returns nil; then the canonical
path has been changed by the rename of the temporary file, which holds the complete text
computed from the document read. -/
theorem atomicity_on_error (upperTable : Char → Bool) (faults : Faults) (fs : FileSystem)
    (path : Str) (pkg : TypedPackage) (buildTags : List Str) :
    (∀ e, (updateBoardDocumentationFile upperTable faults fs path pkg buildTags).2
          = .error e → isTextError e = true →
        (updateBoardDocumentationFile upperTable faults fs path pkg buildTags).1 = fs)
      ∧ ((updateBoardDocumentationFile upperTable faults fs path pkg buildTags).1 path
            = fs path
          ∨ ((updateBoardDocumentationFile upperTable faults fs path pkg buildTags).2
                = .ok ()
              ∧ ∃ features doc text,
                  detectSupportedFeatures upperTable pkg buildTags = .ok features
                  ∧ fs path = some doc
                  ∧ updateBoardDocumentation upperTable features doc pkg.toPackage
                    = .ok text
                  ∧ (updateBoardDocumentationFile upperTable faults fs path pkg
                      buildTags).1
                    = renameFile (writeFile fs (tmpPath path) text) (tmpPath path) path
                  ∧ (updateBoardDocumentationFile upperTable faults fs path pkg
                      buildTags).1 path = some text)) := by
  cases hdet : detectSupportedFeatures upperTable pkg buildTags with
  | crash =>
    have hres : updateBoardDocumentationFile upperTable faults fs path pkg buildTags = (fs, .crash) := by
      simp only [updateBoardDocumentationFile, hdet]
    rw [hres]
    exact ⟨fun e _ _ => rfl, Or.inl rfl⟩
  | error e1 =>
    have hres : updateBoardDocumentationFile upperTable faults fs path pkg buildTags = (fs, .error e1) := by
      simp only [updateBoardDocumentationFile, hdet]
    rw [hres]
    exact ⟨fun e _ _ => rfl, Or.inl rfl⟩
  | ok features =>
    cases hread : fs path with
    | none =>
      have hres : updateBoardDocumentationFile upperTable faults fs path pkg buildTags = (fs, .error .readFailed) := by
        simp only [updateBoardDocumentationFile, hdet, hread]
      rw [hres]
      exact ⟨fun e _ _ => rfl, Or.inl hread⟩
    | some doc =>
      cases hcore : updateBoardDocumentation upperTable features doc pkg.toPackage with
      | crash =>
        have hres : updateBoardDocumentationFile upperTable faults fs path pkg buildTags = (fs, .crash) := by
          simp only [updateBoardDocumentationFile, hdet, hread, hcore]
        rw [hres]
        exact ⟨fun e _ _ => rfl, Or.inl hread⟩
      | error e1 =>
        have hres : updateBoardDocumentationFile upperTable faults fs path pkg buildTags = (fs, .error e1) := by
          simp only [updateBoardDocumentationFile, hdet, hread, hcore]
        rw [hres]
        exact ⟨fun e _ _ => rfl, Or.inl hread⟩
      | ok text =>
        cases hw : faults.writeFails with
        | true =>
          have hres : updateBoardDocumentationFile upperTable faults fs path pkg buildTags
              = (fun p => if p = tmpPath path then faults.leftByWrite else fs p,
                  .error .writeFailed) := by
            simp only [updateBoardDocumentationFile, hdet, hread, hcore, hw, if_true]
          rw [hres]
          refine ⟨?_, Or.inl ?_⟩
          · intro e he ht
            cases he
            cases ht
          · show (if path = tmpPath path then faults.leftByWrite else fs path) = some doc
            rw [if_neg (tmpPath_ne path), hread]
        | false =>
          cases hr : faults.renameFails with
          | true =>
            have hres : updateBoardDocumentationFile upperTable faults fs path pkg buildTags
                = (writeFile fs (tmpPath path) text, .error .renameFailed) := by
              simp only [updateBoardDocumentationFile, hdet, hread, hcore, hw, hr,
                Bool.false_eq_true, if_false, if_true]
            rw [hres]
            refine ⟨?_, Or.inl ?_⟩
            · intro e he ht
              cases he
              cases ht
            · show (if path = tmpPath path then some text else fs path) = some doc
              rw [if_neg (tmpPath_ne path), hread]
          | false =>
            have hres : updateBoardDocumentationFile upperTable faults fs path pkg buildTags
                = (renameFile (writeFile fs (tmpPath path) text) (tmpPath path) path,
                    .ok ()) := by
              simp only [updateBoardDocumentationFile, hdet, hread, hcore, hw, hr,
                Bool.false_eq_true, if_false]
            rw [hres]
            refine ⟨?_, Or.inr ⟨rfl, features, doc, text, rfl, rfl, hcore, rfl, ?_⟩⟩
            · intro e he
              cases he
            · simp [renameFile, writeFile]

/-- C11 (witness): a document without Interfaces section gives the error of findSection,
and a document with a Pins section and a package without NoPin gives the error of
getPinsSection; in both runs the file system is as before, also with system calls that
would fail. -/
theorem atomicity_on_error_witness :
    (updateBoardDocumentationFile asciiOnly noFaults (fsWith docNoInterfaces) boardPath
        pkgFirstName ["nrf52".toList]).1 = fsWith docNoInterfaces
      ∧ (updateBoardDocumentationFile asciiOnly ⟨true, some [], true⟩
          (fsWith docBothSections) boardPath pkgFirstName ["nrf52".toList]).1
        = fsWith docBothSections :=
  ⟨(atomicity_on_error asciiOnly noFaults (fsWith docNoInterfaces) boardPath
      pkgFirstName ["nrf52".toList]).1 (.headerNotFound interfacesName) (by decide)
      (by decide),
    (atomicity_on_error asciiOnly ⟨true, some [], true⟩ (fsWith docBothSections) boardPath
      pkgFirstName ["nrf52".toList]).1 .noNoPin (by decide) (by decide)⟩

/-- A run without error on the document with the Interfaces section only: the canonical
path holds the new text and the temporary path is gone; a run in which the rename fails
leaves the document as it was and the new text at the temporary path. -/
theorem update_file_scenario :
    (updateBoardDocumentationFile asciiOnly noFaults (fsWith docNoPins) boardPath
        pkgFirstName ["nrf52".toList]).2 = .ok ()
      ∧ (updateBoardDocumentationFile asciiOnly noFaults (fsWith docNoPins) boardPath
          pkgFirstName ["nrf52".toList]).1 boardPath
        = some ("# Board\n\n".toList ++ interfacesHeader
            ++ "| SPI       | YES | Not yet |\n\n## Notes\n\ntext\n".toList)
      ∧ (updateBoardDocumentationFile asciiOnly noFaults (fsWith docNoPins) boardPath
          pkgFirstName ["nrf52".toList]).1 (tmpPath boardPath) = none
      ∧ (updateBoardDocumentationFile asciiOnly ⟨false, none, true⟩ (fsWith docNoPins)
          boardPath pkgFirstName ["nrf52".toList]).2 = .error .renameFailed
      ∧ (updateBoardDocumentationFile asciiOnly ⟨false, none, true⟩ (fsWith docNoPins)
          boardPath pkgFirstName ["nrf52".toList]).1 boardPath = some docNoPins := by
  refine ⟨by decide, by decide, by decide, by decide, by decide⟩

/-! ## Strings: splitting, trimming and pairs of characters -/

theorem Split_append_sep (sep : Char) : ∀ (a rest : Str), sep ∉ a →
    Split sep (a ++ sep :: rest) = a :: Split sep rest
  | [], rest, _ => by simp [Split]
  | c :: cs, rest, h => by
    have hc : c ≠ sep := fun e => h (by rw [e]; exact List.mem_cons_self _ _)
    have hcs : sep ∉ cs := fun m => h (List.mem_cons_of_mem _ m)
    rw [List.cons_append, Split, if_neg hc, Split_append_sep sep cs rest hcs]

/-- Splitting a text made of lines, each followed by the separator. -/
theorem Split_lines (sep : Char) : ∀ (ls : List Str) (tail : Str), (∀ l ∈ ls, sep ∉ l) →
    Split sep ((ls.map (fun l => l ++ [sep])).flatten ++ tail) = ls ++ Split sep tail
  | [], tail, _ => by simp
  | l :: ls, tail, h => by
    have hl := h l (List.mem_cons_self _ _)
    have := Split_lines sep ls tail (fun q hq => h q (List.mem_cons_of_mem _ hq))
    rw [List.map_cons, List.flatten_cons, List.append_assoc, List.append_assoc,
      List.singleton_append, Split_append_sep sep l _ hl, this, List.cons_append]

theorem dropWhile_append_of_all {p : Char → Bool} : ∀ (sp l : Str), (∀ c ∈ sp, p c = true) →
    (sp ++ l).dropWhile p = l.dropWhile p
  | [], l, _ => rfl
  | c :: sp, l, h => by
    rw [List.cons_append, List.dropWhile_cons, if_pos (h c (List.mem_cons_self _ _))]
    exact dropWhile_append_of_all sp l (fun q hq => h q (List.mem_cons_of_mem _ hq))

theorem rdropWhile_append_of_all {p : Char → Bool} (l : Str) : ∀ (sp : Str),
    (∀ c ∈ sp, p c = true) → (l ++ sp).rdropWhile p = l.rdropWhile p := by
  intro sp
  induction sp using List.reverseRecOn with
  | nil => intro _; simp
  | append_singleton sp c ih =>
    intro h
    rw [← List.append_assoc, List.rdropWhile_concat_pos p _ c (h c (by simp))]
    exact ih (fun q hq => h q (by simp [hq]))

/-- Trimming a cell padded with spaces gives the cell back. -/
theorem TrimSpace_padded (w : Nat) (t : Str) (h1 : t.dropWhile IsSpace = t)
    (h2 : t.rdropWhile IsSpace = t) :
    TrimSpace (' ' :: padRight w t ++ [' ']) = t := by
  unfold TrimSpace padRight
  have hsp : IsSpace ' ' = true := by decide
  have hall : ∀ c ∈ List.replicate (w - t.length) ' ' ++ [' '], IsSpace c = true := by
    intro c hc
    rcases List.mem_append.1 hc with hc | hc
    · rw [(List.mem_replicate.1 hc).2]; exact hsp
    · rw [List.mem_singleton.1 hc]; exact hsp
  rw [List.cons_append, List.dropWhile_cons, if_pos hsp, List.append_assoc]
  cases t with
  | nil =>
    rw [List.nil_append, List.dropWhile_eq_nil_iff.2 hall]
    rfl
  | cons c cs =>
    have hc : ¬ IsSpace c = true := by
      have := List.dropWhile_eq_self_iff.1 h1 (by simp)
      simpa using this
    rw [List.cons_append, List.dropWhile_cons, if_neg hc, ← List.cons_append,
      rdropWhile_append_of_all _ _ hall, h2]

theorem TrimSpace_clean (x : Str) :
    (TrimSpace x).dropWhile IsSpace = TrimSpace x
      ∧ (TrimSpace x).rdropWhile IsSpace = TrimSpace x := by
  unfold TrimSpace
  refine ⟨?_, List.rdropWhile_idempotent _ _⟩
  obtain ⟨u, hu⟩ := List.rdropWhile_prefix IsSpace (x.dropWhile IsSpace)
  have hhead := List.head?_dropWhile_not IsSpace x
  cases ht : (x.dropWhile IsSpace).rdropWhile IsSpace with
  | nil => rfl
  | cons c cs =>
    rw [ht] at hu
    rw [← hu] at hhead
    simp only [List.cons_append, List.head?_cons] at hhead
    rw [List.dropWhile_cons, hhead]
    simp

/-- An occurrence of two characters in a concatenation lies in one of the parts or on the
border. -/
theorem infix_pair_append {x y : Char} {a b : Str} (h : [x, y] <:+: a ++ b) :
    [x, y] <:+: a ∨ [x, y] <:+: b ∨ ((∃ a0, a = a0 ++ [x]) ∧ ∃ b0, b = y :: b0) := by
  obtain ⟨k, hk⟩ := prefix_drop_of_infix h
  rcases prefix_drop_append_cases hk with h1 | ⟨_, h2⟩ | ⟨hlt, v, hv, heq, hpre⟩
  · exact Or.inl (infix_of_prefix_drop h1)
  · exact Or.inr (Or.inl (infix_of_prefix_drop h2))
  · right; right
    have hlen : (a.drop k).length + v.length = 2 := by
      have := congrArg List.length heq
      simp only [List.length_cons, List.length_nil, List.length_append] at this
      omega
    have hd : 0 < (a.drop k).length := by
      rw [List.length_drop]; omega
    have hv0 : 0 < v.length := List.length_pos.2 hv
    match hak : a.drop k, v, heq, hlen, hd, hv0, hpre with
    | [d], [e], heq, _, _, _, hpre =>
      simp only [List.cons_append, List.nil_append, List.cons.injEq, and_true] at heq
      obtain ⟨hx, hy⟩ := heq
      subst hx; subst hy
      refine ⟨⟨a.take k, ?_⟩, ?_⟩
      · rw [← hak, List.take_append_drop]
      · obtain ⟨b0, hb0⟩ := hpre
        exact ⟨b0, hb0.symm⟩
    | [], _, _, _, hd, _, _ => simp at hd
    | _, [], _, _, _, hv0, _ => simp at hv0
    | [_], _ :: _ :: _, _, hlen, _, _, _ =>
      simp only [List.length_cons, List.length_nil] at hlen
      omega
    | _ :: _ :: _, _ :: _, _, hlen, _, _, _ =>
      simp only [List.length_cons] at hlen
      omega

/-! ## The rows of the regenerated table read again -/

theorem formatRow_eq_rowLine (f h s : Str) : formatRow f h s = rowLine f h s ++ ['\n'] := by
  simp [formatRow, rowLine]

theorem padRight_not_mem {c : Char} (hc : c ≠ ' ') {w : Nat} {x : Str} (h : c ∉ x) :
    c ∉ padRight w x := by
  unfold padRight
  intro hm
  rcases List.mem_append.1 hm with h1 | h1
  · exact h h1
  · exact hc (List.mem_replicate.1 h1).2

theorem padded_not_mem {c : Char} (hc : c ≠ ' ') {w : Nat} {x : Str} (h : c ∉ x) :
    c ∉ ' ' :: padRight w x ++ [' '] := by
  intro hm
  rw [List.cons_append, List.mem_cons, List.mem_append, List.mem_singleton] at hm
  rcases hm with h1 | h1 | h1
  · exact hc h1
  · exact padRight_not_mem hc h h1
  · exact hc h1

/-- The parts of a row of the regenerated table. -/
theorem Split_bar_rowLine {f h s : Str} (hf : '|' ∉ f) (hh : '|' ∉ h) (hs : '|' ∉ s) :
    Split '|' (rowLine f h s)
      = [[], ' ' :: padRight 9 f ++ [' '], ' ' :: padRight 3 h ++ [' '],
          ' ' :: padRight 3 s ++ [' '], []] := by
  have hshape : rowLine f h s
      = [] ++ '|' :: ((' ' :: padRight 9 f ++ [' ']) ++ '|' :: ((' ' :: padRight 3 h ++ [' '])
          ++ '|' :: ((' ' :: padRight 3 s ++ [' ']) ++ '|' :: []))) := by
    simp [rowLine]
  have hbar : ('|' : Char) ≠ ' ' := by decide
  rw [hshape, Split_append_sep '|' [] _ (List.not_mem_nil _),
    Split_append_sep '|' _ _ (padded_not_mem hbar hf),
    Split_append_sep '|' _ _ (padded_not_mem hbar hh),
    Split_append_sep '|' _ _ (padded_not_mem hbar hs)]
  rfl

theorem rowLine_hasPrefix (f h s : Str) : HasPrefix (rowLine f h s) rowPrefix = true := by
  rw [HasPrefix_iff]
  exact ⟨padRight 9 f ++ " | ".toList ++ padRight 3 h ++ " | ".toList ++ padRight 3 s
    ++ " |".toList, by simp [rowLine, rowPrefix]⟩

/-- A row written by the row loop is read as a data row with the cells written. -/
theorem dataRow_rowLine {cells : Str × Str × Str} (h : WrittenCells cells) :
    dataRow (rowLine cells.1 cells.2.1 cells.2.2) = some cells
      ∧ rowParses (rowLine cells.1 cells.2.1 cells.2.2) = true := by
  obtain ⟨⟨f1, f2, f3, _⟩, ⟨h1, h2, h3, _⟩, ⟨s1, s2, s3, _⟩, hne, hni, hnd⟩ := h
  have hsplit := Split_bar_rowLine f3 h3 s3
  have hf := TrimSpace_padded 9 cells.1 f1 f2
  have hh := TrimSpace_padded 3 cells.2.1 h1 h2
  have hs := TrimSpace_padded 3 cells.2.2 s1 s2
  constructor
  · unfold dataRow
    rw [rowLine_hasPrefix, if_pos rfl, hsplit]
    simp only [hf, hh, hs]
    rw [if_neg (by
      intro hor
      rcases hor with hor | hor
      · exact hni hor
      · exact hnd hor)]
  · unfold rowParses
    rw [rowLine_hasPrefix, hsplit]
    simp only [hf, Bool.not_true, Bool.false_or]
    cases hc : cells.1 with
    | nil => exact absurd hc hne
    | cons c cs => rfl

theorem Split_part_clean {line p : Str} (hline : '\n' ∉ line) (hp : p ∈ Split '|' line) :
    CleanCell (TrimSpace p) :=
  ⟨(TrimSpace_clean p).1, (TrimSpace_clean p).2,
    fun hm => Split_sep_not_mem '|' line p hp (TrimSpace_subset p _ hm),
    fun hm => hline (Split_subset '|' line p hp _ (TrimSpace_subset p _ hm))⟩

/-- The cells of a data row of a line that the row loop reads without failure. -/
theorem dataRow_written {line : Str} {cells : Str × Str × Str} (hline : '\n' ∉ line)
    (hparse : rowParses line = true) (hd : dataRow line = some cells) :
    WrittenCells cells := by
  unfold dataRow at hd
  unfold rowParses at hparse
  cases hp : HasPrefix line rowPrefix with
  | false => simp [hp] at hd
  | true =>
    simp only [hp, if_true] at hd
    simp only [hp, Bool.not_true, Bool.false_or] at hparse
    split at hd
    · rename_i p0 p1 p2 p3 p4 hsplit
      rw [hsplit] at hparse
      simp only at hparse
      split at hd
      · cases hd
      · rename_i hnot
        simp only [Option.some.injEq] at hd
        subst hd
        have hmem : ∀ p ∈ [p0, p1, p2, p3, p4], CleanCell (TrimSpace p) := by
          intro p hp
          rw [← hsplit] at hp
          exact Split_part_clean hline hp
        refine ⟨hmem p1 (by simp), hmem p2 (by simp), hmem p3 (by simp), ?_, ?_, ?_⟩
        · intro hnil
          simp only at hnil
          rw [hnil] at hparse
          cases hparse
        · exact fun hi => hnot (Or.inl hi)
        · exact fun hi => hnot (Or.inr hi)
    · cases hd

theorem cleanCell_YES : CleanCell cellYES := by
  refine ⟨by decide, by decide, by decide, by decide⟩

theorem cleanCell_NotYet : CleanCell cellNotYet := by
  refine ⟨by decide, by decide, by decide, by decide⟩

theorem expectedSoftwareSupport_cases (features : FlagMap) (f h s : Str) :
    expectedSoftwareSupport features f h s = s
      ∨ expectedSoftwareSupport features f h s = cellYES
      ∨ expectedSoftwareSupport features f h s = cellNotYet := by
  unfold expectedSoftwareSupport
  split
  · exact Or.inl rfl
  · split
    · exact Or.inr (Or.inl rfl)
    · exact Or.inr (Or.inr rfl)
    · exact Or.inl rfl

theorem updatedCells_written (features : FlagMap) {cells : Str × Str × Str}
    (h : WrittenCells cells) : WrittenCells (updatedCells features cells) := by
  obtain ⟨hf, hh, hs, hne, hni, hnd⟩ := h
  refine ⟨hf, hh, ?_, hne, hni, hnd⟩
  show CleanCell (expectedSoftwareSupport features cells.1 cells.2.1 cells.2.2)
  rcases expectedSoftwareSupport_cases features cells.1 cells.2.1 cells.2.2 with e | e | e
  · rw [e]; exact hs
  · rw [e]; exact cleanCell_YES
  · rw [e]; exact cleanCell_NotYet

/-- Updating the software-support cell a second time changes nothing. -/
theorem updatedCells_idem (features : FlagMap) (cells : Str × Str × Str) :
    updatedCells features (updatedCells features cells) = updatedCells features cells := by
  unfold updatedCells
  simp only [Prod.mk.injEq, true_and]
  unfold expectedSoftwareSupport
  split
  · rfl
  · split <;> rfl

theorem expectedRow_eq (features : FlagMap) (cells : Str × Str × Str) :
    expectedRow features cells
      = rowLine (updatedCells features cells).1 (updatedCells features cells).2.1
          (updatedCells features cells).2.2 ++ ['\n'] := by
  unfold expectedRow
  rw [formatRow_eq_rowLine]
  rfl

theorem expectedRow_updated (features : FlagMap) (cells : Str × Str × Str) :
    expectedRow features (updatedCells features cells) = expectedRow features cells := by
  rw [expectedRow_eq, expectedRow_eq, updatedCells_idem]

theorem rowLine_no_newline {cells : Str × Str × Str} (h : WrittenCells cells) :
    '\n' ∉ rowLine cells.1 cells.2.1 cells.2.2 := by
  obtain ⟨⟨_, _, _, f4⟩, ⟨_, _, _, h4⟩, ⟨_, _, _, s4⟩, _⟩ := h
  have hnl : ('\n' : Char) ≠ ' ' := by decide
  have h1 := padRight_not_mem (w := 9) hnl f4
  have h2 := padRight_not_mem (w := 3) hnl h4
  have h3 := padRight_not_mem (w := 3) hnl s4
  unfold rowLine
  intro hm
  simp only [List.mem_append] at hm
  rcases hm with (((((hm | hm) | hm) | hm) | hm) | hm) | hm
  · revert hm; decide
  · exact h1 hm
  · revert hm; decide
  · exact h2 hm
  · revert hm; decide
  · exact h3 hm
  · revert hm; decide

/-! ## The regenerated table read again -/

theorem interfacesHeader_lines :
    interfacesHeader = (headingLines.map (fun l => l ++ ['\n'])).flatten := by decide

theorem headingLines_no_newline : ∀ l ∈ headingLines, '\n' ∉ l := by decide

theorem headingLines_tail_head : ∀ l ∈ headingLines.tail, l.head? ≠ some '#' := by decide

/-- The cells of the data rows of a section. -/
theorem dataRows_written {oldSection : Str} (h : rowsParse oldSection = true) :
    ∀ cells ∈ (Split '\n' oldSection).filterMap dataRow, WrittenCells cells := by
  intro cells hc
  obtain ⟨line, hline, hd⟩ := List.mem_filterMap.1 hc
  unfold rowsParse at h
  exact dataRow_written (Split_sep_not_mem '\n' oldSection line hline)
    (List.all_eq_true.1 h line hline) hd

/-- The regenerated table as a list of lines. -/
theorem expectedInterfaces_lines (features : FlagMap) (oldSection : Str) :
    expectedInterfaces features oldSection
      = ((headingLines ++ (((Split '\n' oldSection).filterMap dataRow).map
          (fun cells => rowLine (updatedCells features cells).1
            (updatedCells features cells).2.1 (updatedCells features cells).2.2))).map
          (fun l => l ++ ['\n'])).flatten := by
  unfold expectedInterfaces
  rw [List.map_append, List.flatten_append, ← interfacesHeader_lines, List.map_map]
  congr 2
  apply List.map_congr_left
  intro cells _
  exact expectedRow_eq features cells

theorem filterMap_dataRow_rows (features : FlagMap) : ∀ (cellsList : List (Str × Str × Str)),
    (∀ cells ∈ cellsList, WrittenCells cells) →
    (cellsList.map (fun cells => rowLine (updatedCells features cells).1
        (updatedCells features cells).2.1 (updatedCells features cells).2.2)).filterMap dataRow
      = cellsList.map (updatedCells features)
  | [], _ => rfl
  | cells :: rest, h => by
    have hw := updatedCells_written features (h cells (List.mem_cons_self _ _))
    rw [List.map_cons, List.filterMap_cons, (dataRow_rowLine hw).1, List.map_cons,
      filterMap_dataRow_rows features rest (fun q hq => h q (List.mem_cons_of_mem _ hq))]

/-- The lines of the regenerated table: the heading, the rows, and the empty text after the
last newline. -/
theorem Split_expectedInterfaces (features : FlagMap) {oldSection : Str}
    (h : rowsParse oldSection = true) :
    Split '\n' (expectedInterfaces features oldSection)
      = headingLines ++ (((Split '\n' oldSection).filterMap dataRow).map
          (fun cells => rowLine (updatedCells features cells).1
            (updatedCells features cells).2.1 (updatedCells features cells).2.2)) ++ [[]] := by
  rw [expectedInterfaces_lines]
  have := Split_lines '\n' (headingLines ++ (((Split '\n' oldSection).filterMap dataRow).map
      (fun cells => rowLine (updatedCells features cells).1
        (updatedCells features cells).2.1 (updatedCells features cells).2.2))) [] (by
    intro l hl
    rcases List.mem_append.1 hl with hl | hl
    · exact headingLines_no_newline l hl
    · obtain ⟨cells, hc, rfl⟩ := List.mem_map.1 hl
      exact rowLine_no_newline (updatedCells_written features (dataRows_written h cells hc)))
  rw [List.append_nil] at this
  rw [this]
  rfl

/-- The regenerated table is read without failure and regenerated as it is. -/
theorem expectedInterfaces_fixed (features : FlagMap) {oldSection : Str}
    (h : rowsParse oldSection = true) :
    rowsParse (expectedInterfaces features oldSection) = true
      ∧ expectedInterfaces features (expectedInterfaces features oldSection)
        = expectedInterfaces features oldSection := by
  have hsplit := Split_expectedInterfaces features h
  have hw := dataRows_written h
  constructor
  · unfold rowsParse
    rw [hsplit, List.all_append, List.all_append, Bool.and_eq_true, Bool.and_eq_true]
    refine ⟨⟨by decide, ?_⟩, by decide⟩
    rw [List.all_eq_true]
    intro l hl
    obtain ⟨cells, hc, rfl⟩ := List.mem_map.1 hl
    exact (dataRow_rowLine (updatedCells_written features (hw cells hc))).2
  · have hfm : (Split '\n' (expectedInterfaces features oldSection)).filterMap dataRow
        = ((Split '\n' oldSection).filterMap dataRow).map (updatedCells features) := by
      rw [hsplit, List.filterMap_append, List.filterMap_append,
        filterMap_dataRow_rows features _ hw]
      have h1 : headingLines.filterMap dataRow = [] := by decide
      have h2 : ([[]] : List Str).filterMap dataRow = [] := by decide
      rw [h1, h2, List.nil_append, List.append_nil]
    show interfacesHeader ++ _ = interfacesHeader ++ _
    rw [hfm, List.map_map]
    congr 2
    apply List.map_congr_left
    intro cells _
    exact expectedRow_updated features cells

/-- Regenerating a regenerated table succeeds and returns the table. -/
theorem regenerateInterfaces_fixed (features : FlagMap) {oldSection : Str}
    (h : rowsParse oldSection = true) :
    regenerateInterfaces features (expectedInterfaces features oldSection)
      = .ok (expectedInterfaces features oldSection) := by
  have hfix := expectedInterfaces_fixed features h
  rw [regenerateInterfaces_of_rowsParse features hfix.1, hfix.2]

/-! ## The Interfaces section located again -/

theorem noHeadingInside_append {a b : Str} (ha : NoHeadingInside a) (hb : NoHeadingInside b)
    (hhead : b.head? ≠ some '#') : NoHeadingInside (a ++ b) := by
  intro h
  rcases infix_pair_append h with h1 | h1 | ⟨_, b0, hb0⟩
  · exact ha h1
  · exact hb h1
  · rw [hb0] at hhead
    exact hhead rfl

theorem noHeadingInside_line {l : Str} (h : '\n' ∉ l) : NoHeadingInside (l ++ ['\n']) := by
  intro hin
  rcases infix_pair_append hin with h1 | h1 | ⟨_, b0, hb0⟩
  · exact h (h1.subset (List.mem_cons_self _ _))
  · have := h1.length_le
    simp at this
  · cases hb0

/-- Lines that do not begin with "#", each followed by a newline, and one more newline. -/
theorem noHeadingInside_lines : ∀ (ls : List Str),
    (∀ l ∈ ls, '\n' ∉ l ∧ l.head? ≠ some '#') →
    NoHeadingInside ((ls.map (fun l => l ++ ['\n'])).flatten ++ ['\n'])
      ∧ ((ls.map (fun l => l ++ ['\n'])).flatten ++ ['\n']).head? ≠ some '#'
  | [], _ => by
    refine ⟨?_, by decide⟩
    intro h
    have := h.length_le
    simp at this
  | l :: ls, h => by
    obtain ⟨hl1, hl2⟩ := h l (List.mem_cons_self _ _)
    obtain ⟨ih1, ih2⟩ := noHeadingInside_lines ls
      (fun q hq => h q (List.mem_cons_of_mem _ hq))
    rw [List.map_cons, List.flatten_cons, List.append_assoc]
    refine ⟨noHeadingInside_append (noHeadingInside_line hl1) ih1 ih2, ?_⟩
    cases l with
    | nil => simp
    | cons c cs => simpa using hl2

theorem rowLine_head (f h s : Str) : (rowLine f h s).head? ≠ some '#' := by
  simp [rowLine]

/-- In the regenerated table followed by a newline, no newline is followed by "#". -/
theorem expectedInterfaces_noHeadingInside (features : FlagMap) {oldSection : Str}
    (h : rowsParse oldSection = true) :
    NoHeadingInside (expectedInterfaces features oldSection ++ ['\n']) := by
  rw [expectedInterfaces_lines]
  have hlines := noHeadingInside_lines (headingLines.tail
      ++ (((Split '\n' oldSection).filterMap dataRow).map
        (fun cells => rowLine (updatedCells features cells).1
          (updatedCells features cells).2.1 (updatedCells features cells).2.2))) (by
    intro l hl
    rcases List.mem_append.1 hl with hl | hl
    · exact ⟨headingLines_no_newline l (List.mem_of_mem_tail hl),
        headingLines_tail_head l hl⟩
    · obtain ⟨cells, hc, rfl⟩ := List.mem_map.1 hl
      exact ⟨rowLine_no_newline (updatedCells_written features (dataRows_written h cells hc)),
        rowLine_head _ _ _⟩)
  have hshape : headingLines = "## Interfaces".toList :: headingLines.tail := rfl
  rw [hshape, List.cons_append, List.map_cons, List.flatten_cons, List.append_assoc]
  exact noHeadingInside_append (noHeadingInside_line (by decide)) hlines.1 hlines.2

theorem sectionHeader_prefix_expectedInterfaces (features : FlagMap) (oldSection : Str) :
    ∃ rest, expectedInterfaces features oldSection
      = sectionHeader interfacesName ++ rest := by
  unfold expectedInterfaces
  have : ∃ r, interfacesHeader = sectionHeader interfacesName ++ r :=
    ⟨interfacesHeader.drop 14, by decide⟩
  obtain ⟨r, hr⟩ := this
  exact ⟨r ++ _, by rw [hr, List.append_assoc]⟩

/-- The Interfaces section of the document after the replacement: it starts at the same
offset and ends at the end of the regenerated table. -/
theorem findSection_after_replacement (features : FlagMap) (doc : Str) (start stop : Nat)
    (hI : findSection interfacesName doc = .ok (start, stop))
    (hrows : rowsParse (slice doc start stop) = true) :
    findSection interfacesName
        (doc.take start ++ expectedInterfaces features (slice doc start stop) ++ doc.drop stop)
      = .ok (start, start + (expectedInterfaces features (slice doc start stop)).length) := by
  obtain ⟨hhead, hfirst, hle, hend, _⟩ := (findSection_ok_iff _ _ _ _).1 hI
  have hbound := findSection_bounds_le hI
  have hlenP : (doc.take start).length = start := by
    rw [List.length_take]; omega
  obtain ⟨rest, hrest⟩ := sectionHeader_prefix_expectedInterfaces features
    (slice doc start stop)
  generalize hT : expectedInterfaces features (slice doc start stop) = T at hrest
  have hnh : NoHeadingInside (T ++ ['\n']) := by
    rw [← hT]; exact expectedInterfaces_noHeadingInside features hrows
  have hdrop : ∀ k, (doc.take start ++ T ++ doc.drop stop).drop (start + k)
      = (T ++ doc.drop stop).drop k := by
    intro k
    have h := @List.drop_append _ (doc.take start) (T ++ doc.drop stop) k
    rw [hlenP] at h
    rw [List.append_assoc]
    exact h
  rw [findSection_ok_iff]
  refine ⟨?_, ?_, Nat.le_add_right _ _, ?_, ?_⟩
  · have := hdrop 0
    rw [Nat.add_zero, List.drop_zero] at this
    rw [this, hrest, List.append_assoc]
    exact List.prefix_append _ _
  · intro j hj hpre
    apply hfirst j hj
    obtain ⟨tailDoc, htail⟩ := hhead
    have hdoc : doc = doc.take start ++ (sectionHeader interfacesName ++ tailDoc) := by
      rw [htail, List.take_append_drop]
    have hj2 : j ≤ (doc.take start).length := by omega
    rw [hrest, List.append_assoc, List.append_assoc,
      List.drop_append_of_le_length hj2, ← List.append_assoc] at hpre
    have hpre2 : sectionHeader interfacesName
        <+: (doc.take start).drop j ++ sectionHeader interfacesName := by
      refine List.prefix_of_prefix_length_le hpre (List.prefix_append _ _) ?_
      rw [List.length_append]
      omega
    obtain ⟨u, hu⟩ := hpre2
    refine ⟨u ++ tailDoc, ?_⟩
    rw [← List.append_assoc, hu]
    conv_rhs => rw [hdoc]
    rw [List.drop_append_of_le_length hj2, List.append_assoc]
  · rw [hdrop, List.drop_left]
    exact hend
  · intro j hj1 hj2 hpre
    obtain ⟨k, rfl⟩ := Nat.exists_eq_add_of_le hj1
    have hk : k < T.length := by omega
    rw [hdrop, List.drop_append_of_le_length (Nat.le_of_lt hk)] at hpre
    obtain ⟨tailEnd, htail⟩ := hend
    have hE : doc.drop stop = ['\n'] ++ ("## ".toList ++ tailEnd) := by
      rw [← htail]; rfl
    rw [hE, ← List.append_assoc] at hpre
    have hTk : T.drop k ++ ['\n'] = (T ++ ['\n']).drop k := by
      rw [List.drop_append_of_le_length (Nat.le_of_lt hk)]
    rw [hTk] at hpre
    have hpair : ['\n', '#'] <+: (T ++ ['\n']).drop k ++ ("## ".toList ++ tailEnd) :=
      List.IsPrefix.trans ⟨['#', ' '], rfl⟩ hpre
    have hpair2 : ['\n', '#'] <+: (T ++ ['\n']).drop k := by
      refine List.prefix_of_prefix_length_le hpair (List.prefix_append _ _) ?_
      rw [List.length_drop, List.length_append]
      simp only [List.length_cons, List.length_nil]
      omega
    exact hnh (infix_of_prefix_drop hpair2)

/-! ## Idempotence of the Interfaces step -/

/-- The text of updateBoardDocumentation before the Pins section is looked for is the
result of the Interfaces step. -/
theorem updateBoardDocumentation_of_step_failed (upperTable : Char → Bool)
    (features : FlagMap) (doc : Str) (pkg : Package)
    (h : (replaceInterfacesSection features doc).isOk = false) :
    (updateBoardDocumentation upperTable features doc pkg).isOk = false := by
  unfold replaceInterfacesSection at h
  unfold updateBoardDocumentation
  cases hf : findSection interfacesName doc with
  | error e => rfl
  | crash => rfl
  | ok p =>
    obtain ⟨start, stop⟩ := p
    simp only [hf] at h
    simp only
    cases hr : regenerateInterfaces features (slice doc start stop) with
    | error e => rfl
    | crash => rfl
    | ok interfacesText => simp only [hr] at h; cases h

theorem slice_middle (p t e : Str) : slice (p ++ t ++ e) p.length (p.length + t.length) = t := by
  unfold slice
  rw [List.take_left' (by rw [List.length_append]), List.drop_left' rfl]

theorem replace_middle (p t e : Str) :
    (p ++ t ++ e).take p.length ++ t ++ (p ++ t ++ e).drop (p.length + t.length)
      = p ++ t ++ e := by
  rw [List.drop_left' (by rw [List.length_append]), List.append_assoc p t e,
    List.take_left' rfl, List.append_assoc]

/-- C20: for every document and flag map for which locating and regenerating the
Interfaces section succeeds with the result doc1, the same step on doc1 with the same flag
map succeeds and returns doc1 unchanged; the section of doc1 is found at the same start
offset, it ends exactly at the end of the regenerated table, and the table regenerated from
it is the same table. -/
theorem interfaces_reconciliation_idempotent (features : FlagMap) (doc doc1 : Str)
    (h : replaceInterfacesSection features doc = .ok doc1) :
    replaceInterfacesSection features doc1 = .ok doc1
      ∧ ∃ start stop interfacesText,
          findSection interfacesName doc = .ok (start, stop)
          ∧ regenerateInterfaces features (slice doc start stop) = .ok interfacesText
          ∧ doc1 = doc.take start ++ interfacesText ++ doc.drop stop
          ∧ findSection interfacesName doc1 = .ok (start, start + interfacesText.length)
          ∧ regenerateInterfaces features (slice doc1 start (start + interfacesText.length))
            = .ok interfacesText := by
  unfold replaceInterfacesSection at h
  cases hf : findSection interfacesName doc with
  | error e => simp only [hf] at h; cases h
  | crash => simp only [hf] at h; cases h
  | ok p =>
    obtain ⟨start, stop⟩ := p
    simp only [hf] at h
    cases hr : regenerateInterfaces features (slice doc start stop) with
    | error e => simp only [hr] at h; cases h
    | crash => simp only [hr] at h; cases h
    | ok interfacesText =>
      simp only [hr, Outcome.ok.injEq] at h
      obtain ⟨hrows, htext⟩ := (regenerateInterfaces_ok_iff _ _ _).1 hr
      have hlenP : (doc.take start).length = start := by
        have := findSection_bounds_le hf
        rw [List.length_take]; omega
      have hfind := findSection_after_replacement features doc start stop hf hrows
      rw [← htext, h] at hfind
      have hslice : slice doc1 start (start + interfacesText.length) = interfacesText := by
        have := slice_middle (doc.take start) interfacesText (doc.drop stop)
        rw [hlenP, h] at this
        exact this
      have hregen : regenerateInterfaces features
          (slice doc1 start (start + interfacesText.length)) = .ok interfacesText := by
        rw [hslice, htext]
        exact regenerateInterfaces_fixed features hrows
      have hsame : doc1.take start ++ interfacesText
          ++ doc1.drop (start + interfacesText.length) = doc1 := by
        have := replace_middle (doc.take start) interfacesText (doc.drop stop)
        rw [hlenP, h] at this
        exact this
      refine ⟨?_, start, stop, interfacesText, rfl, hr, h.symm, hfind, hregen⟩
      unfold replaceInterfacesSection
      simp only [hfind, hregen, hsame]

/-- C20 (witness): the document with the row "| SPI | YES | NO |" and the flags of the
scenario; the step returns the document with the regenerated table, and the step on that
document returns it unchanged. -/
theorem interfaces_reconciliation_idempotent_witness :
    replaceInterfacesSection flagsScenario docNoPinsUpdated = .ok docNoPinsUpdated
      ∧ ∃ start stop interfacesText,
          findSection interfacesName docNoPins = .ok (start, stop)
          ∧ regenerateInterfaces flagsScenario (slice docNoPins start stop)
            = .ok interfacesText
          ∧ docNoPinsUpdated = docNoPins.take start ++ interfacesText ++ docNoPins.drop stop
          ∧ findSection interfacesName docNoPinsUpdated
            = .ok (start, start + interfacesText.length)
          ∧ regenerateInterfaces flagsScenario
              (slice docNoPinsUpdated start (start + interfacesText.length))
            = .ok interfacesText :=
  interfaces_reconciliation_idempotent flagsScenario docNoPins docNoPinsUpdated (by decide)

/-! ## The cells of the rows of the pin table -/

theorem quoted_clean (name : Str) :
    (quoted name).dropWhile IsSpace = quoted name
      ∧ (quoted name).rdropWhile IsSpace = quoted name := by
  have hshape : quoted name = ('`' :: name) ++ ['`'] := by simp [quoted]
  constructor
  · rw [hshape, List.cons_append, List.dropWhile_cons, if_neg (by decide)]
  · rw [hshape]
    exact List.rdropWhile_concat_neg _ _ _ (by decide)

/-- The names in backticks joined by ", " begin and end with a backtick. -/
theorem join_quoted_shape : ∀ (name : Str) (names : List Str),
    (∃ body, Join ((name :: names).map quoted) ", ".toList = '`' :: body)
      ∧ ∃ body, Join ((name :: names).map quoted) ", ".toList = body ++ ['`']
  | name, [] => by
    have h : Join ([name].map quoted) ", ".toList = quoted name := by
      simp [Join, List.intercalate, List.intersperse]
    rw [h]
    exact ⟨⟨name ++ ['`'], by simp [quoted]⟩, ⟨'`' :: name, by simp [quoted]⟩⟩
  | name, next :: names => by
    have h : Join ((name :: next :: names).map quoted) ", ".toList
        = quoted name ++ ", ".toList ++ Join ((next :: names).map quoted) ", ".toList := by
      simp [Join, List.intercalate, List.intersperse]
    obtain ⟨_, body, hbody⟩ := join_quoted_shape next names
    rw [h, hbody]
    exact ⟨⟨name ++ ['`'] ++ ", ".toList ++ (body ++ ['`']), by simp [quoted]⟩,
      ⟨quoted name ++ ", ".toList ++ body, by simp⟩⟩

theorem join_quoted_clean (names : List Str) :
    (Join (names.map quoted) ", ".toList).dropWhile IsSpace = Join (names.map quoted) ", ".toList
      ∧ (Join (names.map quoted) ", ".toList).rdropWhile IsSpace
        = Join (names.map quoted) ", ".toList := by
  cases names with
  | nil => exact ⟨rfl, rfl⟩
  | cons name names =>
    obtain ⟨⟨b1, h1⟩, ⟨b2, h2⟩⟩ := join_quoted_shape name names
    constructor
    · rw [h1, List.dropWhile_cons, if_neg (by decide)]
    · rw [h2]
      exact List.rdropWhile_concat_neg _ _ _ (by decide)

theorem quoted_no_bar {name : Str} (h : '|' ∉ name) : '|' ∉ quoted name := by
  intro hm
  simp only [quoted, List.mem_append] at hm
  rcases hm with (hm | hm) | hm
  · revert hm; decide
  · exact h hm
  · revert hm; decide

theorem join_quoted_no_bar : ∀ (names : List Str), (∀ n ∈ names, '|' ∉ n) →
    '|' ∉ Join (names.map quoted) ", ".toList
  | [], _ => by simp [Join, List.intercalate]
  | [name], h => by
    have e : Join ([name].map quoted) ", ".toList = quoted name := by
      simp [Join, List.intercalate, List.intersperse]
    rw [e]
    exact quoted_no_bar (h name (List.mem_cons_self _ _))
  | name :: next :: names, h => by
    have e : Join ((name :: next :: names).map quoted) ", ".toList
        = quoted name ++ ", ".toList ++ Join ((next :: names).map quoted) ", ".toList := by
      simp [Join, List.intercalate, List.intersperse]
    rw [e]
    intro hm
    simp only [List.mem_append] at hm
    rcases hm with (hm | hm) | hm
    · exact quoted_no_bar (h name (List.mem_cons_self _ _)) hm
    · revert hm; decide
    · exact join_quoted_no_bar (next :: names)
        (fun q hq => h q (List.mem_cons_of_mem _ hq)) hm

/-- The cells read from a row of three cells without bars and without white space at their
ends are these cells, between the empty texts before the first and after the last bar. -/
theorem rowCells_pinTableRow {c0 c1 c2 : Str} (h0 : '|' ∉ c0) (h1 : '|' ∉ c1)
    (h2 : '|' ∉ c2) (t0 : c0.dropWhile IsSpace = c0 ∧ c0.rdropWhile IsSpace = c0)
    (t1 : c1.dropWhile IsSpace = c1 ∧ c1.rdropWhile IsSpace = c1)
    (t2 : c2.dropWhile IsSpace = c2 ∧ c2.rdropWhile IsSpace = c2) :
    rowCells (pinTableRow [c0, c1, c2]) = [[], c0, c1, c2, []] := by
  have hshape : pinTableRow [c0, c1, c2]
      = [] ++ '|' :: ((' ' :: padRight 17 c0 ++ [' ']) ++ '|' :: ((' ' :: padRight 12 c1 ++ [' '])
          ++ '|' :: ((' ' :: padRight 17 c2 ++ [' ']) ++ '|' :: ['\n']))) := by
    simp [pinTableRow]
  have hbar : ('|' : Char) ≠ ' ' := by decide
  unfold rowCells
  rw [hshape, Split_append_sep '|' [] _ (List.not_mem_nil _),
    Split_append_sep '|' _ _ (padded_not_mem hbar h0),
    Split_append_sep '|' _ _ (padded_not_mem hbar h1),
    Split_append_sep '|' _ _ (padded_not_mem hbar h2)]
  have hlast : Split '|' ['\n'] = [['\n']] := by decide
  rw [hlast]
  simp only [List.map_cons, List.map_nil, TrimSpace_padded 17 c0 t0.1 t0.2,
    TrimSpace_padded 12 c1 t1.1 t1.2, TrimSpace_padded 17 c2 t2.1 t2.2]
  have e1 : TrimSpace [] = [] := by decide
  have e2 : TrimSpace ['\n'] = [] := by decide
  rw [e1, e2]

/-- The cells read from the row of a Pin Entry whose names have no bar. -/
theorem rowCells_expectedPinRow (pin : Pin)
    (h : ∀ n ∈ pin.HardwareName :: pin.OtherNames, '|' ∉ n) :
    rowCells (expectedPinRow pin) = [] :: pinCells pin ++ [[]] := by
  unfold expectedPinRow pinCells
  rw [rowCells_pinTableRow]
  · rfl
  · apply quoted_no_bar
    cases ho : pin.OtherNames with
    | nil => simp
    | cons first rest =>
      exact h first (by rw [ho]; simp)
  · exact quoted_no_bar (h _ (List.mem_cons_self _ _))
  · apply join_quoted_no_bar
    intro n hn
    exact h n (List.mem_cons_of_mem _ (List.mem_of_mem_tail hn))
  · exact quoted_clean _
  · exact quoted_clean _
  · exact join_quoted_clean _

/-- C17: for every package on which getPinsSection succeeds, the returned text is the
"## Pins" header and table heading followed by exactly one row per resolved Pin Entry, in
entry order; the three cells of a row, padded to the widths of the columns, are the first
alias in backticks, the hardware name in backticks, and the remaining aliases, each in
backticks, joined by a comma and a space (empty when there is only one alias); and when the
names have no bar these are the cells read from the row between its bars. -/
theorem pin_table_rendering (upperTable : Char → Bool) (pkg : Package) (text : Str)
    (h : getPinsSection upperTable pkg = .ok text) :
    ∃ entries, resolvePins upperTable pkg = .ok entries
      ∧ text = pinsHeader ++ (entries.map expectedPinRow).flatten
      ∧ ∀ pin ∈ entries, ∃ first rest, pin.OtherNames = first :: rest
          ∧ pinCells pin
            = [quoted first, quoted pin.HardwareName, Join (rest.map quoted) ", ".toList]
          ∧ ((∀ n ∈ pin.HardwareName :: pin.OtherNames, '|' ∉ n) →
              rowCells (expectedPinRow pin)
                = [[], quoted first, quoted pin.HardwareName,
                    Join (rest.map quoted) ", ".toList, []]) := by
  have hscan := scanPins_eq_packageScan (scanPins_isOk_of_getPinsSection h)
  have hent := (getPinsSection_ok hscan h).1
  refine ⟨_, hent, ?_, ?_⟩
  · unfold getPinsSection at h
    simp only [hent] at h
    exact renderLoop_text _ pinsHeader text h
  · intro pin hpin
    have hne := expectedEntries_otherNames_ne_nil (packageScan upperTable pkg) pin hpin
    cases ho : pin.OtherNames with
    | nil => exact absurd ho hne
    | cons first rest =>
      have hcells : pinCells pin
          = [quoted first, quoted pin.HardwareName, Join (rest.map quoted) ", ".toList] := by
        simp [pinCells, ho]
      refine ⟨first, rest, rfl, hcells, ?_⟩
      intro hbar
      rw [rowCells_expectedPinRow pin (by rw [ho]; exact hbar), hcells]
      rfl

/-- C17 (witness): for the constants NoPin = 0xFF, GPIO3 Pin = 3 and LED Pin = GPIO3 the
table has the one row of the entry GPIO3 / [LED]. -/
theorem pin_table_rendering_witness :
    ∃ entries, resolvePins asciiOnly pkgScenario = .ok entries
      ∧ pinsTextScenario = pinsHeader ++ (entries.map expectedPinRow).flatten
      ∧ ∀ pin ∈ entries, ∃ first rest, pin.OtherNames = first :: rest
          ∧ pinCells pin
            = [quoted first, quoted pin.HardwareName, Join (rest.map quoted) ", ".toList]
          ∧ ((∀ n ∈ pin.HardwareName :: pin.OtherNames, '|' ∉ n) →
              rowCells (expectedPinRow pin)
                = [[], quoted first, quoted pin.HardwareName,
                    Join (rest.map quoted) ", ".toList, []]) :=
  pin_table_rendering asciiOnly pkgScenario pinsTextScenario (by decide)

/-- The row rendered for the entry GPIO3 / [LED] has the cells of the row
"| `LED` | `GPIO3` | |" of the specification, and differs from it by the padding of the
cells and the final newline only; three aliases give the third cell "`D13`, `SCK`". -/
theorem pin_table_scenario_rows :
    expectedPinRow { HardwareName := "GPIO3".toList, OtherNames := ["LED".toList] }
        = "| `LED`             | `GPIO3`      |                   |\n".toList
      ∧ rowCells (expectedPinRow
          { HardwareName := "GPIO3".toList, OtherNames := ["LED".toList] })
        = rowCells "| `LED` | `GPIO3` | |".toList
      ∧ getPinsSection asciiOnly pkgScenario
        = .ok (pinsHeader ++ "| `LED`             | `GPIO3`      |                   |\n".toList)
      ∧ getPinsSection asciiOnly pkgThreeAliases
        = .ok (pinsHeader ++ "| `LED`             | `PB5`        | `D13`, `SCK`      |\n".toList) := by
  refine ⟨by decide, by decide, by decide, by decide⟩

end DocGen
